import Mathlib

/-!
# Colobot level parser (`src/object/level/parser.cpp`)

A shallow embedding of `CLevelParser`: the path builder (`BuildCategoryPath`,
`BuildScenePath`), the loader (`Load`) with its tokenizer, localization rule and
parameter loop, and the lookup (`Get`).

Conventions of the embedding.

* A `std::string` is a `List Char`; one `Char` stands for one `char`.
* `std::size_t` is a `Nat` below `2 ^ 64`; `npos` is `2 ^ 64 - 1`, and the two
  places where the source computes `pos + 1` and `pos - 1` on a `size_t` use
  `sizeAdd1` and `sizeSub1`, which wrap.
* A thrown `CLevelParserException` is `LoadError.parser msg`; `std::out_of_range`
  (thrown by `substr` when the start position is past the end) is
  `LoadError.outOfRange`.
* A failed `assert` is `none`.
-/

set_option autoImplicit false

namespace Colobot

/-- A `std::string`. -/
abbrev Str := List Char

/-! ## `std::size_t` -/

/-- The value of `std::string::npos`, the largest `size_t`. -/
def npos : Nat := 18446744073709551615

/-- The `size_t` sum `p + 1`. -/
def sizeAdd1 (p : Nat) : Nat := (p + 1) % 18446744073709551616

/-- The `size_t` difference `p - 1`. -/
def sizeSub1 (p : Nat) : Nat := (p + 18446744073709551615) % 18446744073709551616

/-! ## Characters -/

/-- The character `"`. -/
def dquote : Char := Char.ofNat 34

/-- The single quote character. -/
def squote : Char := Char.ofNat 39

/-- The character `\0`, which `operator[]` returns at index `size()`. -/
def nul : Char := Char.ofNat 0

/-- The horizontal tab. -/
def tab : Char := Char.ofNat 9

/-- The line feed. -/
def newline : Char := Char.ofNat 10

/-- The classic-locale `std::isspace`, which `boost::algorithm::trim` uses:
space, `\t`, `\n`, `\v`, `\f`, `\r`. -/
def isspace (c : Char) : Bool :=
  c.toNat == 32 || (decide (9 ≤ c.toNat) && decide (c.toNat ≤ 13))

/-- The character set `" \t\n"` of the source. -/
def blanks : List Char := [ ' ', tab, newline]

/-! ## `std::string` and boost primitives -/

/-- The index of the first element satisfying `p`. -/
def firstIdx (p : Char → Bool) : Str → Option Nat
  | [] => none
  | c :: cs => if p c then some 0 else (firstIdx p cs).map (· + 1)

/-- The index of the last element satisfying `p`. -/
def lastIdx (p : Char → Bool) : Str → Option Nat
  | [] => none
  | c :: cs =>
    match lastIdx p cs with
    | some i => some (i + 1)
    | none => if p c then some 0 else none

/-- The index of the first occurrence of `pat`. -/
def subIdx (pat : Str) : Str → Option Nat
  | [] => if pat.isEmpty then some 0 else none
  | c :: cs => if pat.isPrefixOf (c :: cs) then some 0 else (subIdx pat cs).map (· + 1)

/-- The call `s.find(pat)`. -/
def find (s pat : Str) : Nat :=
  match subIdx pat s with
  | some i => i
  | none => npos

/-- The call `s.find_first_of(chars, start)`. -/
def find_first_of (s chars : Str) (start : Nat) : Nat :=
  match firstIdx (fun c => decide (c ∈ chars)) (s.drop start) with
  | some i => start + i
  | none => npos

/-- The call `s.find_last_of(chars, pos)`: the last index at or before `pos` holding
a character of `chars`. -/
def find_last_of (s chars : Str) (pos : Nat) : Nat :=
  if s.isEmpty then npos
  else
    match lastIdx (fun c => decide (c ∈ chars)) (s.take (min pos (s.length - 1) + 1)) with
    | some i => i
    | none => npos

/-- The call `s.find_last_not_of(chars, pos)`: the last index at or before `pos` holding
a character that is not in `chars`. -/
def find_last_not_of (s chars : Str) (pos : Nat) : Nat :=
  if s.isEmpty then npos
  else
    match lastIdx (fun c => !decide (c ∈ chars)) (s.take (min pos (s.length - 1) + 1)) with
    | some i => i
    | none => npos

/-- The call `s.substr(pos, n)`; `none` is `std::out_of_range`. -/
def substr (s : Str) (pos n : Nat) : Option Str :=
  if s.length < pos then none else some ((s.drop pos).take n)

/-- The call `boost::algorithm::trim_left`. -/
def trim_left (s : Str) : Str := s.dropWhile isspace

/-- The call `boost::algorithm::trim_right`. -/
def trim_right (s : Str) : Str := (s.reverse.dropWhile isspace).reverse

/-- The call `boost::algorithm::trim`. -/
def trim (s : Str) : Str := trim_left (trim_right s)

/-- The call `boost::replace_all(line, "\t", " ")`. -/
def replaceTabs (s : Str) : Str := s.map (fun c => if c = tab then ' ' else c)

/-! ## Decimal output -/

/-- The decimal digit `d`. -/
def digitChar (d : Nat) : Char := Char.ofNat (48 + d)

/-- The decimal digits of `n`, most significant first; the first argument bounds the
number of digits. -/
def natDigits : Nat → Nat → Str
  | 0, _ => []
  | f + 1, n => if n < 10 then [digitChar n] else natDigits f (n / 10) ++ [digitChar (n % 10)]

/-- The decimal form of a natural number. -/
def natToStr (n : Nat) : Str := natDigits (n + 1) n

/-- The decimal form of an `int`, as `operator<<` and `lexical_cast` write it. -/
def intToStr : Int → Str
  | Int.ofNat n => natToStr n
  | Int.negSucc n => '-' :: natToStr (n + 1)

/-- The output of `<< std::setfill(fill) << std::setw(w) << v` for the text `s` of
`v`: padded on the left up to width `w`. -/
def setw (w : Nat) (fill : Char) (s : Str) : Str :=
  List.replicate (w - s.length) fill ++ s

/-! ## Path builder -/

namespace CLevelParser

/-- The function `CLevelParser::BuildCategoryPath(std::string)`. -/
def BuildCategoryPath (category : Str) : Str :=
  "levels/".toList ++
    (if category = "perso".toList ∨ category = "win".toList ∨ category = "lost".toList then
      "other/".toList
    else
      category ++ "/".toList)

/-- The rank part shared by the `custom` branch and the last branch of
`BuildScenePath`. -/
def rankLeaf (rank : Int) (sceneFile : Bool) : Str :=
  if rank = 0 then
    (if sceneFile then "/chaptertitle.txt".toList else [])
  else
    "/level".toList ++ setw 3 '0' (intToStr rank) ++
      (if sceneFile then "/scene.txt".toList else [])

/-- The function `CLevelParser::BuildScenePath(std::string, int, int, bool)`.
`customLevelName` is `CRobotMain::GetCustomLevelName`; `none` is a failed `assert`. -/
def BuildScenePath (customLevelName : Int → Str) (category : Str) (chapter rank : Int)
    (sceneFile : Bool) : Option Str :=
  if category = "custom".toList then
    some (BuildCategoryPath category ++ customLevelName chapter ++ rankLeaf rank sceneFile)
  else if category = "perso".toList then
    if chapter = 0 then
      if rank = 0 then some (BuildCategoryPath category ++ "perso.txt".toList) else none
    else none
  else if category = "win".toList ∨ category = "lost".toList then
    if chapter = 0 then
      some (BuildCategoryPath category ++ category ++ setw 3 '0' (intToStr rank) ++ ".txt".toList)
    else none
  else
    some (BuildCategoryPath category ++ "chapter".toList ++ setw 3 '0' (intToStr chapter) ++
      rankLeaf rank sceneFile)

end CLevelParser

/-! ## Document model -/

/-- A `CLevelParserLine`: the source line number, the command, and the parameters in
the order of the `AddParam` calls, each with its name and raw value. -/
structure CLevelParserLine where
  lineNumber : Nat
  command : Str
  params : List (Str × Str)
  deriving DecidableEq

/-- What a call can throw. -/
inductive LoadError where
  /-- A `CLevelParserException` with its message. -/
  | parser (msg : Str)
  /-- The `std::out_of_range` of `substr`. -/
  | outOfRange
  /-- The iteration bound of the embedding was reached (never the case, see
  `paramLoop`). -/
  | fuel
  deriving DecidableEq

/-- The message of the exception for an unclosed quote `q`. -/
def unclosedMsg (q : Char) (filename : Str) (lineNumber : Nat) : Str :=
  "Unclosed ".toList ++ [q] ++ " in ".toList ++ filename ++ ":".toList ++ natToStr lineNumber

/-- The call `substr` inside `Load`, where `std::out_of_range` would propagate. -/
def substrE (s : Str) (pos n : Nat) : Except LoadError Str :=
  match substr s pos n with
  | some r => Except.ok r
  | none => Except.error LoadError.outOfRange

/-! ## Parameter loop of `Load` (source lines 223 to 266) -/

/-- The position `pos` that ends the value (source lines 231 to 256), for `line`
after the name has been split off. -/
def valueEnd (filename : Str) (lineNumber : Nat) (line : Str) : Except LoadError Nat :=
  if line.headD nul = dquote then
    let pos := find_first_of line [dquote] 1
    if pos = npos then Except.error (LoadError.parser (unclosedMsg dquote filename lineNumber))
    else Except.ok pos
  else if line.headD nul = squote then
    let pos := find_first_of line [squote] 1
    if pos = npos then Except.error (LoadError.parser (unclosedMsg squote filename lineNumber))
    else Except.ok pos
  else
    let pos := find_first_of line [ '='] 0
    if pos ≠ npos then
      let pos2 := find_last_of line blanks (find_last_not_of line blanks (sizeSub1 pos))
      if pos2 ≠ npos then Except.ok pos2 else Except.ok pos
    else
      Except.ok (sizeSub1 line.length)

/-- One pass through the body of `while (!line.empty())`: the parameter handed to
`AddParam`, and the new `line`, or `none` when the body leaves through `break`. -/
def paramStep (filename : Str) (lineNumber : Nat) (line : Str) :
    Except LoadError ((Str × Str) × Option Str) :=
  let pos := find_first_of line [ '='] 0
  match substrE line 0 pos with
  | Except.error e => Except.error e
  | Except.ok name =>
    let paramName := trim name
    match substrE line (sizeAdd1 pos) npos with
    | Except.error e => Except.error e
    | Except.ok rest =>
      let line1 := trim rest
      match valueEnd filename lineNumber line1 with
      | Except.error e => Except.error e
      | Except.ok pos1 =>
        match substrE line1 0 (sizeAdd1 pos1) with
        | Except.error e => Except.error e
        | Except.ok value =>
          let paramValue := trim value
          if pos1 = npos then Except.ok ((paramName, paramValue), none)
          else
            match substrE line1 (sizeAdd1 pos1) npos with
            | Except.error e => Except.error e
            | Except.ok rest1 => Except.ok ((paramName, paramValue), some (trim rest1))

/-- The loop `while (!line.empty())` with at most `n` passes through the body. -/
def paramLoop (filename : Str) (lineNumber : Nat) : Nat → Str → Except LoadError (List (Str × Str))
  | 0, line => if line.isEmpty then Except.ok [] else Except.error LoadError.fuel
  | n + 1, line =>
    if line.isEmpty then Except.ok []
    else
      match paramStep filename lineNumber line with
      | Except.error e => Except.error e
      | Except.ok (p, none) => Except.ok [p]
      | Except.ok (p, some line1) =>
        match paramLoop filename lineNumber n line1 with
        | Except.error e => Except.error e
        | Except.ok ps => Except.ok (p :: ps)

/-- The parameter loop of `Load` on the remainder `line`: the parameters handed to
`AddParam`, in order. Every pass that continues shortens `line`, so `line.length`
passes are enough. -/
def parseParams (filename : Str) (lineNumber : Nat) (line : Str) :
    Except LoadError (List (Str × Str)) :=
  paramLoop filename lineNumber line.length line

/-! ## Tokenizer of `Load` (source lines 165 to 187) -/

/-- Source lines 165 to 172: tabs to spaces, cut at the first `//`, trim. -/
def normalizeLine (raw : Str) : Except LoadError Str :=
  let line := replaceTabs raw
  let comment := find line "//".toList
  if comment ≠ npos then
    match substrE line 0 comment with
    | Except.error e => Except.error e
    | Except.ok l => Except.ok (trim l)
  else Except.ok (trim line)

/-- Source lines 174 to 184: the command token and the remainder of a normalized
line. -/
def splitCommand (line : Str) : Except LoadError (Str × Str) :=
  let pos := find_first_of line blanks 0
  match substrE line 0 pos with
  | Except.error e => Except.error e
  | Except.ok command =>
    if pos ≠ npos then
      match substrE line (sizeAdd1 pos) npos with
      | Except.error e => Except.error e
      | Except.ok rest => Except.ok (command, trim rest)
    else Except.ok (command, [])

/-- The command token and the remainder of a physical line. -/
def tokenize (raw : Str) : Except LoadError (Str × Str) :=
  match normalizeLine raw with
  | Except.error e => Except.error e
  | Except.ok line => splitCommand line

/-! ## `Load` -/

/-- The state of the loop over the physical lines: `m_lines` and the local set
`translatableLines`. -/
structure LoadState where
  m_lines : List CLevelParserLine
  translatableLines : List Str
  deriving DecidableEq

/-- The test `command.length() > 2 && command[command.length() - 2] == '.'`. -/
def hasSuffix (command : Str) : Bool :=
  decide (2 < command.length) && (command.getD (command.length - 2) nul == '.')

/-- The `std::remove_if` and `erase` of source lines 205 to 212. -/
def removeCommand (base : Str) (ls : List CLevelParserLine) : List CLevelParserLine :=
  ls.filter (fun l => !decide (l.command = base))

/-- What source lines 191 to 221 decide for a command token: `none` for `continue`,
else the command of the new line and the state after the updates of `m_lines` and
`translatableLines`. -/
def localize (lang : Char) (st : LoadState) (command : Str) : Option (Str × LoadState) :=
  if hasSuffix command then
    let baseCommand := command.take (command.length - 2)
    let languageChar := command.getD (command.length - 1) nul
    if languageChar = 'E' ∧ ¬ baseCommand ∈ st.translatableLines then
      some (baseCommand, { st with translatableLines := st.translatableLines.insert baseCommand })
    else if languageChar = lang then
      some (baseCommand,
        { m_lines :=
            if baseCommand ∈ st.translatableLines then removeCommand baseCommand st.m_lines
            else st.m_lines
          translatableLines := st.translatableLines.insert baseCommand })
    else none
  else some (command, st)

/-- The body of `while (getline(file, line))` for the physical line `raw` with number
`lineNumber`: the state after it, and what it threw. -/
def loadLine (filename : Str) (lang : Char) (lineNumber : Nat) (st : LoadState) (raw : Str) :
    LoadState × Option LoadError :=
  match tokenize raw with
  | Except.error e => (st, some e)
  | Except.ok (command, line) =>
    if command.isEmpty then (st, none)
    else
      match localize lang st command with
      | none => (st, none)
      | some (cmd, st1) =>
        match parseParams filename lineNumber line with
        | Except.error e => (st1, some e)
        | Except.ok ps =>
          ({ st1 with m_lines := st1.m_lines ++ [⟨lineNumber, cmd, ps⟩] }, none)

/-- The loop `while (getline(file, line))` over the physical lines still to read, with
`lineNumber` the number of lines read so far. -/
def loadLoop (filename : Str) (lang : Char) :
    List Str → Nat → LoadState → LoadState × Option LoadError
  | [], _, st => (st, none)
  | raw :: rest, lineNumber, st =>
    match loadLine filename lang (lineNumber + 1) st raw with
    | (st1, some e) => (st1, some e)
    | (st1, none) => loadLoop filename lang rest (lineNumber + 1) st1

namespace CLevelParser

/-- The method `CLevelParser::Load`. `file` is what `getline` reads from `m_filename`,
one entry per physical line, or `none` when the file cannot be opened; `lang` is
`GetLanguageChar()`; `m_lines` is the document before the call. The result is the
document after the call and what the call threw. -/
def Load (m_filename : Str) (file : Option (List Str)) (lang : Char)
    (m_lines : List CLevelParserLine) : List CLevelParserLine × Option LoadError :=
  match file with
  | none => (m_lines, some (LoadError.parser ("Failed to open file: ".toList ++ m_filename)))
  | some physical =>
    let r := loadLoop m_filename lang physical 0 ⟨m_lines, []⟩
    (r.1.m_lines, r.2)

/-- The method `CLevelParser::Get`. -/
def Get (m_lines : List CLevelParserLine) (command : Str) : Except LoadError CLevelParserLine :=
  match m_lines with
  | [] => Except.error (LoadError.parser ("Command not found: ".toList ++ command))
  | line :: rest => if line.command = command then Except.ok line else Get rest command

end CLevelParser

end Colobot

/-! ## Specification-side definitions -/

namespace Colobot

/-- A number below 1000 written as three zero-padded decimal digits, following the
words of the specification (`<rank:3-digit-zero-padded>`). -/
def threeDigits (n : Nat) : Str :=
  [digitChar (n / 100 % 10), digitChar (n / 10 % 10), digitChar (n % 10)]

/-- A parameter as it is written on a line, with the blanks before its name and
around its `=`. -/
structure SpacedParam where
  gap : Str
  name : Str
  beforeEq : Str
  afterEq : Str
  value : Str

/-- The text after the `=` of `p`, when the parameters `rest` follow it. -/
def spacedTail : SpacedParam → List SpacedParam → Str
  | p, [] => p.afterEq ++ p.value
  | p, q :: rest =>
    p.afterEq ++ (p.value ++ q.gap ++ q.name ++ q.beforeEq ++ '=' :: spacedTail q rest)

/-- The remainder that starts with the name of `p` and goes on with `rest`. -/
def spacedLine (p : SpacedParam) (rest : List SpacedParam) : Str :=
  p.name ++ p.beforeEq ++ '=' :: spacedTail p rest

/-- The canonical remainder `n_1=v_1 n_2=v_2 ... n_k=v_k`, pairs joined by single
spaces. -/
def canonicalParams : List (Str × Str) → Str
  | [] => []
  | [p] => p.1 ++ '=' :: p.2
  | p :: q :: rest => p.1 ++ '=' :: (p.2 ++ ' ' :: canonicalParams (q :: rest))

/-- The way the canonical form writes the pair `p`. -/
def canonicalSpacing (p : Str × Str) : SpacedParam := ⟨[ ' '], p.1, [], [], p.2⟩

/-- The parameters of a line, each after its gap. -/
def spacedParams : List SpacedParam → Str
  | [] => []
  | p :: rest => p.gap ++ spacedLine p rest

/-- The remainder of a line with the parameters `params`: the parameters without the gap
before the first name. -/
def spacedRemainder : List SpacedParam → Str
  | [] => []
  | p :: rest => spacedLine p rest

/-- The text of a comment appended to a line: nothing, or `//` and the comment. -/
def commentText : Option Str → Str
  | none => []
  | some text => '/' :: '/' :: text

/-- A physical line: blanks, the command token, the parameters with their blanks,
blanks, and a comment. -/
def variantLine (lead cmd : Str) (params : List SpacedParam) (trail : Str)
    (comment : Option Str) : Str :=
  lead ++ (cmd ++ spacedParams params) ++ trail ++ commentText comment

/-- The canonical line `cmd n_1=v_1 ... n_k=v_k`. -/
def canonicalLine (cmd : Str) : List (Str × Str) → Str
  | [] => cmd
  | p :: rest => cmd ++ ' ' :: canonicalParams (p :: rest)

/-- The parameter `p` after `replaceTabs`. -/
def SpacedParam.untab (p : SpacedParam) : SpacedParam :=
  ⟨replaceTabs p.gap, p.name, replaceTabs p.beforeEq, replaceTabs p.afterEq, p.value⟩

/-- The name and value of a written parameter. -/
def SpacedParam.pair (p : SpacedParam) : Str × Str := (p.name, p.value)

/-- A custom-level naming provider used in examples. -/
def sampleCustomName (chapter : Int) : Str := "user".toList ++ intToStr chapter

/-! ## Predicates of the statements -/

/-- A string that neither begins nor ends with a whitespace character. -/
def Tight (s : Str) : Prop :=
  (∀ c, s.head? = some c → isspace c = false) ∧ (∀ c, s.getLast? = some c → isspace c = false)

/-- A string of space characters. -/
def Spaces (s : Str) : Prop := ∀ c ∈ s, c = ' '

/-- A non-empty string without whitespace and without `=`. -/
def Word (s : Str) : Prop := s ≠ [] ∧ ∀ c ∈ s, isspace c = false ∧ c ≠ '='

/-- A value that does not begin with a quote character. -/
def Unquoted (s : Str) : Prop := s.head? ≠ some dquote ∧ s.head? ≠ some squote

instance Spaces.decSpaces (s : Str) : Decidable (Spaces s) :=
  inferInstanceAs (Decidable (∀ c ∈ s, c = ' '))

instance Word.decWord (s : Str) : Decidable (Word s) :=
  inferInstanceAs (Decidable (s ≠ [] ∧ ∀ c ∈ s, isspace c = false ∧ c ≠ '='))

instance Unquoted.decUnquoted (s : Str) : Decidable (Unquoted s) :=
  inferInstanceAs (Decidable (s.head? ≠ some dquote ∧ s.head? ≠ some squote))

/-- A name and a value as in canonical input: non-empty, without whitespace and
without `=`, the value not starting with a quote. -/
def CanonicalPair (p : Str × Str) : Prop := Word p.1 ∧ Word p.2 ∧ Unquoted p.2

/-- A parameter written with spaces only: a non-empty gap before a canonical name
and value. -/
def SpacedParam.WF (p : SpacedParam) : Prop :=
  Spaces p.gap ∧ p.gap ≠ [] ∧ Spaces p.beforeEq ∧ Spaces p.afterEq ∧
    CanonicalPair (p.name, p.value)

instance CanonicalPair.decCanonicalPair (p : Str × Str) : Decidable (CanonicalPair p) :=
  inferInstanceAs (Decidable (Word p.1 ∧ Word p.2 ∧ Unquoted p.2))

instance SpacedParam.WF.decWF (p : SpacedParam) : Decidable p.WF :=
  inferInstanceAs (Decidable (Spaces p.gap ∧ p.gap ≠ [] ∧ Spaces p.beforeEq ∧
    Spaces p.afterEq ∧ CanonicalPair (p.name, p.value)))

/-- The lines of a document with command `b`. -/
def cmdLines (b : Str) (ls : List CLevelParserLine) : List CLevelParserLine :=
  ls.filter (fun l => decide (l.command = b))

/-- The parameter loop on `line` comes to a parameter whose value text (what follows
the name and its `=`, trimmed) begins with the quote character `q` and contains no later
`q`. -/
inductive UnclosedQuote (filename : Str) (lineNumber : Nat) (q : Char) : Str → Prop where
  /-- The parameter at the start of `line` is such a parameter. -/
  | here (line rest text : Str) :
      line ≠ [] →
      substrE line (sizeAdd1 (find_first_of line [ '='] 0)) npos = Except.ok rest →
      trim rest = q :: text → q ∉ text → UnclosedQuote filename lineNumber q line
  /-- The loop passes the parameter at the start of `line` and comes to such a parameter
  in what follows. -/
  | later (line : Str) (p : Str × Str) (line1 : Str) :
      paramStep filename lineNumber line = Except.ok (p, some line1) →
      UnclosedQuote filename lineNumber q line1 → UnclosedQuote filename lineNumber q line

/-- A string of spaces and tabs. -/
def Blanks (s : Str) : Prop := ∀ c ∈ s, c = ' ' ∨ c = tab

/-- A command token: non-empty, without whitespace and without `//`. -/
def Token (cmd : Str) : Prop :=
  cmd ≠ [] ∧ (∀ c ∈ cmd, isspace c = false) ∧ subIdx "//".toList cmd = none

/-- A parameter of a variant line: a non-empty gap of spaces and tabs, spaces and tabs
around the `=`, a canonical name and value, both without `/`. -/
def SpacedParam.Variant (p : SpacedParam) : Prop :=
  Blanks p.gap ∧ p.gap ≠ [] ∧ Blanks p.beforeEq ∧ Blanks p.afterEq ∧
    CanonicalPair (p.name, p.value) ∧ '/' ∉ p.name ∧ '/' ∉ p.value

instance Blanks.decBlanks (s : Str) : Decidable (Blanks s) :=
  inferInstanceAs (Decidable (∀ c ∈ s, c = ' ' ∨ c = tab))

instance Token.decToken (cmd : Str) : Decidable (Token cmd) :=
  inferInstanceAs (Decidable (cmd ≠ [] ∧ (∀ c ∈ cmd, isspace c = false) ∧
    subIdx "//".toList cmd = none))

instance SpacedParam.Variant.decVariant (p : SpacedParam) : Decidable p.Variant :=
  inferInstanceAs (Decidable (Blanks p.gap ∧ p.gap ≠ [] ∧ Blanks p.beforeEq ∧
    Blanks p.afterEq ∧ CanonicalPair (p.name, p.value) ∧ '/' ∉ p.name ∧ '/' ∉ p.value))

/-- The number that a string of decimal digits writes. -/
def digitsVal (s : Str) : Nat := s.foldl (fun acc c => acc * 10 + (c.toNat - 48)) 0

/-- The position `pos2` of source line 248, for the value text `line`: the last blank at
or before the last non-blank character in front of the first `=`. -/
def valuePos2 (line : Str) : Nat :=
  find_last_of line blanks (find_last_not_of line blanks (sizeSub1 (find_first_of line [ '='] 0)))

/-- The command that `Load` gives to the line of a command token (source lines 189 to
194): the token, without its suffix when it passes the suffix test. -/
def commandOf (t : Str) : Str :=
  if hasSuffix t then t.take (t.length - 2) else t

/-- Whether the physical line with the number of the line `l` has a command token that
passes the suffix test of `Load`. -/
def fromSuffixedToken (file : List Str) (l : CLevelParserLine) : Bool :=
  match l.lineNumber with
  | 0 => false
  | k + 1 =>
    match file.get? k with
    | none => false
    | some raw =>
      match tokenize raw with
      | Except.ok (t, _) => hasSuffix t
      | Except.error _ => false

/-- The line `l` is what `Load` builds from the physical line `raw` with number
`l.lineNumber`: the command of its token and the parameters of its remainder. -/
def BuiltFrom (filename : Str) (raw : Str) (l : CLevelParserLine) : Prop :=
  ∃ t r, tokenize raw = Except.ok (t, r) ∧ t ≠ [] ∧ l.command = commandOf t ∧
    parseParams filename l.lineNumber r = Except.ok l.params

/-- The lines of a document with command `b` that stand for a physical line of `file`
with a suffixed command token. -/
def suffixedLines (file : List Str) (b : Str) (ls : List CLevelParserLine) :
    List CLevelParserLine :=
  ls.filter (fun l => decide (l.command = b) && fromSuffixedToken file l)

/-- After the physical lines `before`, some line of `post` has the command token
`t.<lang>` and is read when a line with the token `t.E` or `t.<lang>` has been read
before it (when `t` is in the seen set). -/
def RemovedLater (lang : Char) (t : Str) (before post : List Str) : Prop :=
  ∃ post1 raw post2 r, post = post1 ++ raw :: post2 ∧
    tokenize raw = Except.ok (t ++ [ '.', lang], r) ∧
    ∃ x ∈ before ++ post1, ∃ c rx, tokenize x = Except.ok (t ++ [ '.', c], rx) ∧
      (c = lang ∨ c = 'E')

/-! ## Decimal output: lemmas -/

theorem natDigits_small (f n : Nat) (hf : 0 < f) (h : n < 10) :
    natDigits f n = [digitChar n] := by
  obtain ⟨g, rfl⟩ : ∃ g, f = g + 1 := ⟨f - 1, by omega⟩
  simp [natDigits, h]

theorem natDigits_large (f n : Nat) (hf : 0 < f) (h : 10 ≤ n) :
    natDigits f n = natDigits (f - 1) (n / 10) ++ [digitChar (n % 10)] := by
  obtain ⟨g, rfl⟩ : ∃ g, f = g + 1 := ⟨f - 1, by omega⟩
  have h1 : ¬ n < 10 := by omega
  simp [natDigits, h1]

theorem setw_natToStr (n : Nat) (h : n < 1000) :
    setw 3 '0' (natToStr n) = threeDigits n := by
  unfold natToStr threeDigits
  by_cases h1 : n < 10
  · rw [natDigits_small _ _ (by omega) h1]
    have e1 : n / 100 % 10 = 0 := by omega
    have e2 : n / 10 % 10 = 0 := by omega
    have e3 : n % 10 = n := by omega
    rw [e1, e2, e3]
    rfl
  · by_cases h2 : n < 100
    · rw [natDigits_large _ _ (by omega) (by omega), natDigits_small _ _ (by omega) (by omega)]
      have e1 : n / 100 % 10 = 0 := by omega
      have e2 : n / 10 % 10 = n / 10 := by omega
      rw [e1, e2]
      rfl
    · rw [natDigits_large _ _ (by omega) (by omega), natDigits_large _ _ (by omega) (by omega),
        natDigits_small _ _ (by omega) (by omega)]
      have e1 : n / 100 % 10 = n / 10 / 10 := by omega
      have e2 : n / 10 % 10 = n / 10 % 10 := rfl
      rw [e1]
      rfl

theorem setw_intToStr (i : Int) (h0 : 0 ≤ i) (h1 : i ≤ 999) :
    setw 3 '0' (intToStr i) = threeDigits i.toNat := by
  obtain ⟨n, rfl⟩ : ∃ n : Nat, i = (n : Int) := ⟨i.toNat, by omega⟩
  have hn : n < 1000 := by omega
  show setw 3 '0' (natToStr n) = _
  rw [setw_natToStr n hn]
  rfl

/-! ## `std::size_t`: lemmas -/

theorem sizeAdd1_of_lt (p : Nat) (h : p < npos) : sizeAdd1 p = p + 1 := by
  unfold sizeAdd1
  unfold npos at h
  omega

theorem sizeAdd1_npos : sizeAdd1 npos = 0 := by decide

theorem sizeSub1_of_pos (p : Nat) (h0 : 0 < p) (h : p ≤ npos) : sizeSub1 p = p - 1 := by
  unfold sizeSub1
  unfold npos at h
  omega

theorem sizeSub1_zero : sizeSub1 0 = npos := by decide

/-! ## Searching: lemmas -/

theorem firstIdx_none (p : Char → Bool) (xs : Str) (h : ∀ x ∈ xs, p x = false) :
    firstIdx p xs = none := by
  induction xs with
  | nil => rfl
  | cons x xs ih =>
    have hx : p x = false := h x (by simp)
    simp [firstIdx, hx, ih (fun y hy => h y (by simp [hy]))]

theorem firstIdx_append (p : Char → Bool) (xs : Str) (c : Char) (ys : Str)
    (h : ∀ x ∈ xs, p x = false) (hc : p c = true) :
    firstIdx p (xs ++ c :: ys) = some xs.length := by
  induction xs with
  | nil => simp [firstIdx, hc]
  | cons x xs ih =>
    have hx : p x = false := h x (by simp)
    simp [firstIdx, hx, ih (fun y hy => h y (by simp [hy]))]

theorem firstIdx_lt (p : Char → Bool) (xs : Str) (i : Nat) (h : firstIdx p xs = some i) :
    i < xs.length := by
  induction xs generalizing i with
  | nil => simp [firstIdx] at h
  | cons x xs ih =>
    by_cases hx : p x = true
    · simp [firstIdx, hx] at h
      subst h
      simp
    · simp only [firstIdx, hx] at h
      cases hr : firstIdx p xs with
      | none => simp [hr] at h
      | some j =>
        simp [hr] at h
        subst h
        have := ih j hr
        simp
        omega

theorem lastIdx_none (p : Char → Bool) (xs : Str) (h : ∀ x ∈ xs, p x = false) :
    lastIdx p xs = none := by
  induction xs with
  | nil => rfl
  | cons x xs ih =>
    have hx : p x = false := h x (by simp)
    simp [lastIdx, hx, ih (fun y hy => h y (by simp [hy]))]

theorem lastIdx_append (p : Char → Bool) (xs : Str) (c : Char) (ys : Str)
    (hc : p c = true) (h : ∀ y ∈ ys, p y = false) :
    lastIdx p (xs ++ c :: ys) = some xs.length := by
  induction xs with
  | nil => simp [lastIdx, hc, lastIdx_none p ys h]
  | cons x xs ih => simp [lastIdx, ih]

theorem lastIdx_lt (p : Char → Bool) (xs : Str) (i : Nat) (h : lastIdx p xs = some i) :
    i < xs.length := by
  induction xs generalizing i with
  | nil => simp [lastIdx] at h
  | cons x xs ih =>
    simp only [lastIdx] at h
    cases hr : lastIdx p xs with
    | some j =>
      simp [hr] at h
      subst h
      have := ih j hr
      simp
      omega
    | none =>
      simp only [hr] at h
      split at h
      · injection h with h
        subst h
        simp
      · simp at h

theorem find_first_of_append (xs : Str) (c : Char) (ys chars : Str)
    (h : ∀ x ∈ xs, x ∉ chars) (hc : c ∈ chars) :
    find_first_of (xs ++ c :: ys) chars 0 = xs.length := by
  unfold find_first_of
  rw [List.drop_zero, firstIdx_append _ xs c ys (by simpa using h) (by simpa using hc)]
  simp

theorem find_first_of_none (s chars : Str) (start : Nat) (h : ∀ x ∈ s, x ∉ chars) :
    find_first_of s chars start = npos := by
  unfold find_first_of
  rw [firstIdx_none _ _ (by
    intro x hx
    have := h x (List.mem_of_mem_drop hx)
    simpa using this)]

theorem find_first_of_le (s chars : Str) (start : Nat) :
    find_first_of s chars start < s.length ∨ find_first_of s chars start = npos := by
  unfold find_first_of
  cases hr : firstIdx (fun c => decide (c ∈ chars)) (s.drop start) with
  | none => right; rfl
  | some i =>
    left
    have := firstIdx_lt _ _ _ hr
    simp only [List.length_drop] at this
    show start + i < s.length
    omega

theorem find_first_of_from_one (q : Char) (text rest chars : Str)
    (h : ∀ x ∈ text, x ∉ chars) (hc : q ∈ chars) (c0 : Char) :
    find_first_of (c0 :: (text ++ q :: rest)) chars 1 = text.length + 1 := by
  unfold find_first_of
  rw [show (c0 :: (text ++ q :: rest)).drop 1 = text ++ q :: rest from rfl,
    firstIdx_append _ text q rest (by simpa using h) (by simpa using hc)]
  show 1 + text.length = text.length + 1
  omega

theorem find_last_of_append (xs : Str) (c : Char) (ys zs chars : Str)
    (hc : c ∈ chars) (h : ∀ y ∈ ys, y ∉ chars) :
    find_last_of (xs ++ c :: (ys ++ zs)) chars (xs.length + ys.length) = xs.length := by
  unfold find_last_of
  have hne : (xs ++ c :: (ys ++ zs)).isEmpty = false := by
    cases xs <;> rfl
  rw [hne]
  have hmin : min (xs.length + ys.length) ((xs ++ c :: (ys ++ zs)).length - 1) + 1 =
      (xs ++ c :: ys).length := by
    simp only [List.length_append, List.length_cons]
    omega
  have htake : (xs ++ c :: (ys ++ zs)).take ((xs ++ c :: ys).length) = xs ++ c :: ys := by
    have : xs ++ c :: (ys ++ zs) = (xs ++ c :: ys) ++ zs := by simp
    rw [this, List.take_left]
  simp only [Bool.false_eq_true, if_false]
  rw [hmin, htake, lastIdx_append _ xs c ys (by simpa using hc) (by simpa using h)]

theorem find_last_not_of_append (xs : Str) (c : Char) (ys zs chars : Str)
    (hc : c ∉ chars) (h : ∀ y ∈ ys, y ∈ chars) :
    find_last_not_of (xs ++ c :: (ys ++ zs)) chars (xs.length + ys.length) = xs.length := by
  unfold find_last_not_of
  have hne : (xs ++ c :: (ys ++ zs)).isEmpty = false := by
    cases xs <;> rfl
  rw [hne]
  have hmin : min (xs.length + ys.length) ((xs ++ c :: (ys ++ zs)).length - 1) + 1 =
      (xs ++ c :: ys).length := by
    simp only [List.length_append, List.length_cons]
    omega
  have htake : (xs ++ c :: (ys ++ zs)).take ((xs ++ c :: ys).length) = xs ++ c :: ys := by
    have : xs ++ c :: (ys ++ zs) = (xs ++ c :: ys) ++ zs := by simp
    rw [this, List.take_left]
  simp only [Bool.false_eq_true, if_false]
  rw [hmin, htake, lastIdx_append _ xs c ys (by simpa using hc) (by simpa using h)]

theorem find_last_of_none (s chars : Str) (pos : Nat) (h : ∀ x ∈ s.take (pos + 1), x ∉ chars) :
    find_last_of s chars pos = npos := by
  unfold find_last_of
  split
  · rfl
  · rw [lastIdx_none]
    intro x hx
    have hx1 : x ∈ s.take (pos + 1) :=
      List.take_subset_take_left s (by omega) hx
    simpa using h x hx1

/-! ## `substr` and `trim`: lemmas -/

theorem substrE_zero (s : Str) (n : Nat) : substrE s 0 n = Except.ok (s.take n) := by
  simp [substrE, substr]

theorem substrE_tail (s : Str) (pos : Nat) (h : pos ≤ s.length) (hlen : s.length ≤ npos) :
    substrE s pos npos = Except.ok (s.drop pos) := by
  have h1 : ¬ s.length < pos := by omega
  have h2 : (s.drop pos).take npos = s.drop pos := by
    apply List.take_of_length_le
    simp only [List.length_drop]
    omega
  simp [substrE, substr, h1, h2]

theorem trim_left_cons (c : Char) (s : Str) (h : isspace c = false) :
    trim_left (c :: s) = c :: s := by
  simp [trim_left, List.dropWhile, h]

theorem trim_left_append (ws s : Str) (h : ∀ c ∈ ws, isspace c = true) :
    trim_left (ws ++ s) = trim_left s := by
  induction ws with
  | nil => rfl
  | cons w ws ih =>
    have hw : isspace w = true := h w (by simp)
    simp only [trim_left, List.cons_append, List.dropWhile, hw]
    exact ih (fun c hc => h c (by simp [hc]))

theorem trim_right_append (s ws : Str) (h : ∀ c ∈ ws, isspace c = true) :
    trim_right (s ++ ws) = trim_right s := by
  unfold trim_right
  rw [List.reverse_append]
  have := trim_left_append ws.reverse s.reverse (by simpa using h)
  unfold trim_left at this
  rw [this]

theorem trim_right_concat (s : Str) (c : Char) (h : isspace c = false) :
    trim_right (s ++ [c]) = s ++ [c] := by
  unfold trim_right
  rw [List.reverse_append]
  simp [List.dropWhile, h]

theorem trim_left_length_le (s : Str) : (trim_left s).length ≤ s.length := by
  unfold trim_left
  exact (List.dropWhile_sublist _).length_le

theorem trim_right_length_le (s : Str) : (trim_right s).length ≤ s.length := by
  unfold trim_right
  rw [List.length_reverse]
  have := (List.dropWhile_sublist isspace (l := s.reverse)).length_le
  simpa using this

theorem trim_length_le (s : Str) : (trim s).length ≤ s.length := by
  unfold trim
  exact le_trans (trim_left_length_le _) (trim_right_length_le _)

theorem trim_right_of_tight (s : Str) (h : ∀ c, s.getLast? = some c → isspace c = false) :
    trim_right s = s := by
  rcases List.eq_nil_or_concat s with rfl | ⟨t, c, rfl⟩
  · rfl
  · rw [List.concat_eq_append] at h ⊢
    exact trim_right_concat t c (h c (by simp))

theorem trim_left_of_tight (s : Str) (h : ∀ c, s.head? = some c → isspace c = false) :
    trim_left s = s := by
  cases s with
  | nil => rfl
  | cons c t => exact trim_left_cons c t (h c rfl)

theorem trim_of_tight (s : Str) (h : Tight s) : trim s = s := by
  unfold trim
  rw [trim_right_of_tight s h.2, trim_left_of_tight s h.1]

theorem trim_pad (a s b : Str) (ha : ∀ c ∈ a, isspace c = true) (hb : ∀ c ∈ b, isspace c = true)
    (h : Tight s) : trim (a ++ s ++ b) = s := by
  unfold trim
  rw [trim_right_append _ b hb]
  cases s with
  | nil =>
    rw [List.append_nil]
    have : trim_right a = [] := by
      have := trim_right_append [] a ha
      simpa [trim_right] using this
    rw [this]
    rfl
  | cons c t =>
    have hlast : ∀ d, (a ++ c :: t).getLast? = some d → isspace d = false := by
      intro d hd
      apply h.2 d
      rw [List.getLast?_append_of_ne_nil _ (by simp)] at hd
      exact hd
    rw [trim_right_of_tight _ hlast, trim_left_append a _ ha, trim_left_of_tight _ h.1]

theorem dropWhile_append_hit (p : Char → Bool) (xs : Str) (c : Char) (ys : Str)
    (hc : p c = false) :
    (xs ++ c :: ys).dropWhile p = xs.dropWhile p ++ c :: ys := by
  induction xs with
  | nil => simp [List.dropWhile, hc]
  | cons x xs ih =>
    by_cases hx : p x = true
    · simp [List.dropWhile, hx, ih]
    · simp [List.dropWhile, hx]

theorem trim_right_append_hit (s : Str) (c : Char) (r : Str) (hc : isspace c = false) :
    trim_right (s ++ c :: r) = s ++ c :: trim_right r := by
  unfold trim_right
  rw [List.reverse_append, List.reverse_cons, List.append_assoc, List.singleton_append,
    dropWhile_append_hit _ _ _ _ hc]
  simp

theorem trim_right_idem (s : Str) : trim_right (trim_right s) = trim_right s := by
  unfold trim_right
  rw [List.reverse_reverse, List.dropWhile_idempotent]

theorem trim_trim_right (s : Str) : trim (trim_right s) = trim s := by
  unfold trim
  rw [trim_right_idem]

theorem isspace_dquote : isspace dquote = false := by decide

theorem isspace_squote : isspace squote = false := by decide

theorem isspace_eq : isspace '=' = false := by decide

/-! ## Parameter loop: a quoted value -/

/-- One pass of the parameter loop on `name=<q>text<q>rest`, `q` a quote character that
does not occur in `text`: the value handed to `AddParam` is `<q>text<q>`, and the loop
goes on with `rest`, trimmed. -/
theorem paramStep_quoted (filename : Str) (lineNumber : Nat) (q : Char)
    (hq : q = dquote ∨ q = squote) (name text rest : Str)
    (hname : '=' ∉ name) (htext : q ∉ text)
    (hlen : (name ++ '=' :: q :: (text ++ q :: rest)).length < npos) :
    paramStep filename lineNumber (name ++ '=' :: q :: (text ++ q :: rest)) =
      Except.ok ((trim name, q :: (text ++ [q])), some (trim rest)) := by
  have hqs : isspace q = false := by
    rcases hq with rfl | rfl
    · exact isspace_dquote
    · exact isspace_squote
  have hpos : find_first_of (name ++ '=' :: q :: (text ++ q :: rest)) [ '='] 0 = name.length :=
    find_first_of_append name '=' _ _ (by
      intro x hx hmem
      rw [List.mem_singleton] at hmem
      exact hname (hmem ▸ hx)) (by simp)
  have hlen1 : name.length + (text.length + rest.length + 3) < npos := by
    simp only [List.length_append, List.length_cons] at hlen
    omega
  have hadd : sizeAdd1 name.length = (name ++ [ '=']).length := by
    rw [sizeAdd1_of_lt _ (by omega)]
    simp
  have hsplit : name ++ '=' :: q :: (text ++ q :: rest) =
      (name ++ [ '=']) ++ q :: (text ++ q :: rest) := by simp
  have hrest : substrE (name ++ '=' :: q :: (text ++ q :: rest)) (sizeAdd1 name.length) npos =
      Except.ok (q :: (text ++ q :: rest)) := by
    rw [substrE_tail _ _ (by rw [hadd]; simp) (by omega), hadd]
    conv => lhs; rw [hsplit]
    rw [List.drop_left]
  have htrim : trim (q :: (text ++ q :: rest)) = q :: (text ++ q :: trim_right rest) := by
    unfold trim
    have : q :: (text ++ q :: rest) = (q :: text) ++ q :: rest := rfl
    rw [this, trim_right_append_hit _ _ _ hqs]
    exact trim_left_cons _ _ hqs
  have hfind : ∀ c0, find_first_of (c0 :: (text ++ q :: trim_right rest)) [q] 1 =
      text.length + 1 := fun c0 =>
    find_first_of_from_one q text _ [q] (by
      intro x hx hmem
      rw [List.mem_singleton] at hmem
      exact htext (hmem ▸ hx)) (by simp) c0
  have hnp : text.length + 1 ≠ npos := by omega
  have hend : valueEnd filename lineNumber (q :: (text ++ q :: trim_right rest)) =
      Except.ok (text.length + 1) := by
    rcases hq with rfl | rfl
    · simp only [valueEnd, List.headD_cons, if_true, hfind, hnp, if_false]
    · have hne : squote ≠ dquote := by decide
      simp only [valueEnd, List.headD_cons, hne, if_false, if_true, hfind, hnp]
  have hadd2 : sizeAdd1 (text.length + 1) = (q :: (text ++ [q])).length := by
    rw [sizeAdd1_of_lt _ (by omega)]
    simp
  have hsplit2 : q :: (text ++ q :: trim_right rest) = (q :: (text ++ [q])) ++ trim_right rest := by
    simp
  have hval : substrE (q :: (text ++ q :: trim_right rest)) 0 (sizeAdd1 (text.length + 1)) =
      Except.ok (q :: (text ++ [q])) := by
    rw [substrE_zero, hadd2]
    conv => lhs; rw [hsplit2]
    rw [List.take_left]
  have htrimv : trim (q :: (text ++ [q])) = q :: (text ++ [q]) := by
    apply trim_of_tight
    constructor
    · intro c hc
      simp only [List.head?_cons, Option.some.injEq] at hc
      exact hc ▸ hqs
    · intro c hc
      have : (q :: (text ++ [q])).getLast? = some q := by
        rw [show q :: (text ++ [q]) = (q :: text) ++ [q] from rfl, List.getLast?_append_of_ne_nil _
          (by simp)]
        rfl
      rw [this] at hc
      injection hc with hc
      exact hc ▸ hqs
  have hrest2 : substrE (q :: (text ++ q :: trim_right rest)) (sizeAdd1 (text.length + 1)) npos =
      Except.ok (trim_right rest) := by
    have hle := trim_right_length_le rest
    rw [substrE_tail _ _ (by rw [hadd2]; simp) (by
      simp only [List.length_append, List.length_cons]; omega), hadd2]
    conv => lhs; rw [hsplit2]
    rw [List.drop_left]
  have hname_take : substrE (name ++ '=' :: q :: (text ++ q :: rest)) 0 name.length =
      Except.ok name := by
    rw [substrE_zero, List.take_left]
  simp only [paramStep, hpos, hname_take, hrest, htrim, hend, hval, htrimv, hnp, if_false, hrest2,
    trim_trim_right]

/-! ## Parameter loop: every pass shortens the line -/

theorem substrE_ok (s : Str) (pos n : Nat) (r : Str) (h : substrE s pos n = Except.ok r) :
    pos ≤ s.length ∧ r.length ≤ s.length - pos := by
  unfold substrE substr at h
  by_cases hp : s.length < pos
  · simp [hp] at h
  · simp only [hp, if_false] at h
    injection h with h
    subst h
    refine ⟨by omega, ?_⟩
    simp only [List.length_take, List.length_drop]
    omega

theorem find_last_of_le (s chars : Str) (pos : Nat) :
    find_last_of s chars pos < s.length ∨ find_last_of s chars pos = npos := by
  unfold find_last_of
  split
  · right; rfl
  · cases hr : lastIdx (fun c => decide (c ∈ chars)) (s.take (min pos (s.length - 1) + 1)) with
    | none => right; rfl
    | some i =>
      left
      have := lastIdx_lt _ _ _ hr
      simp only [List.length_take] at this
      show i < s.length
      omega

theorem sizeSub1_le (p : Nat) : sizeSub1 p ≤ npos := by
  unfold sizeSub1 npos
  omega

theorem valueEnd_le (filename : Str) (lineNumber : Nat) (line : Str) (pos1 : Nat)
    (hlen : line.length < npos) (h : valueEnd filename lineNumber line = Except.ok pos1) :
    pos1 ≤ npos := by
  unfold valueEnd at h
  dsimp only at h
  have hf := fun chars start => find_first_of_le line chars start
  have hl := fun chars pos => find_last_of_le line chars pos
  split at h
  · split at h
    · simp at h
    · injection h with h
      subst h
      rcases hf [dquote] 1 with h1 | h1 <;> omega
  · split at h
    · split at h
      · simp at h
      · injection h with h
        subst h
        rcases hf [squote] 1 with h1 | h1 <;> omega
    · split at h
      · split at h
        · injection h with h
          subst h
          rcases hl blanks (find_last_not_of line blanks (sizeSub1 (find_first_of line [ '='] 0)))
            with h1 | h1 <;> omega
        · injection h with h
          subst h
          rcases hf [ '='] 0 with h1 | h1 <;> omega
      · injection h with h
        subst h
        exact sizeSub1_le _

theorem paramStep_shrinks (filename : Str) (lineNumber : Nat) (line : Str) (p : Str × Str)
    (line1 : Str) (hlen : line.length < npos)
    (h : paramStep filename lineNumber line = Except.ok (p, some line1)) :
    line1.length < line.length := by
  unfold paramStep at h
  dsimp only at h
  split at h
  · simp at h
  · split at h
    · simp at h
    · rename_i rest hrest
      have hr := substrE_ok _ _ _ _ hrest
      have ht := trim_length_le rest
      split at h
      · simp at h
      · rename_i pos1 hpos1
        have hle := valueEnd_le _ _ _ _ (by omega) hpos1
        split at h
        · simp at h
        · split at h
          · simp at h
          · rename_i hne
            split at h
            · simp at h
            · rename_i rest1 hrest1
              have hr1 := substrE_ok _ _ _ _ hrest1
              rw [sizeAdd1_of_lt _ (by omega)] at hr1
              have ht1 := trim_length_le rest1
              injection h with h
              injection h with _ h
              injection h with h
              subst h
              omega

theorem paramLoop_fuel_irrelevant (filename : Str) (lineNumber : Nat) :
    ∀ (n m : Nat) (line : Str), line.length ≤ n → line.length ≤ m → line.length < npos →
      paramLoop filename lineNumber n line = paramLoop filename lineNumber m line := by
  intro n
  induction n with
  | zero =>
    intro m line hn _ _
    have : line = [] := List.eq_nil_of_length_eq_zero (by omega)
    subst this
    cases m <;> rfl
  | succ n ih =>
    intro m line hn hm hlen
    cases line with
    | nil => cases m <;> rfl
    | cons c cs =>
      obtain ⟨k, rfl⟩ : ∃ k, m = k + 1 := ⟨m - 1, by simp at hm; omega⟩
      simp only [paramLoop, List.isEmpty_cons, Bool.false_eq_true, if_false]
      cases hstep : paramStep filename lineNumber (c :: cs) with
      | error e => rfl
      | ok r =>
        obtain ⟨p, o⟩ := r
        cases o with
        | none => rfl
        | some line1 =>
          have hs := paramStep_shrinks _ _ _ _ _ hlen hstep
          simp only
          rw [ih k line1 (by omega) (by omega) (by omega)]

theorem substrE_not_fuel (s : Str) (pos n : Nat) :
    substrE s pos n ≠ Except.error LoadError.fuel := by
  unfold substrE
  split <;> simp

theorem valueEnd_not_fuel (filename : Str) (lineNumber : Nat) (line : Str) :
    valueEnd filename lineNumber line ≠ Except.error LoadError.fuel := by
  unfold valueEnd
  dsimp only
  repeat' split
  all_goals simp

theorem paramStep_not_fuel (filename : Str) (lineNumber : Nat) (line : Str) :
    paramStep filename lineNumber line ≠ Except.error LoadError.fuel := by
  intro h
  unfold paramStep at h
  dsimp only at h
  split at h
  · rename_i e he
    injection h with h
    exact substrE_not_fuel _ _ _ (h ▸ he)
  · split at h
    · rename_i e he
      injection h with h
      exact substrE_not_fuel _ _ _ (h ▸ he)
    · split at h
      · rename_i e he
        injection h with h
        exact valueEnd_not_fuel _ _ _ (h ▸ he)
      · split at h
        · rename_i e he
          injection h with h
          exact substrE_not_fuel _ _ _ (h ▸ he)
        · split at h
          · simp at h
          · split at h
            · rename_i e he
              injection h with h
              exact substrE_not_fuel _ _ _ (h ▸ he)
            · simp at h

/-- The iteration bound of `parseParams` is never reached. -/
theorem paramLoop_not_fuel (filename : Str) (lineNumber : Nat) :
    ∀ (n : Nat) (line : Str), line.length ≤ n → line.length < npos →
      paramLoop filename lineNumber n line ≠ Except.error LoadError.fuel := by
  intro n
  induction n with
  | zero =>
    intro line hn _
    have : line = [] := List.eq_nil_of_length_eq_zero (by omega)
    subst this
    simp [paramLoop]
  | succ n ih =>
    intro line hn hlen
    cases line with
    | nil => simp [paramLoop]
    | cons c cs =>
      simp only [paramLoop, List.isEmpty_cons, Bool.false_eq_true, if_false]
      cases hstep : paramStep filename lineNumber (c :: cs) with
      | error e =>
        intro h
        injection h with h
        exact paramStep_not_fuel _ _ _ (h ▸ hstep)
      | ok r =>
        obtain ⟨p, o⟩ := r
        cases o with
        | none => simp
        | some line1 =>
          have hs := paramStep_shrinks _ _ _ _ _ hlen hstep
          simp only [List.length_cons] at hn hs hlen
          have := ih line1 (by omega) (by omega)
          simp only
          intro h
          split at h
          · rename_i e he
            injection h with h
            exact this (h ▸ he)
          · simp at h

/-- The parameter loop after a pass that continues with `line1`: the parameter of the
pass, followed by what the loop records on `line1`. -/
theorem parseParams_step (filename : Str) (lineNumber : Nat) (line : Str) (p : Str × Str)
    (line1 : Str) (hlen : line.length < npos)
    (h : paramStep filename lineNumber line = Except.ok (p, some line1)) :
    parseParams filename lineNumber line =
      match parseParams filename lineNumber line1 with
      | Except.error e => Except.error e
      | Except.ok ps => Except.ok (p :: ps) := by
  have hs := paramStep_shrinks _ _ _ _ _ hlen h
  unfold parseParams
  obtain ⟨k, hk⟩ : ∃ k, line.length = k + 1 := ⟨line.length - 1, by omega⟩
  have hne : line.isEmpty = false := by
    cases line with
    | nil => simp at hk
    | cons c cs => rfl
  rw [hk]
  simp only [paramLoop, hne, Bool.false_eq_true, if_false, h]
  rw [paramLoop_fuel_irrelevant filename lineNumber k line1.length line1 (by omega) (le_refl _)
    (by omega)]

/-! ## Parameter loop: unquoted values -/

theorem Spaces.all_isspace {s : Str} (h : Spaces s) : ∀ c ∈ s, isspace c = true := by
  intro c hc
  rw [h c hc]
  rfl

theorem Spaces.spaces_no_eq {s : Str} (h : Spaces s) : ∀ c ∈ s, c ∉ [ '='] := by
  intro c hc hmem
  rw [h c hc] at hmem
  revert hmem
  decide

theorem Spaces.all_blanks {s : Str} (h : Spaces s) : ∀ c ∈ s, c ∈ blanks := by
  intro c hc
  rw [h c hc]
  decide

theorem not_blank_of_not_isspace (c : Char) (h : isspace c = false) : c ∉ blanks := by
  intro hmem
  have : isspace c = true := by
    simp only [blanks, List.mem_cons, List.mem_singleton, List.not_mem_nil, or_false] at hmem
    rcases hmem with rfl | rfl | rfl <;> rfl
  rw [h] at this
  exact Bool.noConfusion this

theorem Word.word_no_eq {s : Str} (h : Word s) : ∀ c ∈ s, c ∉ [ '='] := by
  intro c hc hmem
  rw [List.mem_singleton] at hmem
  exact (h.2 c hc).2 hmem

theorem Word.word_no_blank {s : Str} (h : Word s) : ∀ c ∈ s, c ∉ blanks :=
  fun c hc => not_blank_of_not_isspace c (h.2 c hc).1

theorem Word.word_tight {s : Str} (h : Word s) : Tight s :=
  ⟨fun c hc => (h.2 c (List.mem_of_mem_head? hc)).1,
   fun c hc => (h.2 c (List.mem_of_mem_getLast? hc)).1⟩

theorem Word.word_length_pos {s : Str} (h : Word s) : 0 < s.length :=
  List.length_pos.mpr h.1

theorem mem_append_no_eq {xs ys : Str} (hx : ∀ c ∈ xs, c ∉ [ '=']) (hy : ∀ c ∈ ys, c ∉ [ '=']) :
    ∀ c ∈ xs ++ ys, c ∉ [ '='] := by
  intro c hc
  rcases List.mem_append.mp hc with h | h
  · exact hx c h
  · exact hy c h

theorem valueEnd_unquoted (filename : Str) (lineNumber : Nat) (line : Str)
    (hd : line.headD nul ≠ dquote) (hs : line.headD nul ≠ squote) :
    valueEnd filename lineNumber line =
      (let pos := find_first_of line [ '='] 0
       if pos ≠ npos then
         let pos2 := find_last_of line blanks (find_last_not_of line blanks (sizeSub1 pos))
         if pos2 ≠ npos then Except.ok pos2 else Except.ok pos
       else Except.ok (sizeSub1 line.length)) := by
  unfold valueEnd
  rw [if_neg hd, if_neg hs]

theorem headD_of_word_unquoted (v rest : Str) (hv : Word v) (hu : Unquoted v) :
    (v ++ rest).headD nul ≠ dquote ∧ (v ++ rest).headD nul ≠ squote := by
  cases v with
  | nil => exact absurd rfl hv.1
  | cons c cs =>
    simp only [List.cons_append, List.headD_cons]
    constructor
    · intro h
      exact hu.1 (by simp [h])
    · intro h
      exact hu.2 (by simp [h])

/-- The position that ends an unquoted value `v` followed by blanks, the next name
and its `=`: the last blank before that name. -/
theorem valueEnd_before_next (filename : Str) (lineNumber : Nat) (v g n a R : Str)
    (hv : Word v) (hu : Unquoted v) (hg : Spaces g) (hg0 : g ≠ []) (hn : Word n)
    (ha : Spaces a) (hlen : (v ++ g ++ n ++ a ++ '=' :: R).length < npos) :
    valueEnd filename lineNumber (v ++ g ++ n ++ a ++ '=' :: R) =
      Except.ok ((v ++ g).length - 1) := by
  obtain ⟨gi, gl, rfl⟩ : ∃ gi gl, g = gi ++ [gl] := by
    rcases List.eq_nil_or_concat g with h | ⟨gi, gl, h⟩
    · exact absurd h hg0
    · exact ⟨gi, gl, by rw [h, List.concat_eq_append]⟩
  obtain ⟨ni, nl, rfl⟩ : ∃ ni nl, n = ni ++ [nl] := by
    rcases List.eq_nil_or_concat n with h | ⟨ni, nl, h⟩
    · exact absurd h hn.1
    · exact ⟨ni, nl, by rw [h, List.concat_eq_append]⟩
  have hgl : gl ∈ blanks := hg.all_blanks gl (by simp)
  have hnl : nl ∉ blanks := hn.word_no_blank nl (by simp)
  have hlen1 : v.length + gi.length + ni.length + a.length + R.length + 3 < npos := by
    simp only [List.length_append, List.length_cons, List.length_nil] at hlen
    omega
  have hvpos := hv.word_length_pos
  have hhead := headD_of_word_unquoted v ((gi ++ [gl]) ++ (ni ++ [nl]) ++ a ++ '=' :: R) hv hu
  have hassoc : v ++ (gi ++ [gl]) ++ (ni ++ [nl]) ++ a ++ '=' :: R =
      v ++ ((gi ++ [gl]) ++ (ni ++ [nl]) ++ a ++ '=' :: R) := by simp
  rw [valueEnd_unquoted _ _ _ (hassoc ▸ hhead.1) (hassoc ▸ hhead.2)]
  have hpos : find_first_of (v ++ (gi ++ [gl]) ++ (ni ++ [nl]) ++ a ++ '=' :: R) [ '='] 0 =
      (v ++ (gi ++ [gl]) ++ (ni ++ [nl]) ++ a).length :=
    find_first_of_append _ '=' R _
      (mem_append_no_eq (mem_append_no_eq (mem_append_no_eq hv.word_no_eq hg.spaces_no_eq) hn.word_no_eq) ha.spaces_no_eq)
      (by simp)
  have hposv : (v ++ (gi ++ [gl]) ++ (ni ++ [nl]) ++ a).length =
      v.length + gi.length + ni.length + a.length + 2 := by
    simp only [List.length_append, List.length_cons, List.length_nil]
    omega
  have hsub : sizeSub1 (v.length + gi.length + ni.length + a.length + 2) =
      (v ++ gi ++ [gl] ++ ni).length + a.length := by
    rw [sizeSub1_of_pos _ (by omega) (by omega)]
    simp only [List.length_append, List.length_cons, List.length_nil]
    omega
  have hshape1 : v ++ (gi ++ [gl]) ++ (ni ++ [nl]) ++ a ++ '=' :: R =
      (v ++ gi ++ [gl] ++ ni) ++ nl :: (a ++ '=' :: R) := by simp
  have hlast1 : find_last_not_of (v ++ (gi ++ [gl]) ++ (ni ++ [nl]) ++ a ++ '=' :: R) blanks
      ((v ++ gi ++ [gl] ++ ni).length + a.length) = (v ++ gi ++ [gl] ++ ni).length := by
    rw [hshape1]
    exact find_last_not_of_append _ nl a _ blanks hnl ha.all_blanks
  have hshape2 : v ++ (gi ++ [gl]) ++ (ni ++ [nl]) ++ a ++ '=' :: R =
      (v ++ gi) ++ gl :: ((ni ++ [nl]) ++ (a ++ '=' :: R)) := by simp
  have hidx : (v ++ gi ++ [gl] ++ ni).length = (v ++ gi).length + (ni ++ [nl]).length := by
    simp only [List.length_append, List.length_cons, List.length_nil]
    omega
  have hlast2 : find_last_of (v ++ (gi ++ [gl]) ++ (ni ++ [nl]) ++ a ++ '=' :: R) blanks
      ((v ++ gi ++ [gl] ++ ni).length) = (v ++ gi).length := by
    rw [hshape2, hidx]
    exact find_last_of_append _ gl (ni ++ [nl]) _ blanks hgl hn.word_no_blank
  have hne1 : v.length + gi.length + ni.length + a.length + 2 ≠ npos := by omega
  have hne2 : (v ++ gi).length ≠ npos := by
    simp only [List.length_append]
    omega
  have hres : (v ++ (gi ++ [gl])).length - 1 = (v ++ gi).length := by
    simp only [List.length_append, List.length_cons, List.length_nil]
    omega
  rw [hres]
  simp only [hpos, hposv, hne1, ne_eq, not_false_eq_true, if_true, hsub, hlast1, hlast2, hne2]

/-- The position that ends an unquoted value `v` at the end of the line: its last
character. -/
theorem valueEnd_last (filename : Str) (lineNumber : Nat) (v : Str)
    (hv : Word v) (hu : Unquoted v) (hlen : v.length < npos) :
    valueEnd filename lineNumber v = Except.ok (v.length - 1) := by
  have hhead := headD_of_word_unquoted v [] hv hu
  rw [List.append_nil] at hhead
  rw [valueEnd_unquoted _ _ _ hhead.1 hhead.2]
  have hpos : find_first_of v [ '='] 0 = npos := find_first_of_none v _ 0 hv.word_no_eq
  have hvpos := hv.word_length_pos
  simp only [hpos, ne_eq, not_true_eq_false, if_false]
  rw [sizeSub1_of_pos _ hvpos (by omega)]

theorem tight_word_append (v X : Str) (hv : Word v)
    (hX : ∀ c, (v ++ X).getLast? = some c → isspace c = false) : Tight (v ++ X) := by
  refine ⟨?_, hX⟩
  intro c hc
  rw [List.head?_append_of_ne_nil _ hv.1] at hc
  exact hv.word_tight.1 c hc

/-- The first half of a pass of the parameter loop on `n a = b X`, with `n` a word,
`a` and `b` spaces and `X` trimmed: the name is `n` and the value is looked for in
`X`. -/
theorem paramStep_name (filename : Str) (lineNumber : Nat) (n a b X : Str)
    (hn : Word n) (ha : Spaces a) (hb : Spaces b) (hX : Tight X)
    (hlen : (n ++ a ++ '=' :: (b ++ X)).length < npos) :
    paramStep filename lineNumber (n ++ a ++ '=' :: (b ++ X)) =
      match valueEnd filename lineNumber X with
      | Except.error e => Except.error e
      | Except.ok pos1 =>
        match substrE X 0 (sizeAdd1 pos1) with
        | Except.error e => Except.error e
        | Except.ok value =>
          if pos1 = npos then Except.ok ((n, trim value), none)
          else
            match substrE X (sizeAdd1 pos1) npos with
            | Except.error e => Except.error e
            | Except.ok rest1 => Except.ok ((n, trim value), some (trim rest1)) := by
  have hpos : find_first_of (n ++ a ++ '=' :: (b ++ X)) [ '='] 0 = (n ++ a).length :=
    find_first_of_append (n ++ a) '=' _ _ (mem_append_no_eq hn.word_no_eq ha.spaces_no_eq) (by simp)
  have hlen1 : n.length + a.length + b.length + X.length + 1 < npos := by
    simp only [List.length_append, List.length_cons] at hlen
    omega
  have hname : substrE (n ++ a ++ '=' :: (b ++ X)) 0 (n ++ a).length = Except.ok (n ++ a) := by
    rw [substrE_zero, List.take_left]
  have htrimn : trim (n ++ a) = n := by
    have := trim_pad [] n a (by simp) ha.all_isspace hn.word_tight
    simpa using this
  have hadd : sizeAdd1 (n ++ a).length = (n ++ a ++ [ '=']).length := by
    rw [sizeAdd1_of_lt _ (by simp only [List.length_append]; omega)]
    simp only [List.length_append, List.length_cons, List.length_nil]
  have hsplit : n ++ a ++ '=' :: (b ++ X) = (n ++ a ++ [ '=']) ++ (b ++ X) := by simp
  have hrest : substrE (n ++ a ++ '=' :: (b ++ X)) (sizeAdd1 (n ++ a).length) npos =
      Except.ok (b ++ X) := by
    rw [substrE_tail _ _ (by rw [hadd]; simp) (by omega), hadd]
    conv => lhs; rw [hsplit]
    rw [List.drop_left]
  have htrimx : trim (b ++ X) = X := by
    have := trim_pad b X [] hb.all_isspace (by simp) hX
    simpa using this
  simp only [paramStep, hpos, hname, htrimn, hrest, htrimx]

/-- A pass of the parameter loop on `n a = b v g n' a' = R`: it records `(n, v)` and goes
on with `n' a' = R`. -/
theorem paramStep_more (filename : Str) (lineNumber : Nat) (n a b v g n' a' R : Str)
    (hn : Word n) (ha : Spaces a) (hb : Spaces b) (hv : Word v) (hu : Unquoted v)
    (hg : Spaces g) (hg0 : g ≠ []) (hn' : Word n') (ha' : Spaces a')
    (hR : ∀ c, ('=' :: R).getLast? = some c → isspace c = false)
    (hlen : (n ++ a ++ '=' :: (b ++ (v ++ g ++ n' ++ a' ++ '=' :: R))).length < npos) :
    paramStep filename lineNumber (n ++ a ++ '=' :: (b ++ (v ++ g ++ n' ++ a' ++ '=' :: R))) =
      Except.ok ((n, v), some (n' ++ a' ++ '=' :: R)) := by
  have hlen1 : n.length + a.length + b.length +
      (v.length + g.length + n'.length + a'.length + R.length + 1) + 1 < npos := by
    simp only [List.length_append, List.length_cons] at hlen
    omega
  have hlast : ∀ (Y : Str) (c : Char), (Y ++ '=' :: R).getLast? = some c → isspace c = false := by
    intro Y c hc
    rw [List.getLast?_append_of_ne_nil _ (by simp)] at hc
    exact hR c hc
  have hX : Tight (v ++ g ++ n' ++ a' ++ '=' :: R) := by
    have h1 : v ++ g ++ n' ++ a' ++ '=' :: R = v ++ (g ++ n' ++ a' ++ '=' :: R) := by simp
    rw [h1]
    apply tight_word_append _ _ hv
    rw [← h1]
    exact hlast _
  have hT : Tight (n' ++ a' ++ '=' :: R) := by
    have h1 : n' ++ a' ++ '=' :: R = n' ++ (a' ++ '=' :: R) := by simp
    rw [h1]
    apply tight_word_append _ _ hn'
    rw [← h1]
    exact hlast _
  rw [paramStep_name _ _ n a b _ hn ha hb hX hlen]
  have hend := valueEnd_before_next filename lineNumber v g n' a' R hv hu hg hg0 hn' ha'
    (by simp only [List.length_append, List.length_cons]; omega)
  have hgpos : 0 < g.length := List.length_pos.mpr hg0
  have hadd : sizeAdd1 ((v ++ g).length - 1) = (v ++ g).length := by
    rw [sizeAdd1_of_lt _ (by simp only [List.length_append]; omega)]
    simp only [List.length_append]
    omega
  have hsplit : v ++ g ++ n' ++ a' ++ '=' :: R = (v ++ g) ++ (n' ++ a' ++ '=' :: R) := by simp
  have hval : substrE (v ++ g ++ n' ++ a' ++ '=' :: R) 0 (v ++ g).length = Except.ok (v ++ g) := by
    rw [substrE_zero]
    conv => lhs; rw [hsplit]
    rw [List.take_left]
  have hrest : substrE (v ++ g ++ n' ++ a' ++ '=' :: R) (v ++ g).length npos =
      Except.ok (n' ++ a' ++ '=' :: R) := by
    rw [substrE_tail _ _ (by simp only [List.length_append, List.length_cons]; omega)
      (by simp only [List.length_append, List.length_cons]; omega)]
    conv => lhs; rw [hsplit]
    rw [List.drop_left]
  have htrimv : trim (v ++ g) = v := by
    have := trim_pad [] v g (by simp) hg.all_isspace hv.word_tight
    simpa using this
  have hne : (v ++ g).length - 1 ≠ npos := by
    simp only [List.length_append]
    omega
  simp only [hend, hadd, hval, hrest, htrimv, hne, if_false, trim_of_tight _ hT]

/-- The last pass of the parameter loop, on `n a = b v`: it records `(n, v)` and leaves
an empty line. -/
theorem paramStep_last (filename : Str) (lineNumber : Nat) (n a b v : Str)
    (hn : Word n) (ha : Spaces a) (hb : Spaces b) (hv : Word v) (hu : Unquoted v)
    (hlen : (n ++ a ++ '=' :: (b ++ v)).length < npos) :
    paramStep filename lineNumber (n ++ a ++ '=' :: (b ++ v)) =
      Except.ok ((n, v), some []) := by
  have hlen1 : n.length + a.length + b.length + v.length + 1 < npos := by
    simp only [List.length_append, List.length_cons] at hlen
    omega
  rw [paramStep_name _ _ n a b v hn ha hb hv.word_tight hlen]
  have hvpos := hv.word_length_pos
  have hend := valueEnd_last filename lineNumber v hv hu (by omega)
  have hadd : sizeAdd1 (v.length - 1) = v.length := by
    rw [sizeAdd1_of_lt _ (by omega)]
    omega
  have hval : substrE v 0 v.length = Except.ok v := by
    rw [substrE_zero, List.take_length]
  have hrest : substrE v v.length npos = Except.ok [] := by
    rw [substrE_tail _ _ (le_refl _) (by omega), List.drop_length]
  have hne : v.length - 1 ≠ npos := by omega
  have htrim0 : trim ([] : Str) = [] := rfl
  simp only [hend, hadd, hval, hrest, hne, if_false, trim_of_tight _ hv.word_tight, htrim0]

/-! ## Parameter loop: a whole remainder -/

theorem spacedTail_last (rest : List SpacedParam) :
    ∀ (p : SpacedParam) (Y : Str) (c : Char), p.WF → (∀ x ∈ rest, x.WF) →
      (Y ++ spacedTail p rest).getLast? = some c → isspace c = false := by
  induction rest with
  | nil =>
    intro p Y c hp _ hc
    have hv : Word p.value := hp.2.2.2.2.2.1
    simp only [spacedTail] at hc
    rw [← List.append_assoc, List.getLast?_append_of_ne_nil _ hv.1] at hc
    exact hv.word_tight.2 c hc
  | cons q rest ih =>
    intro p Y c _ hrest hc
    simp only [spacedTail] at hc
    have hshape : Y ++ (p.afterEq ++ (p.value ++ q.gap ++ q.name ++ q.beforeEq ++
        '=' :: spacedTail q rest)) =
        (Y ++ p.afterEq ++ p.value ++ q.gap ++ q.name ++ q.beforeEq ++ [ '=']) ++
          spacedTail q rest := by simp
    rw [hshape] at hc
    exact ih q _ c (hrest q (by simp)) (fun x hx => hrest x (by simp [hx])) hc

theorem spacedLine_length_cons (p q : SpacedParam) (rest : List SpacedParam) :
    (spacedLine q rest).length ≤ (spacedLine p (q :: rest)).length := by
  simp only [spacedLine, spacedTail, List.length_append, List.length_cons]
  omega

theorem parseParams_nil (filename : Str) (lineNumber : Nat) :
    parseParams filename lineNumber [] = Except.ok [] := rfl

/-- The parameter loop on a remainder written with spaces between and inside the
parameters records the names and values in order. -/
theorem parseParams_spaced (filename : Str) (lineNumber : Nat) (rest : List SpacedParam) :
    ∀ (p : SpacedParam), p.WF → (∀ x ∈ rest, x.WF) → (spacedLine p rest).length < npos →
      parseParams filename lineNumber (spacedLine p rest) =
        Except.ok ((p.name, p.value) :: rest.map (fun x => (x.name, x.value))) := by
  induction rest with
  | nil =>
    intro p hp _ hlen
    obtain ⟨_, _, ha, hb, hn, hv, hu⟩ := hp
    have hstep := paramStep_last filename lineNumber p.name p.beforeEq p.afterEq p.value
      hn ha hb hv hu hlen
    have := parseParams_step filename lineNumber _ _ _ hlen hstep
    rw [parseParams_nil] at this
    exact this
  | cons q rest ih =>
    intro p hp hrest hlen
    obtain ⟨_, _, ha, hb, hn, hv, hu⟩ := hp
    have hq := hrest q (by simp)
    have hrest1 : ∀ x ∈ rest, x.WF := fun x hx => hrest x (by simp [hx])
    have hR : ∀ c, ('=' :: spacedTail q rest).getLast? = some c → isspace c = false :=
      fun c hc => spacedTail_last rest q [ '='] c hq hrest1 hc
    have hstep := paramStep_more filename lineNumber p.name p.beforeEq p.afterEq p.value
      q.gap q.name q.beforeEq (spacedTail q rest) hn ha hb hv hu hq.1 hq.2.1 hq.2.2.2.2.1
      hq.2.2.1 hR hlen
    have hle := spacedLine_length_cons p q rest
    have := parseParams_step filename lineNumber _ _ _ hlen hstep
    rw [show q.name ++ q.beforeEq ++ '=' :: spacedTail q rest = spacedLine q rest from rfl,
      ih q hq hrest1 (by omega)] at this
    exact this

theorem canonicalSpacing_WF (p : Str × Str) (h : CanonicalPair p) : (canonicalSpacing p).WF := by
  refine ⟨?_, by simp [canonicalSpacing], ?_, ?_, h⟩
  · intro c hc
    simpa [canonicalSpacing] using hc
  · intro c hc
    simp [canonicalSpacing] at hc
  · intro c hc
    simp [canonicalSpacing] at hc

theorem canonicalParams_eq_spacedLine (p : Str × Str) (rest : List (Str × Str)) :
    canonicalParams (p :: rest) =
      spacedLine (canonicalSpacing p) (rest.map canonicalSpacing) := by
  induction rest generalizing p with
  | nil => simp [canonicalParams, spacedLine, spacedTail, canonicalSpacing]
  | cons q rest ih =>
    have := ih q
    simp only [canonicalParams, spacedLine, spacedTail, canonicalSpacing, List.map_cons,
      List.append_nil, List.nil_append] at this ⊢
    rw [this]
    simp

/-! ## Localization rule: lemmas -/

theorem getD_append_at (b : Str) (x : Char) (ys : Str) (d : Char) :
    (b ++ x :: ys).getD b.length d = x := by
  induction b with
  | nil => rfl
  | cons a b ih => simpa using ih

/-- A command token `b.c` with `b` non-empty passes the suffix test of `Load`; its base
command is `b` and its language character is `c`. -/
theorem hasSuffix_append (b : Str) (c : Char) (hb : b ≠ []) :
    hasSuffix (b ++ [ '.', c]) = true ∧
    (b ++ [ '.', c]).take ((b ++ [ '.', c]).length - 2) = b ∧
    (b ++ [ '.', c]).getD ((b ++ [ '.', c]).length - 1) nul = c := by
  have hlen : (b ++ [ '.', c]).length = b.length + 2 := by simp
  have hpos : 0 < b.length := List.length_pos.mpr hb
  refine ⟨?_, ?_, ?_⟩
  · unfold hasSuffix
    rw [hlen, show b.length + 2 - 2 = b.length by omega, getD_append_at]
    simp
    omega
  · rw [hlen, show b.length + 2 - 2 = b.length by omega, List.take_left]
  · rw [hlen, show b.length + 2 - 1 = (b ++ [ '.']).length by simp,
      show b ++ [ '.', c] = (b ++ [ '.']) ++ c :: [] by simp, getD_append_at]

/-- A command token that passes the suffix test of `Load` is `b.c` with `b` non-empty. -/
theorem hasSuffix_decompose (t : Str) (h : hasSuffix t = true) :
    ∃ b c, b ≠ [] ∧ t = b ++ [ '.', c] := by
  unfold hasSuffix at h
  simp only [Bool.and_eq_true, decide_eq_true_eq, beq_iff_eq] at h
  obtain ⟨hlen, hdot⟩ := h
  have hsplit := List.take_append_drop (t.length - 2) t
  have hdrop : (t.drop (t.length - 2)).length = 2 := by
    rw [List.length_drop]
    omega
  obtain ⟨x, y, hxy⟩ := List.length_eq_two.mp hdrop
  have htake : (t.take (t.length - 2)).length = t.length - 2 := by
    rw [List.length_take]
    omega
  have hx : x = '.' := by
    have h1 := getD_append_at (t.take (t.length - 2)) x [y] nul
    rw [htake, ← hxy, hsplit] at h1
    rw [← h1, hdot]
  refine ⟨t.take (t.length - 2), y, ?_, ?_⟩
  · intro h0
    rw [h0] at htake
    simp at htake
    omega
  · rw [← hx, ← hxy, hsplit]

theorem localize_suffixed (lang : Char) (st : LoadState) (b : Str) (c : Char) (hb : b ≠ []) :
    localize lang st (b ++ [ '.', c]) =
      if c = 'E' ∧ ¬ b ∈ st.translatableLines then
        some (b, { st with translatableLines := st.translatableLines.insert b })
      else if c = lang then
        some (b,
          { m_lines :=
              if b ∈ st.translatableLines then removeCommand b st.m_lines else st.m_lines
            translatableLines := st.translatableLines.insert b })
      else none := by
  obtain ⟨h1, h2, h3⟩ := hasSuffix_append b c hb
  unfold localize
  simp only [h1, if_true, h2, h3]

theorem localize_plain (lang : Char) (st : LoadState) (t : Str) (h : hasSuffix t = false) :
    localize lang st t = some (t, st) := by
  unfold localize
  simp [h]

theorem loadLine_tokenized (filename : Str) (lang : Char) (lineNumber : Nat) (st : LoadState)
    (raw command line : Str) (htok : tokenize raw = Except.ok (command, line))
    (hne : command ≠ []) :
    loadLine filename lang lineNumber st raw =
      match localize lang st command with
      | none => (st, none)
      | some (cmd, st1) =>
        match parseParams filename lineNumber line with
        | Except.error e => (st1, some e)
        | Except.ok ps =>
          ({ st1 with m_lines := st1.m_lines ++ [⟨lineNumber, cmd, ps⟩] }, none) := by
  unfold loadLine
  have : command.isEmpty = false := by
    cases command with
    | nil => exact absurd rfl hne
    | cons c cs => rfl
  simp only [htok, this, Bool.false_eq_true, if_false]

/-! ## The loop over the physical lines: lemmas -/

theorem loadLoop_append (filename : Str) (lang : Char) (pre post : List Str) :
    ∀ (n : Nat) (st : LoadState),
      loadLoop filename lang (pre ++ post) n st =
        match loadLoop filename lang pre n st with
        | (st1, some e) => (st1, some e)
        | (st1, none) => loadLoop filename lang post (n + pre.length) st1 := by
  induction pre with
  | nil => intro n st; rfl
  | cons raw pre ih =>
    intro n st
    simp only [List.cons_append, loadLoop, List.append_eq]
    rcases hline : loadLine filename lang (n + 1) st raw with ⟨st1, _ | e⟩
    · simp only
      rw [ih (n + 1) st1]
      have : n + 1 + pre.length = n + (raw :: pre).length := by
        simp only [List.length_cons]
        omega
      rw [this]
    · rfl

theorem loadLoop_split (filename : Str) (lang : Char) (pre : List Str) (raw : Str)
    (post : List Str) (n : Nat) (st st' : LoadState)
    (h : loadLoop filename lang (pre ++ raw :: post) n st = (st', none)) :
    ∃ st1 st2, loadLoop filename lang pre n st = (st1, none) ∧
      loadLine filename lang (n + pre.length + 1) st1 raw = (st2, none) ∧
      loadLoop filename lang post (n + pre.length + 1) st2 = (st', none) := by
  rw [loadLoop_append] at h
  rcases hpre : loadLoop filename lang pre n st with ⟨st1, _ | e⟩
  · rw [hpre] at h
    simp only [loadLoop] at h
    rcases hline : loadLine filename lang (n + pre.length + 1) st1 raw with ⟨st2, _ | e⟩
    · rw [hline] at h
      exact ⟨st1, st2, rfl, hline, h⟩
    · rw [hline] at h
      simp at h
  · rw [hpre] at h
    simp at h

theorem loadLoop_preserves (filename : Str) (lang : Char) (Inv : LoadState → Prop)
    (lines : List Str)
    (hstep : ∀ raw ∈ lines, ∀ (n : Nat) (st st' : LoadState), Inv st →
      loadLine filename lang n st raw = (st', none) → Inv st') :
    ∀ (n : Nat) (st st' : LoadState), Inv st →
      loadLoop filename lang lines n st = (st', none) → Inv st' := by
  induction lines with
  | nil =>
    intro n st st' hinv h
    simp only [loadLoop, Prod.mk.injEq, and_true] at h
    exact h ▸ hinv
  | cons raw lines ih =>
    intro n st st' hinv h
    simp only [loadLoop] at h
    rcases hline : loadLine filename lang (n + 1) st raw with ⟨st1, _ | e⟩
    · rw [hline] at h
      exact ih (fun r hr => hstep r (by simp [hr])) (n + 1) st1 st'
        (hstep raw (by simp) (n + 1) st st1 hinv hline) h
    · rw [hline] at h
      simp at h

theorem cmdLines_append_one (b : Str) (ls : List CLevelParserLine) (l : CLevelParserLine) :
    cmdLines b (ls ++ [l]) = cmdLines b ls ++ (if l.command = b then [l] else []) := by
  unfold cmdLines
  rw [List.filter_append]
  by_cases h : l.command = b <;> simp [List.filter, h]

theorem cmdLines_removeCommand_self (b : Str) (ls : List CLevelParserLine) :
    cmdLines b (removeCommand b ls) = [] := by
  unfold cmdLines removeCommand
  rw [List.filter_filter]
  simp

theorem cmdLines_removeCommand_other (b b' : Str) (ls : List CLevelParserLine) (h : b' ≠ b) :
    cmdLines b (removeCommand b' ls) = cmdLines b ls := by
  unfold cmdLines removeCommand
  rw [List.filter_filter]
  apply List.filter_congr
  intro l _
  by_cases hl : l.command = b
  · have : l.command ≠ b' := fun h' => h (h' ▸ hl)
    simp [hl, this, Ne.symm h]
  · simp [hl]

/-- What a pass of the loop over the physical lines that does not throw does to the
state: nothing, or it appends a line for an unsuffixed token, or it appends a line for
a suffixed token that the localization rule keeps. -/
theorem loadLine_effect (filename : Str) (lang : Char) (n : Nat) (st st' : LoadState) (raw : Str)
    (h : loadLine filename lang n st raw = (st', none)) :
    st' = st ∨
    (∃ t r ps, tokenize raw = Except.ok (t, r) ∧ t ≠ [] ∧ hasSuffix t = false ∧
      st' = ⟨st.m_lines ++ [⟨n, t, ps⟩], st.translatableLines⟩) ∨
    (∃ b c r ps, tokenize raw = Except.ok (b ++ [ '.', c], r) ∧ b ≠ [] ∧
      (c = lang ∨ (c = 'E' ∧ b ∉ st.translatableLines)) ∧
      parseParams filename n r = Except.ok ps ∧
      st' = ⟨(if c = lang ∧ b ∈ st.translatableLines then removeCommand b st.m_lines
              else st.m_lines) ++ [⟨n, b, ps⟩], st.translatableLines.insert b⟩) := by
  rcases htok : tokenize raw with e | ⟨t, r⟩
  · simp [loadLine, htok] at h
  · by_cases hne : t = []
    · subst hne
      simp only [loadLine, htok, List.isEmpty_nil, if_true, Prod.mk.injEq, and_true] at h
      exact Or.inl h.symm
    · rw [loadLine_tokenized _ _ _ _ _ _ _ htok hne] at h
      by_cases hsuf : hasSuffix t = true
      · obtain ⟨b, c, hb, rfl⟩ := hasSuffix_decompose t hsuf
        rw [localize_suffixed lang st b c hb] at h
        by_cases h1 : c = 'E' ∧ ¬ b ∈ st.translatableLines
        · rw [if_pos h1] at h
          rcases hp : parseParams filename n r with e | ps
          · simp [hp] at h
          · simp only [hp, Prod.mk.injEq, and_true] at h
            refine Or.inr (Or.inr ⟨b, c, r, ps, rfl, hb, Or.inr h1, hp, ?_⟩)
            rw [if_neg (fun hh => h1.2 hh.2)]
            exact h.symm
        · rw [if_neg h1] at h
          by_cases h2 : c = lang
          · rw [if_pos h2] at h
            rcases hp : parseParams filename n r with e | ps
            · simp [hp] at h
            · simp only [hp, Prod.mk.injEq, and_true] at h
              refine Or.inr (Or.inr ⟨b, c, r, ps, rfl, hb, Or.inl h2, hp, ?_⟩)
              rw [← h]
              by_cases hm : b ∈ st.translatableLines <;> simp [h2, hm]
          · rw [if_neg h2] at h
            simp only [Prod.mk.injEq, and_true] at h
            exact Or.inl h.symm
      · have hsuf' : hasSuffix t = false := by simpa using hsuf
        rw [localize_plain lang st t hsuf'] at h
        rcases hp : parseParams filename n r with e | ps
        · simp [hp] at h
        · simp only [hp, Prod.mk.injEq, and_true] at h
          exact Or.inr (Or.inl ⟨t, r, ps, rfl, hne, hsuf', h.symm⟩)

theorem suffixed_inj (b b' : Str) (c c' : Char) (h : b ++ [ '.', c] = b' ++ [ '.', c']) :
    b = b' ∧ c = c' := by
  have := List.append_inj' h rfl
  refine ⟨this.1, ?_⟩
  have h2 := this.2
  simp only [List.cons.injEq, and_true, true_and] at h2
  exact h2

/-- As long as no line has the unsuffixed token `b`, a base command `b` that is not in
`translatableLines` has no line in the document. -/
theorem unseen_step (filename : Str) (lang : Char) (b : Str) (raw : Str)
    (hplain : ∀ r, tokenize raw ≠ Except.ok (b, r)) (n : Nat) (st st' : LoadState)
    (hinv : b ∉ st.translatableLines → cmdLines b st.m_lines = [])
    (h : loadLine filename lang n st raw = (st', none)) :
    b ∉ st'.translatableLines → cmdLines b st'.m_lines = [] := by
  rcases loadLine_effect _ _ _ _ _ _ h with rfl | ⟨t, r, ps, htok, _, _, rfl⟩ |
    ⟨b', c, r, ps, htok, _, _, _, rfl⟩
  · exact hinv
  · intro hb
    have hne : t ≠ b := fun e => hplain r (e ▸ htok)
    rw [cmdLines_append_one, if_neg hne, List.append_nil]
    exact hinv hb
  · intro hb
    simp only [List.mem_insert_iff, not_or] at hb
    have hne : b' ≠ b := fun e => hb.1 e.symm
    rw [cmdLines_append_one, if_neg hne, List.append_nil]
    split
    · rw [cmdLines_removeCommand_other b b' _ hne]
      exact hinv hb.2
    · exact hinv hb.2

/-- Once the document has exactly the line `x` for a seen base command `b`, lines whose
token is neither `b` nor `b.<lang>` leave it so. -/
theorem stable_step (filename : Str) (lang : Char) (b : Str) (x : CLevelParserLine) (raw : Str)
    (hplain : ∀ r, tokenize raw ≠ Except.ok (b, r))
    (hlang : ∀ r, tokenize raw ≠ Except.ok (b ++ [ '.', lang], r))
    (n : Nat) (st st' : LoadState)
    (hinv : cmdLines b st.m_lines = [x] ∧ b ∈ st.translatableLines)
    (h : loadLine filename lang n st raw = (st', none)) :
    cmdLines b st'.m_lines = [x] ∧ b ∈ st'.translatableLines := by
  rcases loadLine_effect _ _ _ _ _ _ h with rfl | ⟨t, r, ps, htok, _, _, rfl⟩ |
    ⟨b', c, r, ps, htok, _, hkeep, _, rfl⟩
  · exact hinv
  · have hne : t ≠ b := fun e => hplain r (e ▸ htok)
    rw [cmdLines_append_one, if_neg hne, List.append_nil]
    exact hinv
  · have hne : b' ≠ b := by
      intro e
      subst e
      rcases hkeep with hc | ⟨_, hunseen⟩
      · exact hlang r (hc ▸ htok)
      · exact hunseen hinv.2
    refine ⟨?_, by simp [hinv.2]⟩
    rw [cmdLines_append_one, if_neg hne, List.append_nil]
    split
    · rw [cmdLines_removeCommand_other b b' _ hne]
      exact hinv.1
    · exact hinv.1

/-- Lines whose token is none of `b`, `b.E` and `b.<lang>` leave a base command `b`
unseen and without a line. -/
theorem absent_step (filename : Str) (lang : Char) (b : Str) (raw : Str)
    (hplain : ∀ r, tokenize raw ≠ Except.ok (b, r))
    (hlang : ∀ r, tokenize raw ≠ Except.ok (b ++ [ '.', lang], r))
    (hfall : ∀ r, tokenize raw ≠ Except.ok (b ++ [ '.', 'E'], r))
    (n : Nat) (st st' : LoadState)
    (hinv : b ∉ st.translatableLines ∧ cmdLines b st.m_lines = [])
    (h : loadLine filename lang n st raw = (st', none)) :
    b ∉ st'.translatableLines ∧ cmdLines b st'.m_lines = [] := by
  rcases loadLine_effect _ _ _ _ _ _ h with rfl | ⟨t, r, ps, htok, _, _, rfl⟩ |
    ⟨b', c, r, ps, htok, _, hkeep, _, rfl⟩
  · exact hinv
  · have hne : t ≠ b := fun e => hplain r (e ▸ htok)
    rw [cmdLines_append_one, if_neg hne, List.append_nil]
    exact hinv
  · have hne : b' ≠ b := by
      intro e
      subst e
      rcases hkeep with hc | ⟨hc, _⟩
      · exact hlang r (hc ▸ htok)
      · exact hfall r (hc ▸ htok)
    refine ⟨?_, ?_⟩
    · simp only [List.mem_insert_iff, not_or]
      exact ⟨fun e => hne e.symm, hinv.1⟩
    · rw [cmdLines_append_one, if_neg hne, List.append_nil]
      split
      · rw [cmdLines_removeCommand_other b b' _ hne]
        exact hinv.2
      · exact hinv.2

/-- A kept line with token `b.<lang>`: afterwards the document has exactly this line
for `b`, and `b` is seen. -/
theorem active_step (filename : Str) (lang : Char) (b : Str) (hb : b ≠ []) (raw r : Str)
    (htok : tokenize raw = Except.ok (b ++ [ '.', lang], r)) (n : Nat) (st st' : LoadState)
    (hinv : b ∉ st.translatableLines → cmdLines b st.m_lines = [])
    (h : loadLine filename lang n st raw = (st', none)) :
    ∃ ps, parseParams filename n r = Except.ok ps ∧
      cmdLines b st'.m_lines = [⟨n, b, ps⟩] ∧ b ∈ st'.translatableLines := by
  rw [loadLine_tokenized _ _ _ _ _ _ _ htok (by simp), localize_suffixed lang st b lang hb] at h
  by_cases h1 : lang = 'E' ∧ ¬ b ∈ st.translatableLines
  · rw [if_pos h1] at h
    rcases hp : parseParams filename n r with e | ps
    · simp [hp] at h
    · simp only [hp, Prod.mk.injEq, and_true] at h
      subst h
      refine ⟨ps, rfl, ?_, by simp⟩
      simp only
      rw [cmdLines_append_one, if_pos rfl, hinv h1.2]
      rfl
  · rw [if_neg h1, if_pos rfl] at h
    rcases hp : parseParams filename n r with e | ps
    · simp [hp] at h
    · simp only [hp, Prod.mk.injEq, and_true] at h
      subst h
      refine ⟨ps, rfl, ?_, by simp⟩
      simp only
      rw [cmdLines_append_one, if_pos rfl]
      by_cases hm : b ∈ st.translatableLines
      · simp [hm, cmdLines_removeCommand_self]
      · simp [hm, hinv hm]

/-- A line with token `b.E` for an unseen base command `b`: afterwards the document has
exactly this line for `b`, and `b` is seen. -/
theorem fallback_step (filename : Str) (lang : Char) (b : Str) (hb : b ≠ []) (raw r : Str)
    (htok : tokenize raw = Except.ok (b ++ [ '.', 'E'], r)) (n : Nat) (st st' : LoadState)
    (hinv : b ∉ st.translatableLines ∧ cmdLines b st.m_lines = [])
    (h : loadLine filename lang n st raw = (st', none)) :
    ∃ ps, parseParams filename n r = Except.ok ps ∧
      cmdLines b st'.m_lines = [⟨n, b, ps⟩] ∧ b ∈ st'.translatableLines := by
  rw [loadLine_tokenized _ _ _ _ _ _ _ htok (by simp), localize_suffixed lang st b 'E' hb,
    if_pos ⟨rfl, hinv.1⟩] at h
  rcases hp : parseParams filename n r with e | ps
  · simp [hp] at h
  · simp only [hp, Prod.mk.injEq, and_true] at h
    subst h
    refine ⟨ps, rfl, ?_, by simp⟩
    simp only
    rw [cmdLines_append_one, if_pos rfl, hinv.2]
    rfl

theorem exists_last_split (P : Str → Prop) (l : List Str) (h : ∃ x ∈ l, P x) :
    ∃ pre x post, l = pre ++ x :: post ∧ P x ∧ ∀ y ∈ post, ¬ P y := by
  induction l with
  | nil => simp at h
  | cons a l ih =>
    by_cases hl : ∃ y ∈ l, P y
    · obtain ⟨pre, x, post, rfl, hx, hpost⟩ := ih hl
      exact ⟨a :: pre, x, post, rfl, hx, hpost⟩
    · obtain ⟨x, hx, hPx⟩ := h
      rcases List.mem_cons.mp hx with rfl | hx
      · exact ⟨[], x, l, rfl, hPx, fun y hy hPy => hl ⟨y, hy, hPy⟩⟩
      · exact absurd ⟨x, hx, hPx⟩ hl

theorem exists_first_split (P : Str → Prop) (l : List Str) (h : ∃ x ∈ l, P x) :
    ∃ pre x post, l = pre ++ x :: post ∧ P x ∧ ∀ y ∈ pre, ¬ P y := by
  induction l with
  | nil => simp at h
  | cons a l ih =>
    by_cases ha : P a
    · exact ⟨[], a, l, rfl, ha, by simp⟩
    · obtain ⟨x, hx, hPx⟩ := h
      rcases List.mem_cons.mp hx with rfl | hx
      · exact absurd hPx ha
      · obtain ⟨pre, y, post, rfl, hy, hpre⟩ := ih ⟨x, hx, hPx⟩
        refine ⟨a :: pre, y, post, rfl, hy, ?_⟩
        intro z hz
        rcases List.mem_cons.mp hz with rfl | hz
        · exact ha
        · exact hpre z hz

/-! ## Unclosed quotes -/

theorem valueEnd_unclosed (filename : Str) (lineNumber : Nat) (q : Char)
    (hq : q = dquote ∨ q = squote) (text : Str) (htext : q ∉ text) :
    valueEnd filename lineNumber (q :: text) =
      Except.error (LoadError.parser (unclosedMsg q filename lineNumber)) := by
  have hfind : find_first_of (q :: text) [q] 1 = npos := by
    unfold find_first_of
    rw [show (q :: text).drop 1 = text from rfl, firstIdx_none _ _ (by
      intro x hx
      have : x ≠ q := fun e => htext (e ▸ hx)
      simpa using this)]
  rcases hq with rfl | rfl
  · simp only [valueEnd, List.headD_cons, if_true, hfind]
  · have hne : squote ≠ dquote := by decide
    simp only [valueEnd, List.headD_cons, hne, if_false, if_true, hfind]

theorem paramStep_unclosed (filename : Str) (lineNumber : Nat) (q : Char)
    (hq : q = dquote ∨ q = squote) (line rest text : Str)
    (hrest : substrE line (sizeAdd1 (find_first_of line [ '='] 0)) npos = Except.ok rest)
    (htrim : trim rest = q :: text) (htext : q ∉ text) :
    paramStep filename lineNumber line =
      Except.error (LoadError.parser (unclosedMsg q filename lineNumber)) := by
  simp only [paramStep, substrE_zero, hrest, htrim,
    valueEnd_unclosed filename lineNumber q hq text htext]

theorem parseParams_unclosed (filename : Str) (lineNumber : Nat) (q : Char)
    (hq : q = dquote ∨ q = squote) (line : Str)
    (h : UnclosedQuote filename lineNumber q line) (hlen : line.length < npos) :
    parseParams filename lineNumber line =
      Except.error (LoadError.parser (unclosedMsg q filename lineNumber)) := by
  induction h with
  | here line rest text hne hrest htrim htext =>
    have hstep := paramStep_unclosed filename lineNumber q hq line rest text hrest htrim htext
    unfold parseParams
    cases line with
    | nil => exact absurd rfl hne
    | cons c cs =>
      simp only [List.length_cons, paramLoop, List.isEmpty_cons, Bool.false_eq_true, if_false,
        hstep]
  | later line p line1 hstep _ ih =>
    have hs := paramStep_shrinks _ _ _ _ _ hlen hstep
    rw [parseParams_step _ _ _ _ _ hlen hstep, ih (by omega)]

/-! ## Line normalization: lemmas -/

theorem head_dropWhile_isspace (l : Str) (c : Char) (h : (l.dropWhile isspace).head? = some c) :
    isspace c = false := by
  have := List.head?_dropWhile_not isspace l
  rw [h] at this
  exact this

theorem trim_right_last (s : Str) (c : Char) (h : (trim_right s).getLast? = some c) :
    isspace c = false := by
  unfold trim_right at h
  rw [List.getLast?_reverse] at h
  exact head_dropWhile_isspace _ c h

theorem trim_tight (s : Str) : Tight (trim s) := by
  unfold trim
  constructor
  · intro c hc
    exact head_dropWhile_isspace _ c hc
  · intro c hc
    obtain ⟨t, ht⟩ := List.dropWhile_suffix isspace (l := trim_right s)
    have hne : (trim_right s).dropWhile isspace ≠ [] := by
      intro h0
      unfold trim_left at hc
      rw [h0] at hc
      simp at hc
    apply trim_right_last s c
    rw [← ht, List.getLast?_append_of_ne_nil _ hne]
    exact hc

theorem trim_idem (s : Str) : trim (trim s) = trim s := trim_of_tight _ (trim_tight s)

theorem trim_right_prefix (s : Str) : ∃ w, s = trim_right s ++ w := by
  refine ⟨(s.reverse.takeWhile isspace).reverse, ?_⟩
  unfold trim_right
  rw [← List.reverse_append, List.takeWhile_append_dropWhile, List.reverse_reverse]

theorem trim_left_suffix (s : Str) : ∃ w, s = w ++ trim_left s := by
  obtain ⟨t, ht⟩ := List.dropWhile_suffix isspace (l := s)
  exact ⟨t, ht.symm⟩

theorem mem_trim (s : Str) (c : Char) (h : c ∈ trim s) : c ∈ s := by
  unfold trim at h
  obtain ⟨w, hw⟩ := trim_left_suffix (trim_right s)
  obtain ⟨v, hv⟩ := trim_right_prefix s
  rw [hv, hw]
  simp [h]

theorem slashes_eq : "//".toList = [ '/', '/'] := rfl

theorem subIdx_cons_none (c : Char) (s : Str) :
    subIdx [ '/', '/'] (c :: s) = none ↔
      ([ '/', '/'].isPrefixOf (c :: s) = false ∧ subIdx [ '/', '/'] s = none) := by
  by_cases h : [ '/', '/'].isPrefixOf (c :: s) = true
  · simp [subIdx, h]
  · have h' : [ '/', '/'].isPrefixOf (c :: s) = false := Bool.eq_false_iff.mpr h
    simp [subIdx, h']

theorem subIdx_nil : subIdx [ '/', '/'] [] = none := rfl

theorem isPrefixOf_slashes (c : Char) (s : Str) :
    [ '/', '/'].isPrefixOf (c :: s) = (c == '/' && s.head? == some '/') := by
  cases s with
  | nil => simp [List.isPrefixOf]
  | cons d t =>
    by_cases hc : c = '/'
    · subst hc
      by_cases hd : d = '/'
      · subst hd
        simp [List.isPrefixOf]
      · have hd' : ('/' == d) = false := by simpa using Ne.symm hd
        simp [List.isPrefixOf, hd', hd]
    · have hc' : ('/' == c) = false := by simpa using Ne.symm hc
      simp [List.isPrefixOf, hc', hc]

/-- Text without `/` in front of a string does not bring in a `//`. -/
theorem subIdx_none_of_noSlash_left (A X : Str) (hA : ∀ c ∈ A, c ≠ '/')
    (hX : subIdx [ '/', '/'] X = none) : subIdx [ '/', '/'] (A ++ X) = none := by
  induction A with
  | nil => exact hX
  | cons a A ih =>
    rw [List.cons_append, subIdx_cons_none, isPrefixOf_slashes]
    have ha : a ≠ '/' := hA a (by simp)
    exact ⟨by simp [ha], ih (fun c hc => hA c (by simp [hc]))⟩

/-- Text without `/` behind a string without `//` does not bring in a `//`. -/
theorem subIdx_none_of_noSlash_right (X B : Str) (hB : ∀ c ∈ B, c ≠ '/')
    (hX : subIdx [ '/', '/'] X = none) : subIdx [ '/', '/'] (X ++ B) = none := by
  induction X with
  | nil =>
    have := subIdx_none_of_noSlash_left B [] hB subIdx_nil
    simpa using this
  | cons x X ih =>
    rw [subIdx_cons_none, isPrefixOf_slashes] at hX
    rw [List.cons_append, subIdx_cons_none, isPrefixOf_slashes]
    refine ⟨?_, ih hX.2⟩
    by_cases hx : x = '/'
    · subst hx
      cases X with
      | nil =>
        cases B with
        | nil => simp
        | cons b B =>
          have hb : b ≠ '/' := hB b (by simp)
          simp [hb]
      | cons y Y =>
        have := hX.1
        simp at this
        simp [this]
    · simp [hx]

/-- A comment marker appended to text without `//` that does not end in `/` is the
first `//`. -/
theorem subIdx_append_comment (P t : Str) (hP : subIdx [ '/', '/'] P = none)
    (hlast : P.getLast? ≠ some '/') :
    subIdx [ '/', '/'] (P ++ '/' :: '/' :: t) = some P.length := by
  induction P with
  | nil => simp [subIdx, List.isPrefixOf]
  | cons c P ih =>
    rw [subIdx_cons_none, isPrefixOf_slashes] at hP
    have hpre : [ '/', '/'].isPrefixOf (c :: (P ++ '/' :: '/' :: t)) = false := by
      rw [isPrefixOf_slashes]
      by_cases hc : c = '/'
      · subst hc
        cases P with
        | nil => simp at hlast
        | cons y Y =>
          have := hP.1
          simp at this
          simp [this]
      · simp [hc]
    have hlast' : P.getLast? ≠ some '/' := by
      cases P with
      | nil => simp
      | cons y Y =>
        rw [List.getLast?_cons_cons] at hlast
        exact hlast
    rw [List.cons_append, subIdx, hpre]
    simp only [Bool.false_eq_true, if_false, ih hP.2 hlast', Option.map_some',
      List.length_cons]

theorem subIdx_none_of_append (xs ys : Str) (h : subIdx [ '/', '/'] (xs ++ ys) = none) :
    subIdx [ '/', '/'] xs = none := by
  induction xs with
  | nil => rfl
  | cons x xs ih =>
    rw [List.cons_append, subIdx_cons_none, isPrefixOf_slashes] at h
    rw [subIdx_cons_none, isPrefixOf_slashes]
    refine ⟨?_, ih h.2⟩
    have h1 := h.1
    cases xs with
    | nil => simp
    | cons y Y => simpa using h1

theorem subIdx_none_of_suffix (xs ys : Str) (h : subIdx [ '/', '/'] (xs ++ ys) = none) :
    subIdx [ '/', '/'] ys = none := by
  induction xs with
  | nil => exact h
  | cons x xs ih =>
    rw [List.cons_append, subIdx_cons_none] at h
    exact ih h.2

theorem subIdx_trim_none (s : Str) (h : subIdx [ '/', '/'] s = none) :
    subIdx [ '/', '/'] (trim s) = none := by
  unfold trim
  obtain ⟨w, hw⟩ := trim_left_suffix (trim_right s)
  obtain ⟨v, hv⟩ := trim_right_prefix s
  rw [hv] at h
  have h1 := subIdx_none_of_append _ _ h
  rw [hw] at h1
  exact subIdx_none_of_suffix _ _ h1

/-- The text before the first `//` has no `//`. -/
theorem subIdx_take_none (s : Str) (i : Nat) (h : subIdx [ '/', '/'] s = some i) :
    subIdx [ '/', '/'] (s.take i) = none ∧ i < s.length := by
  induction s generalizing i with
  | nil => simp [subIdx] at h
  | cons c s ih =>
    simp only [subIdx] at h
    by_cases hp : [ '/', '/'].isPrefixOf (c :: s) = true
    · simp only [hp, if_true, Option.some.injEq] at h
      subst h
      exact ⟨rfl, by simp⟩
    · simp only [hp, Bool.false_eq_true, if_false, Option.map_eq_some'] at h
      obtain ⟨j, hj, rfl⟩ := h
      obtain ⟨ih1, ih2⟩ := ih j hj
      refine ⟨?_, by simp only [List.length_cons]; omega⟩
      rw [List.take_succ_cons, subIdx_cons_none]
      refine ⟨?_, ih1⟩
      simp only [Bool.not_eq_true] at hp
      rw [isPrefixOf_slashes] at hp ⊢
      by_cases hc : c = '/'
      · subst hc
        have hs : s.head? ≠ some '/' := by simpa using hp
        have : (s.take j).head? ≠ some '/' := by
          cases j with
          | zero => simp
          | succ k =>
            cases s with
            | nil => simp
            | cons d t => simpa using hs
        simpa using this
      · simp [hc]

theorem replaceTabs_no_tab (s : Str) : ∀ c ∈ replaceTabs s, c ≠ tab := by
  intro c hc
  unfold replaceTabs at hc
  obtain ⟨d, _, rfl⟩ := List.mem_map.mp hc
  by_cases hd : d = tab
  · rw [if_pos hd]
    decide
  · rw [if_neg hd]
    exact hd

theorem replaceTabs_id (s : Str) (h : ∀ c ∈ s, c ≠ tab) : replaceTabs s = s := by
  unfold replaceTabs
  induction s with
  | nil => rfl
  | cons c s ih =>
    have hc : c ≠ tab := h c (by simp)
    simp only [List.map_cons, if_neg hc]
    rw [ih (fun d hd => h d (by simp [hd]))]

/-- What `normalizeLine` returns: the line with tabs replaced, cut at the first `//`,
trimmed. -/
theorem normalizeLine_eq (raw : Str) :
    normalizeLine raw =
      Except.ok (trim (match subIdx [ '/', '/'] (replaceTabs raw) with
        | some i => if i ≠ npos then (replaceTabs raw).take i else replaceTabs raw
        | none => replaceTabs raw)) := by
  unfold normalizeLine find
  rw [slashes_eq]
  dsimp only
  cases h : subIdx [ '/', '/'] (replaceTabs raw) with
  | none => simp
  | some i =>
    by_cases hi : i = npos
    · simp [hi]
    · simp [hi, substrE_zero]

/-- The result of `normalizeLine` has no tab and no `//`, and is trimmed. -/
theorem normalizeLine_result (raw l : Str) (hlen : raw.length < npos)
    (h : normalizeLine raw = Except.ok l) :
    (∀ c ∈ l, c ≠ tab) ∧ subIdx [ '/', '/'] l = none ∧ Tight l := by
  rw [normalizeLine_eq] at h
  injection h with h
  subst h
  refine ⟨?_, ?_, trim_tight _⟩
  · intro c hc
    have hc1 := mem_trim _ c hc
    apply replaceTabs_no_tab raw c
    split at hc1
    · split at hc1
      · exact List.mem_of_mem_take hc1
      · exact hc1
    · exact hc1
  · apply subIdx_trim_none
    split
    · rename_i i hi
      obtain ⟨h1, h2⟩ := subIdx_take_none _ i hi
      have hne : i ≠ npos := by
        have : (replaceTabs raw).length = raw.length := by simp [replaceTabs]
        omega
      rw [if_pos hne]
      exact h1
    · rename_i hi
      exact hi

/-- The normalization of a line is idempotent. -/
theorem normalizeLine_idem (raw : Str) (hlen : raw.length < npos) :
    ∃ l, normalizeLine raw = Except.ok l ∧ normalizeLine l = Except.ok l := by
  refine ⟨_, normalizeLine_eq raw, ?_⟩
  obtain ⟨h1, h2, h3⟩ := normalizeLine_result raw _ hlen (normalizeLine_eq raw)
  rw [normalizeLine_eq, replaceTabs_id _ h1, h2]
  simp only
  rw [trim_of_tight _ h3]

/-! ## Whitespace variants of a line -/

theorem replaceTabs_append (a b : Str) :
    replaceTabs (a ++ b) = replaceTabs a ++ replaceTabs b := by
  simp [replaceTabs]

theorem replaceTabs_length (a : Str) : (replaceTabs a).length = a.length := by
  simp [replaceTabs]

theorem replaceTabs_cons (c : Char) (a : Str) (hc : c ≠ tab) :
    replaceTabs (c :: a) = c :: replaceTabs a := by
  simp [replaceTabs, hc]

theorem replaceTabs_word (w : Str) (h : Word w) : replaceTabs w = w := by
  apply replaceTabs_id
  intro c hc e
  have := (h.2 c hc).1
  rw [e] at this
  revert this
  decide

theorem replaceTabs_blanks (a : Str) (h : Blanks a) : Spaces (replaceTabs a) := by
  intro c hc
  unfold replaceTabs at hc
  obtain ⟨d, hd, rfl⟩ := List.mem_map.mp hc
  rcases h d hd with rfl | rfl
  · decide
  · decide

theorem replaceTabs_eq_nil (a : Str) : replaceTabs a = [] ↔ a = [] := by
  simp [replaceTabs]

theorem untab_WF (p : SpacedParam) (h : p.Variant) : p.untab.WF := by
  obtain ⟨hg, hg0, ha, hb, hc, _, _⟩ := h
  exact ⟨replaceTabs_blanks _ hg, fun e => hg0 ((replaceTabs_eq_nil _).mp e),
    replaceTabs_blanks _ ha, replaceTabs_blanks _ hb, hc⟩

theorem replaceTabs_spacedTail (rest : List SpacedParam) :
    ∀ (p : SpacedParam), p.Variant → (∀ x ∈ rest, x.Variant) →
      replaceTabs (spacedTail p rest) = spacedTail p.untab (rest.map SpacedParam.untab) := by
  have heq : '=' ≠ tab := by decide
  induction rest with
  | nil =>
    intro p hp _
    simp only [spacedTail, List.map_nil, replaceTabs_append, SpacedParam.untab,
      replaceTabs_word _ hp.2.2.2.2.1.2.1]
  | cons q rest ih =>
    intro p hp hrest
    have hq := hrest q (by simp)
    simp only [spacedTail, List.map_cons, replaceTabs_append, replaceTabs_cons _ _ heq,
      SpacedParam.untab, replaceTabs_word _ hp.2.2.2.2.1.2.1, replaceTabs_word _ hq.2.2.2.2.1.1,
      ih q hq (fun x hx => hrest x (by simp [hx]))]

theorem replaceTabs_spacedParams (params : List SpacedParam) (h : ∀ x ∈ params, x.Variant) :
    replaceTabs (spacedParams params) = spacedParams (params.map SpacedParam.untab) := by
  have heq : '=' ≠ tab := by decide
  cases params with
  | nil => rfl
  | cons p rest =>
    have hp := h p (by simp)
    simp only [spacedParams, spacedLine, List.map_cons, replaceTabs_append,
      replaceTabs_cons _ _ heq, replaceTabs_word _ hp.2.2.2.2.1.1,
      replaceTabs_spacedTail rest p hp (fun x hx => h x (by simp [hx]))]
    rfl

theorem spacedTail_noSlash (rest : List SpacedParam) :
    ∀ (p : SpacedParam), p.Variant → (∀ x ∈ rest, x.Variant) →
      ∀ c ∈ spacedTail p.untab (rest.map SpacedParam.untab), c ≠ '/' := by
  have hsp : ∀ (a : Str), Blanks a → ∀ c ∈ replaceTabs a, c ≠ '/' := by
    intro a ha c hc e
    have := replaceTabs_blanks a ha c hc
    rw [e] at this
    revert this
    decide
  induction rest with
  | nil =>
    intro p hp _ c hc
    simp only [spacedTail, List.map_nil, SpacedParam.untab, List.mem_append] at hc
    rcases hc with hc | hc
    · exact hsp _ hp.2.2.2.1 c hc
    · exact fun e => hp.2.2.2.2.2.2 (e ▸ hc)
  | cons q rest ih =>
    intro p hp hrest c hc
    have hq := hrest q (by simp)
    simp only [spacedTail, List.map_cons, SpacedParam.untab, List.mem_append,
      List.mem_cons] at hc
    rcases hc with hc | ((((hc | hc) | hc) | hc) | hc | hc)
    · exact hsp _ hp.2.2.2.1 c hc
    · exact fun e => hp.2.2.2.2.2.2 (e ▸ hc)
    · exact hsp _ hq.1 c hc
    · exact fun e => hq.2.2.2.2.2.1 (e ▸ hc)
    · exact hsp _ hq.2.2.1 c hc
    · rw [hc]
      decide
    · exact ih q hq (fun x hx => hrest x (by simp [hx])) c hc

theorem spacedParams_noSlash (params : List SpacedParam) (h : ∀ x ∈ params, x.Variant) :
    ∀ c ∈ spacedParams (params.map SpacedParam.untab), c ≠ '/' := by
  cases params with
  | nil => intro c hc; simp [spacedParams] at hc
  | cons p rest =>
    intro c hc
    have hp := h p (by simp)
    simp only [List.map_cons, spacedParams, spacedLine, SpacedParam.untab, List.mem_append,
      List.mem_cons] at hc
    rcases hc with hc | ((hc | hc) | hc | hc)
    · intro e
      have := replaceTabs_blanks _ hp.1 c hc
      rw [e] at this
      revert this
      decide
    · exact fun e => hp.2.2.2.2.2.1 (e ▸ hc)
    · intro e
      have := replaceTabs_blanks _ hp.2.2.1 c hc
      rw [e] at this
      revert this
      decide
    · rw [hc]
      decide
    · exact spacedTail_noSlash rest p hp (fun x hx => h x (by simp [hx])) c hc

theorem spacedLine_tight (p : SpacedParam) (rest : List SpacedParam) (hp : p.WF)
    (hrest : ∀ x ∈ rest, x.WF) : Tight (spacedLine p rest) := by
  have hn : Word p.name := hp.2.2.2.2.1
  constructor
  · intro c hc
    unfold spacedLine at hc
    rw [List.append_assoc, List.head?_append_of_ne_nil _ hn.1] at hc
    exact hn.word_tight.1 c hc
  · intro c hc
    have hshape : spacedLine p rest = (p.name ++ p.beforeEq ++ [ '=']) ++ spacedTail p rest := by
      simp [spacedLine]
    rw [hshape] at hc
    exact spacedTail_last rest p _ c hp hrest hc

theorem token_no_blank (cmd : Str) (h : Token cmd) : ∀ c ∈ cmd, c ∉ blanks :=
  fun c hc => not_blank_of_not_isspace c (h.2.1 c hc)

theorem core_tight (cmd : Str) (params : List SpacedParam) (hcmd : Token cmd)
    (hparams : ∀ x ∈ params, x.WF) : Tight (cmd ++ spacedParams params) := by
  constructor
  · intro c hc
    rw [List.head?_append_of_ne_nil _ hcmd.1] at hc
    exact hcmd.2.1 c (List.mem_of_mem_head? hc)
  · intro c hc
    cases params with
    | nil =>
      simp only [spacedParams, List.append_nil] at hc
      exact hcmd.2.1 c (List.mem_of_mem_getLast? hc)
    | cons p rest =>
      have hshape : cmd ++ spacedParams (p :: rest) =
          (cmd ++ p.gap ++ p.name ++ p.beforeEq ++ [ '=']) ++ spacedTail p rest := by
        simp [spacedParams, spacedLine]
      rw [hshape] at hc
      exact spacedTail_last rest p _ c (hparams p (by simp))
        (fun x hx => hparams x (by simp [hx])) hc

/-- The normalization of a variant line: the command token and the parameters, with
spaces for tabs. -/
theorem normalizeLine_variant (lead cmd : Str) (params : List SpacedParam) (trail : Str)
    (comment : Option Str) (hcmd : Token cmd) (hlead : Blanks lead) (htrail : Blanks trail)
    (hparams : ∀ p ∈ params, p.Variant)
    (hcut : comment ≠ none → trail = [] → params = [] → cmd.getLast? ≠ some '/')
    (hlen : (variantLine lead cmd params trail comment).length < npos) :
    normalizeLine (variantLine lead cmd params trail comment) =
      Except.ok (cmd ++ spacedParams (params.map SpacedParam.untab)) := by
  have hslash : '/' ≠ tab := by decide
  have hcmdtab : replaceTabs cmd = cmd := by
    apply replaceTabs_id
    intro c hc e
    have := hcmd.2.1 c hc
    rw [e] at this
    revert this
    decide
  have hWF : ∀ x ∈ params.map SpacedParam.untab, x.WF := by
    intro x hx
    obtain ⟨y, hy, rfl⟩ := List.mem_map.mp hx
    exact untab_WF y (hparams y hy)
  have hL := replaceTabs_blanks lead hlead
  have hT := replaceTabs_blanks trail htrail
  have hspace_noslash : ∀ (a : Str), Spaces a → ∀ c ∈ a, c ≠ '/' := by
    intro a ha c hc e
    have := ha c hc
    rw [e] at this
    revert this
    decide
  have hSP := spacedParams_noSlash params hparams
  have hcore : subIdx [ '/', '/'] (replaceTabs lead ++ (cmd ++ spacedParams
      (params.map SpacedParam.untab)) ++ replaceTabs trail) = none := by
    rw [List.append_assoc, List.append_assoc]
    apply subIdx_none_of_noSlash_left _ _ (hspace_noslash _ hL)
    apply subIdx_none_of_noSlash_right
    · intro c hc
      rcases List.mem_append.mp hc with h | h
      · exact hSP c h
      · exact hspace_noslash _ hT c h
    · have := hcmd.2.2
      rw [slashes_eq] at this
      exact this
  have htrim : trim (replaceTabs lead ++ (cmd ++ spacedParams (params.map SpacedParam.untab)) ++
      replaceTabs trail) = cmd ++ spacedParams (params.map SpacedParam.untab) :=
    trim_pad _ _ _ hL.all_isspace hT.all_isspace (core_tight cmd _ hcmd hWF)
  rw [normalizeLine_eq]
  cases comment with
  | none =>
    have hraw : replaceTabs (variantLine lead cmd params trail none) =
        replaceTabs lead ++ (cmd ++ spacedParams (params.map SpacedParam.untab)) ++
          replaceTabs trail := by
      simp only [variantLine, commentText, List.append_nil, replaceTabs_append, hcmdtab,
        replaceTabs_spacedParams params hparams]
    rw [hraw, hcore]
    simp only
    rw [htrim]
  | some text =>
    have hraw : replaceTabs (variantLine lead cmd params trail (some text)) =
        (replaceTabs lead ++ (cmd ++ spacedParams (params.map SpacedParam.untab)) ++
          replaceTabs trail) ++ '/' :: '/' :: replaceTabs text := by
      simp only [variantLine, commentText, replaceTabs_append, hcmdtab,
        replaceTabs_spacedParams params hparams, replaceTabs_cons _ _ hslash]
    have hlast : (replaceTabs lead ++ (cmd ++ spacedParams (params.map SpacedParam.untab)) ++
        replaceTabs trail).getLast? ≠ some '/' := by
      intro hl
      by_cases ht : trail = []
      · by_cases hp : params = []
        · subst ht hp
          have hc := hcut (by simp) rfl rfl
          simp only [List.map_nil, spacedParams, List.append_nil] at hl
          have : replaceTabs ([] : Str) = [] := rfl
          rw [this, List.append_nil, List.getLast?_append_of_ne_nil _ hcmd.1] at hl
          exact hc hl
        · subst ht
          have hne : spacedParams (params.map SpacedParam.untab) ≠ [] := by
            cases params with
            | nil => exact absurd rfl hp
            | cons q rest => simp [spacedParams, spacedLine]
          have : replaceTabs ([] : Str) = [] := rfl
          rw [this, List.append_nil, ← List.append_assoc, List.getLast?_append_of_ne_nil _ hne]
            at hl
          exact hSP _ (List.mem_of_mem_getLast? hl) rfl
      · have hne : replaceTabs trail ≠ [] := fun e => ht ((replaceTabs_eq_nil _).mp e)
        rw [List.getLast?_append_of_ne_nil _ hne] at hl
        exact hspace_noslash _ hT _ (List.mem_of_mem_getLast? hl) rfl
    have hidx := subIdx_append_comment _ (replaceTabs text) hcore hlast
    have hnp : (replaceTabs lead ++ (cmd ++ spacedParams (params.map SpacedParam.untab)) ++
        replaceTabs trail).length ≠ npos := by
      have h1 := congrArg List.length hraw
      rw [replaceTabs_length, List.length_append] at h1
      omega
    rw [hraw, hidx]
    simp only [hnp, ne_eq, not_false_eq_true, if_true, List.take_left]
    rw [htrim]

/-- The command token and the remainder of a normalized variant line. -/
theorem splitCommand_core (cmd : Str) (params : List SpacedParam) (hcmd : Token cmd)
    (hparams : ∀ x ∈ params, x.WF) (hlen : (cmd ++ spacedParams params).length < npos) :
    splitCommand (cmd ++ spacedParams params) = Except.ok (cmd, spacedRemainder params) := by
  cases params with
  | nil =>
    simp only [spacedParams, spacedRemainder, List.append_nil] at hlen ⊢
    have hpos : find_first_of cmd blanks 0 = npos :=
      find_first_of_none cmd blanks 0 (token_no_blank cmd hcmd)
    have htake : cmd.take npos = cmd := List.take_of_length_le (by omega)
    simp only [splitCommand, hpos, substrE_zero, htake, ne_eq, not_true_eq_false, if_false]
  | cons p rest =>
    have hp := hparams p (by simp)
    have hrest : ∀ x ∈ rest, x.WF := fun x hx => hparams x (by simp [hx])
    obtain ⟨g, hg⟩ : ∃ g, p.gap = ' ' :: g := by
      cases hgap : p.gap with
      | nil => exact absurd hgap hp.2.1
      | cons c g =>
        have := hp.1 c (by rw [hgap]; simp)
        exact ⟨g, by rw [this]⟩
    have hgs : Spaces g := fun c hc => hp.1 c (by rw [hg]; simp [hc])
    have hshape : cmd ++ spacedParams (p :: rest) = cmd ++ ' ' :: (g ++ spacedLine p rest) := by
      simp [spacedParams, hg]
    rw [hshape] at hlen ⊢
    have hlen1 : cmd.length + (g.length + (spacedLine p rest).length) + 1 < npos := by
      simp only [List.length_append, List.length_cons] at hlen
      omega
    have hpos : find_first_of (cmd ++ ' ' :: (g ++ spacedLine p rest)) blanks 0 = cmd.length :=
      find_first_of_append cmd ' ' _ blanks (token_no_blank cmd hcmd) (by decide)
    have hne : cmd.length ≠ npos := by omega
    have hcmdtake : substrE (cmd ++ ' ' :: (g ++ spacedLine p rest)) 0 cmd.length =
        Except.ok cmd := by
      rw [substrE_zero, List.take_left]
    have hadd : sizeAdd1 cmd.length = (cmd ++ [ ' ']).length := by
      rw [sizeAdd1_of_lt _ (by omega)]
      simp
    have hsplit : cmd ++ ' ' :: (g ++ spacedLine p rest) =
        (cmd ++ [ ' ']) ++ (g ++ spacedLine p rest) := by simp
    have hdrop : substrE (cmd ++ ' ' :: (g ++ spacedLine p rest)) (sizeAdd1 cmd.length) npos =
        Except.ok (g ++ spacedLine p rest) := by
      rw [substrE_tail _ _ (by rw [hadd]; simp) (by omega), hadd]
      conv => lhs; rw [hsplit]
      rw [List.drop_left]
    have htrim : trim (g ++ spacedLine p rest) = spacedLine p rest := by
      have := trim_pad g (spacedLine p rest) [] hgs.all_isspace (by simp)
        (spacedLine_tight p rest hp hrest)
      simpa using this
    simp only [splitCommand, hpos, hcmdtake, hne, ne_eq, not_false_eq_true, if_true, hdrop,
      htrim, spacedRemainder]

theorem spacedTail_canonical_length (rest : List SpacedParam) :
    ∀ (p : SpacedParam), (∀ x ∈ rest, x.gap ≠ []) →
      (spacedTail (canonicalSpacing p.pair)
        (rest.map (fun x => canonicalSpacing x.pair))).length ≤ (spacedTail p rest).length := by
  induction rest with
  | nil =>
    intro p _
    simp [spacedTail, canonicalSpacing, SpacedParam.pair]
  | cons q rest ih =>
    intro p hgap
    have hq : 0 < q.gap.length := List.length_pos.mpr (hgap q (by simp))
    have := ih q (fun x hx => hgap x (by simp [hx]))
    simp only [spacedTail, canonicalSpacing, SpacedParam.pair, List.map_cons,
      List.length_append, List.length_cons, List.length_nil] at this ⊢
    omega

theorem spacedParams_canonical_length (params : List SpacedParam)
    (hgap : ∀ x ∈ params, x.gap ≠ []) :
    (spacedParams (params.map (fun x => canonicalSpacing x.pair))).length ≤
      (spacedParams params).length := by
  cases params with
  | nil => simp [spacedParams]
  | cons p rest =>
    have hp : 0 < p.gap.length := List.length_pos.mpr (hgap p (by simp))
    have := spacedTail_canonical_length rest p (fun x hx => hgap x (by simp [hx]))
    simp only [spacedParams, spacedLine, canonicalSpacing, SpacedParam.pair, List.map_cons,
      List.length_append, List.length_cons, List.length_nil] at this ⊢
    omega

theorem canonicalLine_eq_variantLine (cmd : Str) (pairs : List (Str × Str)) :
    canonicalLine cmd pairs = variantLine [] cmd (pairs.map canonicalSpacing) [] none := by
  cases pairs with
  | nil => simp [canonicalLine, variantLine, spacedParams, commentText]
  | cons p rest =>
    simp only [canonicalLine, variantLine, spacedParams, commentText, List.map_cons,
      canonicalParams_eq_spacedLine, List.append_nil, List.nil_append]
    rfl

/-- What the body of the loop over the physical lines does on a variant line with an
unsuffixed command token: it appends the line with the token as command and the names
and values as parameters. -/
theorem loadLine_variant (filename : Str) (lang : Char) (n : Nat) (st : LoadState)
    (lead cmd : Str) (params : List SpacedParam) (trail : Str) (comment : Option Str)
    (hcmd : Token cmd) (hsuf : hasSuffix cmd = false) (hlead : Blanks lead)
    (htrail : Blanks trail) (hparams : ∀ p ∈ params, p.Variant)
    (hcut : comment ≠ none → trail = [] → params = [] → cmd.getLast? ≠ some '/')
    (hlen : (variantLine lead cmd params trail comment).length < npos) :
    loadLine filename lang n st (variantLine lead cmd params trail comment) =
      (⟨st.m_lines ++ [⟨n, cmd, params.map SpacedParam.pair⟩], st.translatableLines⟩, none) := by
  have hWF : ∀ x ∈ params.map SpacedParam.untab, x.WF := by
    intro x hx
    obtain ⟨y, hy, rfl⟩ := List.mem_map.mp hx
    exact untab_WF y (hparams y hy)
  have hnorm := normalizeLine_variant lead cmd params trail comment hcmd hlead htrail hparams
    hcut hlen
  have hcorelen : (cmd ++ spacedParams (params.map SpacedParam.untab)).length < npos := by
    have h1 : (cmd ++ spacedParams (params.map SpacedParam.untab)).length ≤
        (variantLine lead cmd params trail comment).length := by
      rw [← replaceTabs_spacedParams params hparams]
      simp only [variantLine, List.length_append, replaceTabs_length]
      omega
    omega
  have hsplit := splitCommand_core cmd _ hcmd hWF hcorelen
  have htok : tokenize (variantLine lead cmd params trail comment) =
      Except.ok (cmd, spacedRemainder (params.map SpacedParam.untab)) := by
    simp only [tokenize, hnorm, hsplit]
  rw [loadLine_tokenized _ _ _ _ _ _ _ htok hcmd.1, localize_plain lang st cmd hsuf]
  cases params with
  | nil => rfl
  | cons p rest =>
    simp only [List.map_cons, spacedRemainder]
    have hp : p.untab.WF := hWF _ (by simp)
    have hrest : ∀ x ∈ rest.map SpacedParam.untab, x.WF := fun x hx => hWF x (by simp [hx])
    have hl : (spacedLine p.untab (rest.map SpacedParam.untab)).length < npos := by
      simp only [List.map_cons, spacedParams, List.length_append] at hcorelen
      omega
    rw [parseParams_spaced filename n _ p.untab hp hrest hl]
    simp [SpacedParam.untab, SpacedParam.pair, Function.comp_def]

/-! ## Decimal output: digits and their value -/

theorem digitChar_spec : ∀ d, d < 10 →
    (digitChar d).isDigit = true ∧ (digitChar d).toNat - 48 = d := by
  decide

theorem digitsVal_concat (xs : Str) (c : Char) :
    digitsVal (xs ++ [c]) = digitsVal xs * 10 + (c.toNat - 48) := by
  simp [digitsVal, List.foldl_append]

theorem digitsVal_zeros (k : Nat) (s : Str) :
    digitsVal (List.replicate k '0' ++ s) = digitsVal s := by
  induction k with
  | zero => simp
  | succ k ih =>
    rw [List.replicate_succ, List.cons_append]
    unfold digitsVal at ih ⊢
    rw [List.foldl_cons]
    exact ih

/-- The decimal form of `n`, given enough digits: only digits, and they write `n`. -/
theorem natDigits_spec (f : Nat) : ∀ n, n < f →
    (∀ c ∈ natDigits f n, c.isDigit = true) ∧ digitsVal (natDigits f n) = n := by
  induction f with
  | zero => intro n h; omega
  | succ f ih =>
    intro n hn
    by_cases h10 : n < 10
    · rw [natDigits_small _ _ (by omega) h10]
      obtain ⟨h1, h2⟩ := digitChar_spec n h10
      refine ⟨by simpa using h1, ?_⟩
      simp [digitsVal, h2]
    · rw [natDigits_large _ _ (by omega) (by omega)]
      obtain ⟨ih1, ih2⟩ := ih (n / 10) (by omega)
      obtain ⟨h1, h2⟩ := digitChar_spec (n % 10) (by omega)
      simp only [Nat.add_sub_cancel]
      refine ⟨?_, ?_⟩
      · intro c hc
        rcases List.mem_append.mp hc with h | h
        · exact ih1 c h
        · rw [List.mem_singleton] at h
          rw [h]
          exact h1
      · rw [digitsVal_concat, ih2, h2]
        omega

theorem setw_natToStr_spec (n : Nat) :
    (∀ c ∈ setw 3 '0' (natToStr n), c.isDigit = true) ∧
      digitsVal (setw 3 '0' (natToStr n)) = n := by
  obtain ⟨h1, h2⟩ := natDigits_spec (n + 1) n (by omega)
  unfold setw natToStr
  refine ⟨?_, by rw [digitsVal_zeros, h2]⟩
  intro c hc
  rcases List.mem_append.mp hc with h | h
  · rw [(List.mem_replicate.mp h).2]
    decide
  · exact h1 c h

theorem intToStr_of_nonneg (i : Int) (h : 0 ≤ i) : intToStr i = natToStr i.toNat := by
  obtain ⟨n, rfl⟩ : ∃ n : Nat, i = (n : Int) := ⟨i.toNat, by omega⟩
  rfl

/-- Two strings of digits, each followed by text that does not start with a digit, are
equal when the whole texts are. -/
theorem digits_split (D1 : Str) : ∀ (D2 T1 T2 : Str),
    (∀ c ∈ D1, c.isDigit = true) → (∀ c ∈ D2, c.isDigit = true) →
    (∀ c, T1.head? = some c → c.isDigit = false) →
    (∀ c, T2.head? = some c → c.isDigit = false) →
    D1 ++ T1 = D2 ++ T2 → D1 = D2 ∧ T1 = T2 := by
  induction D1 with
  | nil =>
    intro D2 T1 T2 _ h2 ht1 _ h
    cases D2 with
    | nil => exact ⟨rfl, by simpa using h⟩
    | cons b D2 =>
      simp only [List.nil_append, List.cons_append] at h
      have := ht1 b (by rw [h]; rfl)
      rw [h2 b (by simp)] at this
      exact Bool.noConfusion this
  | cons a D1 ih =>
    intro D2 T1 T2 h1 h2 ht1 ht2 h
    cases D2 with
    | nil =>
      simp only [List.nil_append, List.cons_append] at h
      have := ht2 a (by rw [← h]; rfl)
      rw [h1 a (by simp)] at this
      exact Bool.noConfusion this
    | cons b D2 =>
      simp only [List.cons_append, List.cons.injEq] at h
      obtain ⟨hd, ht⟩ := ih D2 T1 T2 (fun c hc => h1 c (by simp [hc]))
        (fun c hc => h2 c (by simp [hc])) ht1 ht2 h.2
      exact ⟨by rw [h.1, hd], ht⟩

theorem setw_intToStr_inj (i j : Int) (hi : 0 ≤ i) (hj : 0 ≤ j)
    (h : setw 3 '0' (intToStr i) = setw 3 '0' (intToStr j)) : i = j := by
  rw [intToStr_of_nonneg i hi, intToStr_of_nonneg j hj] at h
  have := congrArg digitsVal h
  rw [(setw_natToStr_spec _).2, (setw_natToStr_spec _).2] at this
  omega

/-! ## Parameter loop: positions and totality -/

theorem sizeAdd1_le_of_lt_or_npos (p len : Nat) (hlen : len < npos)
    (h : p < len ∨ p = npos) : sizeAdd1 p ≤ len := by
  rcases h with h | h
  · rw [sizeAdd1_of_lt _ (by omega)]
    omega
  · rw [h, sizeAdd1_npos]
    omega

theorem valueEnd_lt (filename : Str) (lineNumber : Nat) (line : Str) (pos1 : Nat)
    (hlen : line.length < npos) (h : valueEnd filename lineNumber line = Except.ok pos1) :
    pos1 < line.length ∨ pos1 = npos := by
  unfold valueEnd at h
  dsimp only at h
  have hf := fun chars start => find_first_of_le line chars start
  have hl := fun chars pos => find_last_of_le line chars pos
  split at h
  · split at h
    · simp at h
    · injection h with h
      subst h
      exact hf [dquote] 1
  · split at h
    · split at h
      · simp at h
      · injection h with h
        subst h
        exact hf [squote] 1
    · split at h
      · split at h
        · injection h with h
          subst h
          exact hl blanks _
        · injection h with h
          subst h
          exact hf [ '='] 0
      · injection h with h
        subst h
        by_cases h0 : line.length = 0
        · right
          rw [h0, sizeSub1_zero]
        · left
          rw [sizeSub1_of_pos _ (by omega) (by omega)]
          omega

theorem valueEnd_error (filename : Str) (lineNumber : Nat) (line : Str) (e : LoadError)
    (h : valueEnd filename lineNumber line = Except.error e) :
    ∃ q, (q = dquote ∨ q = squote) ∧
      e = LoadError.parser (unclosedMsg q filename lineNumber) := by
  unfold valueEnd at h
  dsimp only at h
  split at h
  · split at h
    · injection h with h
      exact ⟨dquote, Or.inl rfl, h.symm⟩
    · simp at h
  · split at h
    · split at h
      · injection h with h
        exact ⟨squote, Or.inr rfl, h.symm⟩
      · simp at h
    · split at h
      · split at h <;> simp at h
      · simp at h

theorem substrE_of_le (s : Str) (pos n : Nat) (h : pos ≤ s.length) :
    substrE s pos n = Except.ok ((s.drop pos).take n) := by
  have h1 : ¬ s.length < pos := by omega
  simp [substrE, substr, h1]

/-- A pass of the parameter loop returns, or throws the exception of an unclosed quote;
`substr` is never out of range. -/
theorem paramStep_total (filename : Str) (lineNumber : Nat) (line : Str)
    (hlen : line.length < npos) :
    (∃ p next, paramStep filename lineNumber line = Except.ok (p, next)) ∨
    (∃ q, (q = dquote ∨ q = squote) ∧ paramStep filename lineNumber line =
      Except.error (LoadError.parser (unclosedMsg q filename lineNumber))) := by
  have hpos := sizeAdd1_le_of_lt_or_npos _ _ hlen (find_first_of_le line [ '='] 0)
  have hrest := substrE_of_le line _ npos hpos
  have hrlen : (trim ((line.drop (sizeAdd1 (find_first_of line [ '='] 0))).take npos)).length <
      npos := by
    have h1 := trim_length_le ((line.drop (sizeAdd1 (find_first_of line [ '='] 0))).take npos)
    simp only [List.length_take, List.length_drop] at h1
    omega
  unfold paramStep
  dsimp only
  rw [substrE_zero, hrest]
  dsimp only
  rcases hend : valueEnd filename lineNumber
      (trim ((line.drop (sizeAdd1 (find_first_of line [ '='] 0))).take npos)) with e | pos1
  · obtain ⟨q, hq, rfl⟩ := valueEnd_error _ _ _ _ hend
    exact Or.inr ⟨q, hq, rfl⟩
  · left
    have hp1 := sizeAdd1_le_of_lt_or_npos _ _ hrlen (valueEnd_lt _ _ _ _ hrlen hend)
    dsimp only
    rw [substrE_zero, substrE_of_le _ _ npos hp1]
    dsimp only
    split
    · exact ⟨_, _, rfl⟩
    · exact ⟨_, _, rfl⟩

/-- The parameter loop returns, or throws the exception of an unclosed quote. -/
theorem paramLoop_total (filename : Str) (lineNumber : Nat) :
    ∀ (n : Nat) (line : Str), line.length ≤ n → line.length < npos →
      (∃ ps, paramLoop filename lineNumber n line = Except.ok ps) ∨
      (∃ q, (q = dquote ∨ q = squote) ∧ paramLoop filename lineNumber n line =
        Except.error (LoadError.parser (unclosedMsg q filename lineNumber))) := by
  intro n
  induction n with
  | zero =>
    intro line hn _
    have : line = [] := List.eq_nil_of_length_eq_zero (by omega)
    subst this
    exact Or.inl ⟨[], rfl⟩
  | succ n ih =>
    intro line hn hlen
    cases line with
    | nil => exact Or.inl ⟨[], rfl⟩
    | cons c cs =>
      simp only [paramLoop, List.isEmpty_cons, Bool.false_eq_true, if_false]
      rcases paramStep_total filename lineNumber (c :: cs) hlen with ⟨p, next, hstep⟩ |
        ⟨q, hq, hstep⟩
      · rw [hstep]
        cases next with
        | none => exact Or.inl ⟨[p], rfl⟩
        | some line1 =>
          have hs := paramStep_shrinks _ _ _ _ _ hlen hstep
          simp only [List.length_cons] at hn hs hlen
          rcases ih line1 (by omega) (by omega) with ⟨ps, h1⟩ | ⟨q, hq, h1⟩
          · simp only [h1]
            exact Or.inl ⟨p :: ps, rfl⟩
          · simp only [h1]
            exact Or.inr ⟨q, hq, rfl⟩
      · rw [hstep]
        exact Or.inr ⟨q, hq, rfl⟩

/-! ## Parameter loop: what a pass records -/

theorem firstIdx_some_spec (p : Char → Bool) (s : Str) (i : Nat)
    (h : firstIdx p s = some i) : ∀ c ∈ s.take i, p c = false := by
  induction s generalizing i with
  | nil => simp [firstIdx] at h
  | cons x xs ih =>
    by_cases hx : p x = true
    · simp [firstIdx, hx] at h
      subst h
      simp
    · simp only [firstIdx, hx] at h
      cases hr : firstIdx p xs with
      | none => simp [hr] at h
      | some j =>
        simp [hr] at h
        subst h
        intro c hc
        rw [List.take_succ_cons] at hc
        rcases List.mem_cons.mp hc with rfl | hc
        · simpa using hx
        · exact ih j hr c hc

theorem firstIdx_none_spec (p : Char → Bool) (s : Str) (h : firstIdx p s = none) :
    ∀ c ∈ s, p c = false := by
  induction s with
  | nil => intro c hc; simp at hc
  | cons x xs ih =>
    by_cases hx : p x = true
    · simp [firstIdx, hx] at h
    · simp only [firstIdx, hx] at h
      have hr : firstIdx p xs = none := by
        cases hr : firstIdx p xs with
        | none => rfl
        | some j => simp [hr] at h
      intro c hc
      rcases List.mem_cons.mp hc with rfl | hc
      · simpa using hx
      · exact ih hr c hc

/-- When `find_first_of` finds nothing in a string shorter than `npos`, the string has
none of the characters. -/
theorem find_first_of_npos (s chars : Str) (hlen : s.length < npos)
    (h : find_first_of s chars 0 = npos) : ∀ c ∈ s, c ∉ chars := by
  unfold find_first_of at h
  rw [List.drop_zero] at h
  cases hr : firstIdx (fun c => decide (c ∈ chars)) s with
  | none =>
    intro c hc
    simpa using firstIdx_none_spec _ s hr c hc
  | some i =>
    rw [hr] at h
    have := firstIdx_lt _ _ _ hr
    simp only [Nat.zero_add] at h
    omega

/-- The characters in front of the position that `find_first_of` returns are none of
the characters looked for. -/
theorem find_first_of_before (s chars : Str) (h : find_first_of s chars 0 ≠ npos) :
    ∀ c ∈ s.take (find_first_of s chars 0), c ∉ chars := by
  unfold find_first_of at h ⊢
  rw [List.drop_zero] at h ⊢
  cases hr : firstIdx (fun c => decide (c ∈ chars)) s with
  | none => rw [hr] at h; exact absurd rfl h
  | some i =>
    simp only [Nat.zero_add]
    intro c hc
    simpa using firstIdx_some_spec _ s i hr c hc

/-- What a pass of the parameter loop that returns has computed. -/
theorem paramStep_inv (filename : Str) (lineNumber : Nat) (line name value : Str)
    (next : Option Str)
    (h : paramStep filename lineNumber line = Except.ok ((name, value), next)) :
    ∃ rest pos1,
      substrE line (sizeAdd1 (find_first_of line [ '='] 0)) npos = Except.ok rest ∧
      valueEnd filename lineNumber (trim rest) = Except.ok pos1 ∧
      name = trim (line.take (find_first_of line [ '='] 0)) ∧
      value = trim ((trim rest).take (sizeAdd1 pos1)) ∧
      ((pos1 = npos ∧ next = none) ∨
        (pos1 ≠ npos ∧ ∃ rest1, substrE (trim rest) (sizeAdd1 pos1) npos = Except.ok rest1 ∧
          next = some (trim rest1))) := by
  unfold paramStep at h
  dsimp only at h
  rw [substrE_zero] at h
  dsimp only at h
  split at h
  · simp at h
  · rename_i rest hrest
    split at h
    · simp at h
    · rename_i pos1 hpos1
      rw [substrE_zero] at h
      dsimp only at h
      split at h
      · rename_i hnp
        injection h with h
        injection h with h1 h2
        injection h1 with h3 h4
        exact ⟨rest, pos1, hrest, hpos1, h3.symm, h4.symm, Or.inl ⟨hnp, h2.symm⟩⟩
      · rename_i hnp
        split at h
        · simp at h
        · rename_i rest1 hrest1
          injection h with h
          injection h with h1 h2
          injection h1 with h3 h4
          exact ⟨rest, pos1, hrest, hpos1, h3.symm, h4.symm, Or.inr ⟨hnp, rest1, hrest1, h2.symm⟩⟩

theorem tokenize_tight (raw command rest : Str)
    (h : tokenize raw = Except.ok (command, rest)) : Tight rest := by
  unfold tokenize at h
  split at h
  · simp at h
  · rename_i line _
    unfold splitCommand at h
    dsimp only at h
    split at h
    · simp at h
    · split at h
      · split at h
        · simp at h
        · injection h with h
          injection h with _ h
          rw [← h]
          exact trim_tight _
      · injection h with h
        injection h with _ h
        rw [← h]
        exact ⟨by simp, by simp⟩

theorem trim_cons_ne_nil (c : Char) (s : Str) (hc : isspace c = false) : trim (c :: s) ≠ [] := by
  unfold trim
  have := trim_right_append_hit [] c s hc
  rw [List.nil_append] at this
  rw [this, List.nil_append, trim_left_cons _ _ hc]
  simp

theorem mem_dropWhile_of_not (s : Str) (c : Char) (hc : c ∈ s) (hs : isspace c = false) :
    c ∈ s.dropWhile isspace := by
  induction s with
  | nil => simp at hc
  | cons x xs ih =>
    by_cases hx : isspace x = true
    · rw [List.dropWhile_cons_of_pos hx]
      rcases List.mem_cons.mp hc with rfl | h
      · rw [hs] at hx
        exact Bool.noConfusion hx
      · exact ih h
    · rw [List.dropWhile_cons_of_neg hx]
      exact hc

theorem mem_trim_of_not_space (s : Str) (c : Char) (hc : c ∈ s) (hs : isspace c = false) :
    c ∈ trim s := by
  unfold trim trim_left trim_right
  apply mem_dropWhile_of_not _ _ _ hs
  rw [List.mem_reverse]
  apply mem_dropWhile_of_not _ _ _ hs
  rw [List.mem_reverse]
  exact hc

theorem lastIdx_none_spec (p : Char → Bool) (s : Str) (h : lastIdx p s = none) :
    ∀ c ∈ s, p c = false := by
  induction s with
  | nil => intro c hc; simp at hc
  | cons x xs ih =>
    simp only [lastIdx] at h
    cases hr : lastIdx p xs with
    | some j => simp [hr] at h
    | none =>
      simp only [hr] at h
      intro c hc
      rcases List.mem_cons.mp hc with rfl | hc
      · by_cases hx : p c = true
        · simp [hx] at h
        · simpa using hx
      · exact ih hr c hc

/-- The position that `find_last_of` returns is at or before the position it starts
from. -/
theorem find_last_of_le_pos (s chars : Str) (pos : Nat)
    (h : find_last_of s chars pos ≠ npos) : find_last_of s chars pos ≤ pos := by
  unfold find_last_of at h ⊢
  split
  · rename_i he
    rw [if_pos he] at h
    exact absurd rfl h
  · cases hr : lastIdx (fun c => decide (c ∈ chars)) (s.take (min pos (s.length - 1) + 1)) with
    | none =>
      rename_i he
      rw [if_neg he, hr] at h
      exact absurd rfl h
    | some i =>
      have := lastIdx_lt _ _ _ hr
      simp only [List.length_take] at this
      show i ≤ pos
      omega

/-- In a string that starts with a character outside `chars`, `find_last_not_of` finds a
position, at or before the position it starts from. -/
theorem find_last_not_of_le_pos (c : Char) (cs chars : Str) (pos : Nat) (hc : c ∉ chars) :
    find_last_not_of (c :: cs) chars pos ≤ pos ∧
      find_last_not_of (c :: cs) chars pos < (c :: cs).length := by
  unfold find_last_not_of
  rw [if_neg (by simp)]
  cases hr : lastIdx (fun x => !decide (x ∈ chars))
      ((c :: cs).take (min pos ((c :: cs).length - 1) + 1)) with
  | none =>
    have := lastIdx_none_spec _ _ hr c (by rw [List.take_succ_cons]; simp)
    simp [hc] at this
  | some i =>
    have := lastIdx_lt _ _ _ hr
    simp only [List.length_take] at this
    show i ≤ pos ∧ i < (c :: cs).length
    omega

/-! ## The loop over the physical lines: what a pass builds, and failures -/

theorem commandOf_suffixed (b : Str) (c : Char) (hb : b ≠ []) :
    commandOf (b ++ [ '.', c]) = b := by
  obtain ⟨h1, h2, _⟩ := hasSuffix_append b c hb
  unfold commandOf
  rw [h1, if_pos rfl, h2]

theorem commandOf_plain (t : Str) (h : hasSuffix t = false) : commandOf t = t := by
  unfold commandOf
  rw [h]
  rfl

/-- A pass of the loop over the physical lines that does not throw leaves the state as
it is, or appends the line built from the physical line, after the lines it keeps. -/
theorem loadLine_built (filename : Str) (lang : Char) (n : Nat) (st st' : LoadState) (raw : Str)
    (h : loadLine filename lang n st raw = (st', none)) :
    st' = st ∨
    (∃ t r ps, tokenize raw = Except.ok (t, r) ∧ t ≠ [] ∧
      parseParams filename n r = Except.ok ps ∧
      (st'.m_lines = st.m_lines ++ [⟨n, commandOf t, ps⟩] ∨
        st'.m_lines = removeCommand (commandOf t) st.m_lines ++ [⟨n, commandOf t, ps⟩])) := by
  rcases htok : tokenize raw with e | ⟨t, r⟩
  · simp [loadLine, htok] at h
  · by_cases hne : t = []
    · subst hne
      simp only [loadLine, htok, List.isEmpty_nil, if_true, Prod.mk.injEq, and_true] at h
      exact Or.inl h.symm
    · rw [loadLine_tokenized _ _ _ _ _ _ _ htok hne] at h
      rcases hloc : localize lang st t with _ | ⟨cmd, st1⟩
      · rw [hloc] at h
        simp only [Prod.mk.injEq, and_true] at h
        exact Or.inl h.symm
      · rw [hloc] at h
        rcases hp : parseParams filename n r with e | ps
        · simp [hp] at h
        · simp only [hp, Prod.mk.injEq, and_true] at h
          right
          refine ⟨t, r, ps, rfl, hne, hp, ?_⟩
          by_cases hsuf : hasSuffix t = true
          · obtain ⟨b, c, hb, rfl⟩ := hasSuffix_decompose t hsuf
            rw [commandOf_suffixed b c hb]
            rw [localize_suffixed lang st b c hb] at hloc
            split at hloc
            · injection hloc with hloc
              injection hloc with h1 h2
              subst h1 h2 h
              exact Or.inl rfl
            · split at hloc
              · injection hloc with hloc
                injection hloc with h1 h2
                subst h1 h2 h
                simp only
                split
                · exact Or.inr rfl
                · exact Or.inl rfl
              · exact Option.noConfusion hloc
          · have hsuf' : hasSuffix t = false := by simpa using hsuf
            rw [commandOf_plain t hsuf']
            rw [localize_plain lang st t hsuf'] at hloc
            injection hloc with hloc
            injection hloc with h1 h2
            subst h1 h2 h
            exact Or.inl rfl

/-- A pass of the loop over the physical lines that throws leaves the document as it
was, or without the lines of one command. -/
theorem loadLine_failure (filename : Str) (lang : Char) (n : Nat) (st st' : LoadState)
    (raw : Str) (e : LoadError) (h : loadLine filename lang n st raw = (st', some e)) :
    st'.m_lines = st.m_lines ∨ ∃ b, st'.m_lines = removeCommand b st.m_lines := by
  rcases htok : tokenize raw with e1 | ⟨t, r⟩
  · simp only [loadLine, htok, Prod.mk.injEq] at h
    exact Or.inl (by rw [← h.1])
  · by_cases hne : t = []
    · subst hne
      simp [loadLine, htok] at h
    · rw [loadLine_tokenized _ _ _ _ _ _ _ htok hne] at h
      rcases hloc : localize lang st t with _ | ⟨cmd, st1⟩
      · rw [hloc] at h
        simp at h
      · rw [hloc] at h
        rcases hp : parseParams filename n r with e2 | ps
        · simp only [hp, Prod.mk.injEq] at h
          obtain ⟨h1, _⟩ := h
          subst h1
          unfold localize at hloc
          split at hloc
          · dsimp only at hloc
            split at hloc
            · injection hloc with hloc
              injection hloc with _ h2
              subst h2
              exact Or.inl rfl
            · split at hloc
              · injection hloc with hloc
                injection hloc with _ h2
                subst h2
                simp only
                split
                · exact Or.inr ⟨_, rfl⟩
                · exact Or.inl rfl
              · exact Option.noConfusion hloc
          · injection hloc with hloc
            injection hloc with _ h2
            subst h2
            exact Or.inl rfl
        · simp [hp] at h

/-- A loop over the physical lines that throws has read some lines without error and
throws in the pass on the next one. -/
theorem loadLoop_failure (filename : Str) (lang : Char) (lines : List Str) :
    ∀ (n : Nat) (st st' : LoadState) (e : LoadError),
      loadLoop filename lang lines n st = (st', some e) →
      ∃ pre raw post st1, lines = pre ++ raw :: post ∧
        loadLoop filename lang pre n st = (st1, none) ∧
        loadLine filename lang (n + pre.length + 1) st1 raw = (st', some e) := by
  induction lines with
  | nil =>
    intro n st st' e h
    simp [loadLoop] at h
  | cons raw lines ih =>
    intro n st st' e h
    simp only [loadLoop] at h
    rcases hline : loadLine filename lang (n + 1) st raw with ⟨st1, _ | e1⟩
    · rw [hline] at h
      obtain ⟨pre, raw1, post, st2, hsplit, hpre, hfail⟩ := ih (n + 1) st1 st' e h
      refine ⟨raw :: pre, raw1, post, st2, by rw [hsplit]; rfl, ?_, ?_⟩
      · simp only [loadLoop, hline]
        exact hpre
      · have : n + (raw :: pre).length + 1 = n + 1 + pre.length + 1 := by
          simp only [List.length_cons]
          omega
        rw [this]
        exact hfail
    · rw [hline] at h
      simp only [Prod.mk.injEq, Option.some.injEq] at h
      obtain ⟨h1, h2⟩ := h
      subst h1 h2
      exact ⟨[], raw, lines, st, rfl, rfl, hline⟩

/-- Induction over the physical lines read so far. -/
theorem loadLoop_prefix_induction (filename : Str) (lang : Char) (st0 : LoadState)
    (P : List Str → LoadState → Prop) (h0 : P [] st0)
    (hstep : ∀ pre raw st st', loadLoop filename lang pre 0 st0 = (st, none) → P pre st →
      loadLine filename lang (pre.length + 1) st raw = (st', none) → P (pre ++ [raw]) st') :
    ∀ pre st, loadLoop filename lang pre 0 st0 = (st, none) → P pre st := by
  intro pre
  induction pre using List.reverseRecOn with
  | nil =>
    intro st h
    simp only [loadLoop, Prod.mk.injEq, and_true] at h
    exact h ▸ h0
  | append_singleton pre raw ih =>
    intro st h
    obtain ⟨st1, st2, hpre, hline, hrest⟩ := loadLoop_split _ _ _ _ _ _ _ _ h
    simp only [loadLoop, Prod.mk.injEq, and_true] at hrest
    subst hrest
    rw [Nat.zero_add] at hline
    exact hstep pre raw st1 st2 hpre (ih st1 hpre) hline

theorem removeCommand_subset (b : Str) (ls : List CLevelParserLine) :
    ∀ l ∈ removeCommand b ls, l ∈ ls :=
  fun _ hl => List.mem_of_mem_filter hl

theorem get?_append_one_left (pre : List Str) (raw : Str) (k : Nat) (h : k < pre.length) :
    (pre ++ [raw]).get? k = pre.get? k := by
  rw [List.get?_eq_getElem?, List.get?_eq_getElem?, List.getElem?_append_left h]

theorem get?_append_one_last (pre : List Str) (raw : Str) :
    (pre ++ [raw]).get? pre.length = some raw := by
  rw [List.get?_eq_getElem?, List.getElem?_append_right (le_refl _)]
  simp

/-- After the physical lines `pre` every line of the document has the number of a line
of `pre`, is what `Load` builds from that line, and the numbers increase strictly. -/
theorem provenance (filename : Str) (lang : Char) :
    ∀ (pre : List Str) (st : LoadState), loadLoop filename lang pre 0 ⟨[], []⟩ = (st, none) →
      (∀ l ∈ st.m_lines, 1 ≤ l.lineNumber ∧ l.lineNumber ≤ pre.length ∧
        ∃ raw, pre.get? (l.lineNumber - 1) = some raw ∧ BuiltFrom filename raw l) ∧
      st.m_lines.Pairwise (fun a b => a.lineNumber < b.lineNumber) := by
  apply loadLoop_prefix_induction filename lang ⟨[], []⟩
    (fun pre st => (∀ l ∈ st.m_lines, 1 ≤ l.lineNumber ∧ l.lineNumber ≤ pre.length ∧
        ∃ raw, pre.get? (l.lineNumber - 1) = some raw ∧ BuiltFrom filename raw l) ∧
      st.m_lines.Pairwise (fun a b => a.lineNumber < b.lineNumber))
  · exact ⟨by intro l hl; simp at hl, List.Pairwise.nil⟩
  · intro pre raw st st' _ hP hline
    obtain ⟨hprov, hord⟩ := hP
    have hold : ∀ l ∈ st.m_lines, 1 ≤ l.lineNumber ∧ l.lineNumber ≤ (pre ++ [raw]).length ∧
        ∃ raw1, (pre ++ [raw]).get? (l.lineNumber - 1) = some raw1 ∧
          BuiltFrom filename raw1 l := by
      intro l hl
      obtain ⟨h1, h2, raw1, h3, h4⟩ := hprov l hl
      refine ⟨h1, by simp only [List.length_append, List.length_singleton]; omega, raw1, ?_, h4⟩
      rw [get?_append_one_left pre raw _ (by omega)]
      exact h3
    rcases loadLine_built _ _ _ _ _ _ hline with rfl | ⟨t, r, ps, htok, hne, hp, hlines⟩
    · exact ⟨hold, hord⟩
    · have hnew : 1 ≤ pre.length + 1 ∧ pre.length + 1 ≤ (pre ++ [raw]).length ∧
          ∃ raw1, (pre ++ [raw]).get? (pre.length + 1 - 1) = some raw1 ∧
            BuiltFrom filename raw1 ⟨pre.length + 1, commandOf t, ps⟩ :=
        ⟨by omega, by simp, raw, by rw [Nat.add_sub_cancel]; exact get?_append_one_last pre raw,
          t, r, htok, hne, rfl, hp⟩
      rcases hlines with hl | hl
      · rw [hl]
        constructor
        · intro l hmem
          rcases List.mem_append.mp hmem with h | h
          · exact hold l h
          · rw [List.mem_singleton] at h
            rw [h]
            exact hnew
        · rw [List.pairwise_append]
          refine ⟨hord, List.pairwise_singleton _ _, ?_⟩
          intro a ha b hb
          rw [List.mem_singleton] at hb
          rw [hb]
          have := (hprov a ha).2.1
          show a.lineNumber < pre.length + 1
          omega
      · rw [hl]
        constructor
        · intro l hmem
          rcases List.mem_append.mp hmem with h | h
          · exact hold l (removeCommand_subset _ _ l h)
          · rw [List.mem_singleton] at h
            rw [h]
            exact hnew
        · rw [List.pairwise_append]
          refine ⟨List.Pairwise.filter _ hord, List.pairwise_singleton _ _, ?_⟩
          intro a ha b hb
          rw [List.mem_singleton] at hb
          rw [hb]
          have := (hprov a (removeCommand_subset _ _ a ha)).2.1
          show a.lineNumber < pre.length + 1
          omega

/-! ## The seen set and the removal of lines -/

/-- After the physical lines `pre`, a base command is in the seen set exactly when a
line of `pre` has its token with the suffix `E` or the suffix of the active language. -/
theorem seen_iff (filename : Str) (lang : Char) (m_lines : List CLevelParserLine) :
    ∀ (pre : List Str) (st : LoadState),
      loadLoop filename lang pre 0 ⟨m_lines, []⟩ = (st, none) →
      ∀ b, b ∈ st.translatableLines ↔
        ∃ raw ∈ pre, ∃ c r, b ≠ [] ∧ tokenize raw = Except.ok (b ++ [ '.', c], r) ∧
          (c = lang ∨ c = 'E') := by
  apply loadLoop_prefix_induction filename lang ⟨m_lines, []⟩
    (fun pre st => ∀ b, b ∈ st.translatableLines ↔
      ∃ raw ∈ pre, ∃ c r, b ≠ [] ∧ tokenize raw = Except.ok (b ++ [ '.', c], r) ∧
        (c = lang ∨ c = 'E'))
  · intro b
    simp
  · intro pre raw st st' _ hP hline b
    have hmono : b ∈ st.translatableLines → b ∈ st'.translatableLines := by
      intro hb
      rcases loadLine_effect _ _ _ _ _ _ hline with rfl | ⟨_, _, _, _, _, _, rfl⟩ |
        ⟨_, _, _, _, _, _, _, _, rfl⟩
      · exact hb
      · exact hb
      · simp [hb]
    constructor
    · intro hb
      rcases loadLine_effect _ _ _ _ _ _ hline with rfl | ⟨_, _, _, _, _, _, rfl⟩ |
        ⟨b', c, r, ps, htok, hb', hkeep, _, rfl⟩
      · obtain ⟨x, hx, h⟩ := (hP b).mp hb
        exact ⟨x, by simp [hx], h⟩
      · obtain ⟨x, hx, h⟩ := (hP b).mp hb
        exact ⟨x, by simp [hx], h⟩
      · simp only [List.mem_insert_iff] at hb
        rcases hb with rfl | hb
        · refine ⟨raw, by simp, c, r, hb', htok, ?_⟩
          rcases hkeep with h | ⟨h, _⟩
          · exact Or.inl h
          · exact Or.inr h
        · obtain ⟨x, hx, h⟩ := (hP b).mp hb
          exact ⟨x, by simp [hx], h⟩
    · rintro ⟨x, hx, c, r, hb, htok, hc⟩
      rcases List.mem_append.mp hx with hx | hx
      · exact hmono ((hP b).mpr ⟨x, hx, c, r, hb, htok, hc⟩)
      · rw [List.mem_singleton] at hx
        subst hx
        rw [loadLine_tokenized _ _ _ _ _ _ _ htok (by simp), localize_suffixed lang st b c hb]
          at hline
        by_cases h1 : c = 'E' ∧ ¬ b ∈ st.translatableLines
        · rw [if_pos h1] at hline
          rcases hp : parseParams filename (pre.length + 1) r with e | ps
          · simp [hp] at hline
          · simp only [hp, Prod.mk.injEq, and_true] at hline
            rw [← hline]
            simp
        · rw [if_neg h1] at hline
          by_cases h2 : c = lang
          · rw [if_pos h2] at hline
            rcases hp : parseParams filename (pre.length + 1) r with e | ps
            · simp [hp] at hline
            · simp only [hp, Prod.mk.injEq, and_true] at hline
              rw [← hline]
              simp
          · rw [if_neg h2] at hline
            simp only [Prod.mk.injEq, and_true] at hline
            rw [← hline]
            rcases hc with h | h
            · exact absurd h h2
            · by_contra hm
              exact h1 ⟨h, hm⟩

theorem mem_append_one_iff (ls : List CLevelParserLine) (l new : CLevelParserLine)
    (h : l.lineNumber ≠ new.lineNumber) : l ∈ ls ++ [new] ↔ l ∈ ls := by
  rw [List.mem_append, List.mem_singleton]
  constructor
  · rintro (h1 | h1)
    · exact h1
    · exact absurd (congrArg CLevelParserLine.lineNumber h1) h
  · exact Or.inl

theorem mem_removeCommand_iff (b : Str) (ls : List CLevelParserLine) (l : CLevelParserLine) :
    l ∈ removeCommand b ls ↔ l ∈ ls ∧ l.command ≠ b := by
  unfold removeCommand
  rw [List.mem_filter]
  simp

/-- What a pass of the loop over the physical lines that does not throw does to a line
`l` of an earlier pass: `l` stays in the document unless the physical line has the token
`l.command.<lang>` and the command of `l` is in the seen set. -/
theorem loadLine_mem_iff (filename : Str) (lang : Char) (n : Nat) (st st' : LoadState)
    (raw : Str) (l : CLevelParserLine) (hl : l.lineNumber ≠ n)
    (h : loadLine filename lang n st raw = (st', none)) :
    l ∈ st'.m_lines ↔ l ∈ st.m_lines ∧
      ¬ (l.command ≠ [] ∧ l.command ∈ st.translatableLines ∧
        ∃ r, tokenize raw = Except.ok (l.command ++ [ '.', lang], r)) := by
  rcases htok : tokenize raw with e | ⟨t, r⟩
  · simp [loadLine, htok] at h
  · by_cases hne : t = []
    · subst hne
      simp only [loadLine, htok, List.isEmpty_nil, if_true, Prod.mk.injEq, and_true] at h
      subst h
      constructor
      · intro hm
        refine ⟨hm, ?_⟩
        rintro ⟨_, _, r1, h1⟩
        injection h1 with h1
        injection h1 with h1 _
        simp at h1
      · exact fun hm => hm.1
    · rw [loadLine_tokenized _ _ _ _ _ _ _ htok hne] at h
      by_cases hsuf : hasSuffix t = true
      · obtain ⟨b, c, hb, rfl⟩ := hasSuffix_decompose t hsuf
        rw [localize_suffixed lang st b c hb] at h
        have htoken : ∀ r1, Except.ok (b ++ [ '.', c], r) =
            (Except.ok (l.command ++ [ '.', lang], r1) : Except LoadError (Str × Str)) →
            l.command = b ∧ lang = c := by
          intro r1 h1
          injection h1 with h1
          injection h1 with h1 _
          exact suffixed_inj _ _ _ _ h1.symm
        by_cases h1 : c = 'E' ∧ ¬ b ∈ st.translatableLines
        · rw [if_pos h1] at h
          rcases hp : parseParams filename n r with e | ps
          · simp [hp] at h
          · simp only [hp, Prod.mk.injEq, and_true] at h
            subst h
            simp only
            rw [mem_append_one_iff _ _ _ hl]
            constructor
            · intro hm
              refine ⟨hm, ?_⟩
              rintro ⟨_, hseen, r1, h2⟩
              obtain ⟨e1, _⟩ := htoken r1 h2
              exact h1.2 (e1 ▸ hseen)
            · exact fun hm => hm.1
        · rw [if_neg h1] at h
          by_cases h2 : c = lang
          · rw [if_pos h2] at h
            rcases hp : parseParams filename n r with e | ps
            · simp [hp] at h
            · simp only [hp, Prod.mk.injEq, and_true] at h
              subst h
              simp only
              rw [mem_append_one_iff _ _ _ hl]
              by_cases hm : b ∈ st.translatableLines
              · rw [if_pos hm, mem_removeCommand_iff]
                constructor
                · rintro ⟨h3, h4⟩
                  refine ⟨h3, ?_⟩
                  rintro ⟨_, _, r1, h5⟩
                  exact h4 (htoken r1 h5).1
                · rintro ⟨h3, h4⟩
                  refine ⟨h3, ?_⟩
                  intro e1
                  apply h4
                  rw [e1]
                  exact ⟨hb, hm, r, by rw [h2]⟩
              · rw [if_neg hm]
                constructor
                · intro h3
                  refine ⟨h3, ?_⟩
                  rintro ⟨_, hseen, r1, h5⟩
                  exact hm ((htoken r1 h5).1 ▸ hseen)
                · exact fun h3 => h3.1
          · rw [if_neg h2] at h
            simp only [Prod.mk.injEq, and_true] at h
            subst h
            constructor
            · intro h3
              refine ⟨h3, ?_⟩
              rintro ⟨_, _, r1, h5⟩
              exact h2 (htoken r1 h5).2.symm
            · exact fun h3 => h3.1
      · have hsuf' : hasSuffix t = false := by simpa using hsuf
        rw [localize_plain lang st t hsuf'] at h
        rcases hp : parseParams filename n r with e | ps
        · simp [hp] at h
        · simp only [hp, Prod.mk.injEq, and_true] at h
          subst h
          simp only
          rw [mem_append_one_iff _ _ _ hl]
          constructor
          · intro h3
            refine ⟨h3, ?_⟩
            rintro ⟨hcne, _, r1, h5⟩
            injection h5 with h5
            injection h5 with h5 _
            rw [h5, (hasSuffix_append _ lang hcne).1] at hsuf'
            exact Bool.noConfusion hsuf'
          · exact fun h3 => h3.1

theorem loadLoop_snoc (filename : Str) (lang : Char) (before : List Str) (y : Str)
    (st st1 : LoadState) (m0 : LoadState)
    (hbefore : loadLoop filename lang before 0 m0 = (st, none))
    (hline : loadLine filename lang (before.length + 1) st y = (st1, none)) :
    loadLoop filename lang (before ++ [y]) 0 m0 = (st1, none) := by
  rw [loadLoop_append, hbefore]
  simp only [loadLoop, Nat.zero_add, hline]

theorem removedLater_cons (lang : Char) (t : Str) (before : List Str) (y : Str)
    (ys : List Str) :
    RemovedLater lang t before (y :: ys) ↔
      ((∃ r, tokenize y = Except.ok (t ++ [ '.', lang], r)) ∧
        ∃ x ∈ before, ∃ c rx, tokenize x = Except.ok (t ++ [ '.', c], rx) ∧
          (c = lang ∨ c = 'E')) ∨
      RemovedLater lang t (before ++ [y]) ys := by
  unfold RemovedLater
  constructor
  · rintro ⟨post1, raw, post2, r, hsplit, htok, x, hx, hrest⟩
    cases post1 with
    | nil =>
      simp only [List.nil_append, List.cons.injEq] at hsplit
      obtain ⟨rfl, rfl⟩ := hsplit
      left
      exact ⟨⟨r, htok⟩, x, by simpa using hx, hrest⟩
    | cons z zs =>
      simp only [List.cons_append, List.cons.injEq] at hsplit
      obtain ⟨rfl, rfl⟩ := hsplit
      right
      exact ⟨zs, raw, post2, r, rfl, htok, x, by simpa using hx, hrest⟩
  · rintro (⟨⟨r, htok⟩, x, hx, hrest⟩ | ⟨post1, raw, post2, r, hsplit, htok, x, hx, hrest⟩)
    · exact ⟨[], y, ys, r, rfl, htok, x, by simpa using hx, hrest⟩
    · exact ⟨y :: post1, raw, post2, r, by rw [hsplit]; rfl, htok, x, by simpa using hx, hrest⟩

/-- A line of the document after the physical lines `before` is in the document after
the further lines `post` exactly when none of these removes it. -/
theorem survives_iff (filename : Str) (lang : Char) (l : CLevelParserLine)
    (hcmd : l.command ≠ []) (post : List Str) :
    ∀ (before : List Str) (st st' : LoadState),
      loadLoop filename lang before 0 ⟨[], []⟩ = (st, none) →
      loadLoop filename lang post before.length st = (st', none) →
      l.lineNumber ≤ before.length →
      (l ∈ st'.m_lines ↔ l ∈ st.m_lines ∧ ¬ RemovedLater lang l.command before post) := by
  induction post with
  | nil =>
    intro before st st' _ hpost _
    simp only [loadLoop, Prod.mk.injEq, and_true] at hpost
    subst hpost
    constructor
    · intro h
      refine ⟨h, ?_⟩
      rintro ⟨post1, raw, post2, _, hsplit, _⟩
      simp at hsplit
    · exact fun h => h.1
  | cons y ys ih =>
    intro before st st' hbefore hpost hnum
    simp only [loadLoop] at hpost
    rcases hline : loadLine filename lang (before.length + 1) st y with ⟨st1, _ | e⟩
    · rw [hline] at hpost
      have hsnoc := loadLoop_snoc filename lang before y st st1 _ hbefore hline
      have hlen : (before ++ [y]).length = before.length + 1 := by simp
      have h1 := ih (before ++ [y]) st1 st' hsnoc (by rw [hlen]; exact hpost)
        (by rw [hlen]; omega)
      have h2 := loadLine_mem_iff filename lang (before.length + 1) st st1 y l (by omega) hline
      have h3 := seen_iff filename lang [] before st hbefore l.command
      rw [h1, h2, removedLater_cons]
      constructor
      · rintro ⟨⟨hm, hno⟩, hlater⟩
        refine ⟨hm, ?_⟩
        rintro (⟨⟨r, htok⟩, x, hx, c, rx, hxtok, hc⟩ | h)
        · exact hno ⟨hcmd, h3.mpr ⟨x, hx, c, rx, hcmd, hxtok, hc⟩, r, htok⟩
        · exact hlater h
      · rintro ⟨hm, hno⟩
        refine ⟨⟨hm, ?_⟩, fun h => hno (Or.inr h)⟩
        rintro ⟨_, hseen, r, htok⟩
        obtain ⟨x, hx, c, rx, _, hxtok, hc⟩ := h3.mp hseen
        exact hno (Or.inl ⟨⟨r, htok⟩, x, hx, c, rx, hxtok, hc⟩)
    · rw [hline] at hpost
      simp at hpost

/-! ## Lines built from suffixed tokens -/

theorem fromSuffixedToken_at (pre : List Str) (raw : Str) (post : List Str) (t r : Str)
    (cmd : Str) (ps : List (Str × Str)) (htok : tokenize raw = Except.ok (t, r)) :
    fromSuffixedToken (pre ++ raw :: post) ⟨pre.length + 1, cmd, ps⟩ = hasSuffix t := by
  have hget : (pre ++ raw :: post).get? pre.length = some raw := by
    rw [List.get?_eq_getElem?, List.getElem?_append_right (Nat.le_refl _)]
    simp
  simp only [fromSuffixedToken, hget, htok]

theorem suffixedLines_append_one (file : List Str) (b : Str) (ls : List CLevelParserLine)
    (l : CLevelParserLine) :
    suffixedLines file b (ls ++ [l]) = suffixedLines file b ls ++
      (if l.command = b ∧ fromSuffixedToken file l = true then [l] else []) := by
  unfold suffixedLines
  rw [List.filter_append]
  by_cases h : l.command = b ∧ fromSuffixedToken file l = true
  · simp [List.filter, h.1, h.2]
  · rw [if_neg h]
    have : (decide (l.command = b) && fromSuffixedToken file l) = false := by
      by_cases h1 : l.command = b
      · have h2 : fromSuffixedToken file l = false := by
          cases hf : fromSuffixedToken file l
          · rfl
          · exact absurd ⟨h1, hf⟩ h
        simp [h2]
      · simp [h1]
    simp [List.filter, this]

theorem suffixedLines_removeCommand_self (file : List Str) (b : Str)
    (ls : List CLevelParserLine) : suffixedLines file b (removeCommand b ls) = [] := by
  unfold suffixedLines removeCommand
  rw [List.filter_filter]
  simp only [List.filter_eq_nil_iff]
  intro l _
  by_cases hl : l.command = b <;> simp [hl]

theorem suffixedLines_removeCommand_other (file : List Str) (b b' : Str)
    (ls : List CLevelParserLine) (h : b' ≠ b) :
    suffixedLines file b (removeCommand b' ls) = suffixedLines file b ls := by
  unfold suffixedLines removeCommand
  rw [List.filter_filter]
  apply List.filter_congr
  intro l _
  by_cases hl : l.command = b
  · have : l.command ≠ b' := fun h' => h (h' ▸ hl)
    simp [hl, this, Ne.symm h]
  · simp [hl]

/-- After the physical lines `pre` of a file, for every base command at most one line of
the document stands for a suffixed token with that base, and there is one exactly when
the base is in the seen set. -/
theorem suffixed_unique (filename : Str) (lang : Char) :
    ∀ (pre : List Str) (st : LoadState), loadLoop filename lang pre 0 ⟨[], []⟩ = (st, none) →
      ∀ (post : List Str) (b : Str),
        (suffixedLines (pre ++ post) b st.m_lines).length ≤ 1 ∧
        (b ∈ st.translatableLines ↔ suffixedLines (pre ++ post) b st.m_lines ≠ []) := by
  apply loadLoop_prefix_induction filename lang ⟨[], []⟩
    (fun pre st => ∀ (post : List Str) (b : Str),
        (suffixedLines (pre ++ post) b st.m_lines).length ≤ 1 ∧
        (b ∈ st.translatableLines ↔ suffixedLines (pre ++ post) b st.m_lines ≠ []))
  · intro post b
    simp [suffixedLines]
  · intro pre raw st st' _ hP hline post b
    have hfile : (pre ++ [raw]) ++ post = pre ++ raw :: post := by simp
    rw [hfile]
    have ih := hP (raw :: post) b
    rcases loadLine_effect _ _ _ _ _ _ hline with rfl | ⟨t, r, ps, htok, _, hsuf, rfl⟩ |
      ⟨b', c, r, ps, htok, hb', hkeep, _, rfl⟩
    · exact ih
    · simp only
      rw [suffixedLines_append_one, fromSuffixedToken_at pre raw post t r t ps htok, hsuf,
        if_neg (by simp), List.append_nil]
      exact ih
    · simp only
      rw [suffixedLines_append_one,
        fromSuffixedToken_at pre raw post _ r b' ps htok, (hasSuffix_append b' c hb').1]
      by_cases hbb : b' = b
      · subst hbb
        have hkept : suffixedLines (pre ++ raw :: post) b'
            (if c = lang ∧ b' ∈ st.translatableLines then removeCommand b' st.m_lines
              else st.m_lines) = [] := by
          by_cases hc : c = lang ∧ b' ∈ st.translatableLines
          · rw [if_pos hc, suffixedLines_removeCommand_self]
          · rw [if_neg hc]
            have hunseen : b' ∉ st.translatableLines := by
              intro hm
              rcases hkeep with h | ⟨_, h⟩
              · exact hc ⟨h, hm⟩
              · exact h hm
            by_contra hne
            exact hunseen (ih.2.mpr hne)
        rw [hkept, if_pos ⟨rfl, rfl⟩]
        simp
      · have hkept : suffixedLines (pre ++ raw :: post) b
            (if c = lang ∧ b' ∈ st.translatableLines then removeCommand b' st.m_lines
              else st.m_lines) = suffixedLines (pre ++ raw :: post) b st.m_lines := by
          by_cases hc : c = lang ∧ b' ∈ st.translatableLines
          · rw [if_pos hc, suffixedLines_removeCommand_other _ _ _ _ hbb]
          · rw [if_neg hc]
        rw [hkept, if_neg (fun h => hbb h.1), List.append_nil]
        refine ⟨ih.1, ?_⟩
        rw [← ih.2, List.mem_insert_iff]
        constructor
        · rintro (h | h)
          · exact absurd h.symm hbb
          · exact h
        · exact Or.inr

/-! ## Absent commands and failing passes -/

theorem Get_absent (b : Str) (ls : List CLevelParserLine) (h : cmdLines b ls = []) :
    CLevelParser.Get ls b =
      Except.error (LoadError.parser ("Command not found: ".toList ++ b)) := by
  induction ls with
  | nil => rfl
  | cons l ls ih =>
    have hl : l.command ≠ b := by
      intro e
      have : l ∈ cmdLines b (l :: ls) := by
        unfold cmdLines
        exact List.mem_filter.mpr ⟨List.mem_cons_self _ _, by simp [e]⟩
      rw [h] at this
      exact List.not_mem_nil _ this
    have hrest : cmdLines b ls = [] := by
      unfold cmdLines at h ⊢
      rw [List.filter_cons, if_neg (by simp [hl])] at h
      exact h
    simp only [CLevelParser.Get, if_neg hl]
    exact ih hrest

/-- A file none of whose lines has the token `b`, `b.E` or `b.<lang>` gives a document
without a line for `b`. -/
theorem absent_load (filename : Str) (lang : Char) (b : Str) (file : List Str)
    (st : LoadState) (hload : loadLoop filename lang file 0 ⟨[], []⟩ = (st, none))
    (h : ∀ x ∈ file, ∀ r, tokenize x ≠ Except.ok (b, r) ∧
      tokenize x ≠ Except.ok (b ++ [ '.', lang], r) ∧
      tokenize x ≠ Except.ok (b ++ [ '.', 'E'], r)) :
    cmdLines b st.m_lines = [] :=
  (loadLoop_preserves filename lang
    (fun st => b ∉ st.translatableLines ∧ cmdLines b st.m_lines = []) file
    (fun x hx n st st' hinv hline =>
      absent_step filename lang b x (fun r => (h x hx r).1) (fun r => (h x hx r).2.1)
        (fun r => (h x hx r).2.2) n st st' hinv hline)
    0 ⟨[], []⟩ st ⟨by simp, rfl⟩ hload).2

/-- A pass of the loop over the physical lines that throws: the tokenizer throws and the
state is as it was, or the parameter loop throws; then the document is without the lines
of `b` when the token is `b.<lang>` with `b` in the seen set, and as it was in every
other case. -/
theorem loadLine_failure_exact (filename : Str) (lang : Char) (n : Nat) (st st' : LoadState)
    (raw : Str) (e : LoadError) (h : loadLine filename lang n st raw = (st', some e)) :
    (tokenize raw = Except.error e ∧ st' = st) ∨
    ∃ t r, tokenize raw = Except.ok (t, r) ∧ t ≠ [] ∧
      parseParams filename n r = Except.error e ∧
      (∀ b, b ≠ [] → t = b ++ [ '.', lang] → b ∈ st.translatableLines →
        st'.m_lines = removeCommand b st.m_lines) ∧
      ((¬ ∃ b, b ≠ [] ∧ t = b ++ [ '.', lang] ∧ b ∈ st.translatableLines) →
        st'.m_lines = st.m_lines) := by
  rcases htok : tokenize raw with e1 | ⟨t, r⟩
  · simp only [loadLine, htok, Prod.mk.injEq, Option.some.injEq] at h
    exact Or.inl ⟨by rw [h.2], h.1.symm⟩
  · right
    by_cases hne : t = []
    · subst hne
      simp [loadLine, htok] at h
    · rw [loadLine_tokenized _ _ _ _ _ _ _ htok hne] at h
      by_cases hsuf : hasSuffix t = true
      · obtain ⟨b0, c, hb0, rfl⟩ := hasSuffix_decompose t hsuf
        rw [localize_suffixed lang st b0 c hb0] at h
        by_cases h1 : c = 'E' ∧ ¬ b0 ∈ st.translatableLines
        · rw [if_pos h1] at h
          rcases hp : parseParams filename n r with e2 | ps
          · simp only [hp, Prod.mk.injEq, Option.some.injEq] at h
            obtain ⟨hst, he⟩ := h
            subst hst he
            refine ⟨_, r, rfl, hne, hp, ?_, fun _ => rfl⟩
            intro b _ ht hseen
            exact absurd ((suffixed_inj _ _ _ _ ht).1 ▸ hseen) h1.2
          · simp [hp] at h
        · rw [if_neg h1] at h
          by_cases h2 : c = lang
          · rw [if_pos h2] at h
            rcases hp : parseParams filename n r with e2 | ps
            · simp only [hp, Prod.mk.injEq, Option.some.injEq] at h
              obtain ⟨hst, he⟩ := h
              subst hst he
              refine ⟨_, r, rfl, hne, hp, ?_, ?_⟩
              · intro b _ ht hseen
                obtain ⟨hbb, _⟩ := suffixed_inj _ _ _ _ ht
                subst hbb
                simp only [if_pos hseen]
              · intro hno
                have hunseen : ¬ b0 ∈ st.translatableLines := fun hm =>
                  hno ⟨b0, hb0, by rw [h2], hm⟩
                simp only [if_neg hunseen]
            · simp [hp] at h
          · rw [if_neg h2] at h
            simp at h
      · have hsuf' : hasSuffix t = false := by simpa using hsuf
        rw [localize_plain lang st t hsuf'] at h
        rcases hp : parseParams filename n r with e2 | ps
        · simp only [hp, Prod.mk.injEq, Option.some.injEq] at h
          obtain ⟨hst, he⟩ := h
          subst hst he
          refine ⟨t, r, rfl, hne, hp, ?_, fun _ => rfl⟩
          intro b hb ht _
          rw [ht, (hasSuffix_append b lang hb).1] at hsuf'
          exact Bool.noConfusion hsuf'
        · simp [hp] at h

namespace CLevelParser

/-! ## Lookup -/

/-- C7: `Get` returns the first line, in document order, whose command is the given
name; it fails, with the message `Command not found: <command>`, exactly when no line of
the document has that command, and so it fails for every command on an empty document. -/
theorem Get_first_or_not_found (m_lines : List CLevelParserLine) (command : Str) :
    (∀ line, Get m_lines command = Except.ok line ↔
      ∃ pre post, m_lines = pre ++ line :: post ∧ line.command = command ∧
        ∀ l ∈ pre, l.command ≠ command) ∧
    ((∃ e, Get m_lines command = Except.error e) ↔ ∀ l ∈ m_lines, l.command ≠ command) ∧
    (∀ e, Get m_lines command = Except.error e →
      e = LoadError.parser ("Command not found: ".toList ++ command)) ∧
    Get [] command = Except.error (LoadError.parser ("Command not found: ".toList ++ command)) := by
  refine ⟨?_, ?_, ?_, rfl⟩
  · intro line
    induction m_lines with
    | nil => simp [Get]
    | cons x xs ih =>
      by_cases hx : x.command = command
      · simp only [Get, hx, if_true]
        constructor
        · intro h
          injection h with h
          exact ⟨[], xs, by simp [h], by rw [← h]; exact hx, by simp⟩
        · rintro ⟨pre, post, hsplit, _, hpre⟩
          cases pre with
          | nil =>
            simp only [List.nil_append, List.cons.injEq] at hsplit
            rw [hsplit.1]
          | cons p ps =>
            simp only [List.cons_append, List.cons.injEq] at hsplit
            exact absurd (hsplit.1 ▸ hx) (hpre p (by simp))
      · simp only [Get, hx, if_false]
        rw [ih]
        constructor
        · rintro ⟨pre, post, hsplit, hc, hpre⟩
          refine ⟨x :: pre, post, by simp [hsplit], hc, ?_⟩
          intro l hl
          rcases List.mem_cons.mp hl with rfl | hl
          · exact hx
          · exact hpre l hl
        · rintro ⟨pre, post, hsplit, hc, hpre⟩
          cases pre with
          | nil =>
            simp only [List.nil_append, List.cons.injEq] at hsplit
            exact absurd (hsplit.1 ▸ hc) hx
          | cons p ps =>
            simp only [List.cons_append, List.cons.injEq] at hsplit
            exact ⟨ps, post, hsplit.2, hc, fun l hl => hpre l (by simp [hl])⟩
  · induction m_lines with
    | nil => simp [Get]
    | cons x xs ih =>
      by_cases hx : x.command = command
      · simp [Get, hx]
      · simp only [Get, hx, if_false, List.mem_cons, forall_eq_or_imp, ne_eq, not_false_eq_true,
          true_and]
        exact ih
  · induction m_lines with
    | nil => intro e h; simp only [Get] at h; injection h with h; exact h.symm
    | cons x xs ih =>
      intro e h
      by_cases hx : x.command = command
      · simp [Get, hx] at h
      · simp only [Get, hx, if_false] at h
        exact ih e h

/-! ## Path builder: theorems -/

/-- C8: for a category other than `perso`, `win` and `lost` and a rank in 0..999,
`BuildScenePath` is `levels/<category>/`, then the custom-level directory name of the
chapter for `custom` and else `chapter` with the chapter (in 0..999) as three
zero-padded digits, then for rank 0 `/chaptertitle.txt` if the scene-file flag is set
and nothing if not, and for a rank above 0 `/level` with the rank as three zero-padded
digits, followed by `/scene.txt` if the flag is set. -/
theorem BuildScenePath_ordinary (customLevelName : Int → Str) (category : Str)
    (chapter rank : Int) (sceneFile : Bool)
    (hperso : category ≠ "perso".toList) (hwin : category ≠ "win".toList)
    (hlost : category ≠ "lost".toList)
    (hrank : 0 ≤ rank ∧ rank ≤ 999)
    (hchapter : category ≠ "custom".toList → 0 ≤ chapter ∧ chapter ≤ 999) :
    BuildScenePath customLevelName category chapter rank sceneFile =
      some ("levels/".toList ++ category ++ "/".toList ++
        (if category = "custom".toList then customLevelName chapter
          else "chapter".toList ++ threeDigits chapter.toNat) ++
        (if rank = 0 then (if sceneFile then "/chaptertitle.txt".toList else [])
          else "/level".toList ++ threeDigits rank.toNat ++
            (if sceneFile then "/scene.txt".toList else []))) := by
  have hleaf : rankLeaf rank sceneFile =
      (if rank = 0 then (if sceneFile then "/chaptertitle.txt".toList else [])
        else "/level".toList ++ threeDigits rank.toNat ++
          (if sceneFile then "/scene.txt".toList else [])) := by
    unfold rankLeaf
    rw [setw_intToStr rank hrank.1 hrank.2]
  have hcat : BuildCategoryPath category = "levels/".toList ++ category ++ "/".toList := by
    unfold BuildCategoryPath
    rw [if_neg (by rintro (h | h | h); exacts [hperso h, hwin h, hlost h])]
    simp [List.append_assoc]
  by_cases hcustom : category = "custom".toList
  · simp only [BuildScenePath, hcustom, if_true]
    rw [← hcustom, hcat, hleaf]
  · have hch := hchapter hcustom
    simp only [BuildScenePath, hcustom, hperso, hwin, hlost, if_false, or_self]
    rw [hcat, hleaf, setw_intToStr chapter hch.1 hch.2]
    simp [List.append_assoc]

/-- Witness of C8: `("custom", 3, 0, true)` and `("custom", 3, 5, true)`. -/
theorem BuildScenePath_ordinary_witness :
    BuildScenePath sampleCustomName "custom".toList 3 0 true =
      some ("levels/custom/".toList ++ sampleCustomName 3 ++ "/chaptertitle.txt".toList) ∧
    BuildScenePath sampleCustomName "custom".toList 3 5 true =
      some ("levels/custom/".toList ++ sampleCustomName 3 ++ "/level005/scene.txt".toList) := by
  constructor
  · rw [BuildScenePath_ordinary sampleCustomName "custom".toList 3 0 true (by decide) (by decide)
      (by decide) (by decide) (by decide)]
    decide
  · rw [BuildScenePath_ordinary sampleCustomName "custom".toList 3 5 true (by decide) (by decide)
      (by decide) (by decide) (by decide)]
    decide

/-- C9: for `win` and `lost` with chapter 0 and a rank in 0..999, `BuildScenePath` is
`levels/other/<category><rank as three zero-padded digits>.txt`, and for `perso` with
chapter 0 and rank 0 it is `levels/other/perso.txt`, for either value of the
scene-file flag. -/
theorem BuildScenePath_other (customLevelName : Int → Str) (category : Str) (rank : Int)
    (sceneFile : Bool) (hcat : category = "win".toList ∨ category = "lost".toList)
    (hrank : 0 ≤ rank ∧ rank ≤ 999) :
    BuildScenePath customLevelName category 0 rank sceneFile =
      some ("levels/other/".toList ++ category ++ threeDigits rank.toNat ++ ".txt".toList) ∧
    BuildScenePath customLevelName "perso".toList 0 0 sceneFile =
      some "levels/other/perso.txt".toList := by
  constructor
  · have hpad := setw_intToStr rank hrank.1 hrank.2
    rw [← hpad]
    rcases hcat with h | h <;> subst h <;> rfl
  · rfl

/-- Witness of C9: `BuildScenePath("win", 0, 2)` is `levels/other/win002.txt`. -/
theorem BuildScenePath_other_witness :
    BuildScenePath sampleCustomName "win".toList 0 2 true =
      some "levels/other/win002.txt".toList := by
  rw [(BuildScenePath_other sampleCustomName "win".toList 2 true (Or.inl rfl) (by decide)).1]
  decide

/-! ## Parameter loop: theorems -/

/-- C1: on the canonical remainder `n_1=v_1 n_2=v_2 ... n_k=v_k` with `k >= 1`, every
name and value non-empty and without whitespace and `=`, no value starting with a quote,
the parameter loop of `Load` raises no error and hands to `AddParam` exactly the pairs
`(n_1,v_1), ..., (n_k,v_k)`, in that order. -/
theorem parseParams_canonical (filename : Str) (lineNumber : Nat) (pairs : List (Str × Str))
    (hk : pairs ≠ []) (hpairs : ∀ p ∈ pairs, CanonicalPair p)
    (hlen : (canonicalParams pairs).length < npos) :
    parseParams filename lineNumber (canonicalParams pairs) = Except.ok pairs := by
  cases pairs with
  | nil => exact absurd rfl hk
  | cons p rest =>
    rw [canonicalParams_eq_spacedLine] at hlen ⊢
    rw [parseParams_spaced filename lineNumber _ _ (canonicalSpacing_WF p (hpairs p (by simp)))
      (by
        intro x hx
        obtain ⟨y, hy, rfl⟩ := List.mem_map.mp hx
        exact canonicalSpacing_WF y (hpairs y (by simp [hy]))) hlen]
    simp [canonicalSpacing, Function.comp_def]

/-- Witness of C1: the remainder `power=100 type=Me`. -/
theorem parseParams_canonical_witness :
    parseParams "level.txt".toList 7 "power=100 type=Me".toList =
      Except.ok [("power".toList, "100".toList), ("type".toList, "Me".toList)] :=
  parseParams_canonical "level.txt".toList 7
    [("power".toList, "100".toList), ("type".toList, "Me".toList)]
    (by decide) (by decide) (by decide)

/-- C2, as stated, fails: for the line `Foo text="hello"` the value that `Load` records
for `text` is `"hello"` with its two quote characters, not `hello`. -/
theorem quoted_value_counterexample :
    Load "level.txt".toList
        (some ["Foo text=".toList ++ dquote :: ("hello".toList ++ [dquote])]) 'E' [] =
      ([⟨1, "Foo".toList, [("text".toList, dquote :: ("hello".toList ++ [dquote]))]⟩], none) ∧
    dquote :: ("hello".toList ++ [dquote]) ≠ "hello".toList := by
  decide

/-- C2, amended: for a parameter written `name="text"` or `name='text'`, where `text`
does not contain the delimiting quote character, the value that the parameter loop
records is the text together with its two quote delimiters, also when the text contains
`=` or spaces, and the characters after the closing quote are parsed as the following
parameters. -/
theorem parseParams_quoted (filename : Str) (lineNumber : Nat) (q : Char)
    (hq : q = dquote ∨ q = squote) (name text rest : Str)
    (hname : '=' ∉ name) (htext : q ∉ text)
    (hlen : (name ++ '=' :: q :: (text ++ q :: rest)).length < npos) :
    parseParams filename lineNumber (name ++ '=' :: q :: (text ++ q :: rest)) =
      match parseParams filename lineNumber (trim rest) with
      | Except.error e => Except.error e
      | Except.ok ps => Except.ok ((trim name, q :: (text ++ [q])) :: ps) :=
  parseParams_step filename lineNumber _ _ _ hlen
    (paramStep_quoted filename lineNumber q hq name text rest hname htext hlen)

/-- Witness of C2 as amended: the remainder `text="a = b" n=1`. -/
theorem parseParams_quoted_witness :
    parseParams "level.txt".toList 3
        ("text".toList ++ '=' :: dquote :: ("a = b".toList ++ dquote :: " n=1".toList)) =
      Except.ok [("text".toList, dquote :: ("a = b".toList ++ [dquote])),
        ("n".toList, "1".toList)] :=
  (parseParams_quoted "level.txt".toList 3 dquote (Or.inl rfl) "text".toList "a = b".toList
    " n=1".toList (by decide) (by decide) (by decide)).trans rfl

/-! ## Localization: theorems -/

/-- C3, as stated, fails for the empty base command: with active language `F` and the
single line `.F x=1`, a line has the token `b.F` for `b` empty and none has the token
`b`, yet the document has no line with command `b`; the token `.F` has only two
characters, so `Load` does not treat it as suffixed and keeps the command `.F`. -/
theorem active_language_counterexample :
    Load "level.txt".toList (some [".F x=1".toList]) 'F' [] =
      ([⟨1, ".F".toList, [("x".toList, "1".toList)]⟩], none) ∧
    tokenize ".F x=1".toList = Except.ok ([] ++ [ '.', 'F'], "x=1".toList) ∧
    (∀ r, tokenize ".F x=1".toList ≠ Except.ok ([], r)) ∧
    cmdLines [] (Load "level.txt".toList (some [".F x=1".toList]) 'F' []).1 = [] := by
  refine ⟨by decide, rfl, ?_, by decide⟩
  intro r h
  have e : tokenize ".F x=1".toList = Except.ok (".F".toList, "x=1".toList) := rfl
  rw [e] at h
  injection h with h
  injection h with h _
  exact absurd h (by decide)

/-- C3, amended: for every active language `lang`, every non-empty base command `b` and
every file on which `Load` into an empty document succeeds, if some physical line has the
command token `b.<lang>` and none has the unsuffixed token `b`, then the document has
exactly one line with command `b`: the one built from the last `b.<lang>` line of the
file, with that line's number and parameters, whatever `b.E` lines precede or follow. -/
theorem active_language_overrides (filename : Str) (lang : Char) (b : Str) (file : List Str)
    (doc : List CLevelParserLine) (hb : b ≠ [])
    (hload : Load filename (some file) lang [] = (doc, none))
    (hsome : ∃ raw ∈ file, ∃ r, tokenize raw = Except.ok (b ++ [ '.', lang], r))
    (hplain : ∀ raw ∈ file, ∀ r, tokenize raw ≠ Except.ok (b, r)) :
    ∃ pre raw post r ps, file = pre ++ raw :: post ∧
      tokenize raw = Except.ok (b ++ [ '.', lang], r) ∧
      (∀ y ∈ post, ∀ r1, tokenize y ≠ Except.ok (b ++ [ '.', lang], r1)) ∧
      parseParams filename (pre.length + 1) r = Except.ok ps ∧
      cmdLines b doc = [⟨pre.length + 1, b, ps⟩] := by
  obtain ⟨pre, raw, post, rfl, ⟨r, htok⟩, hpost⟩ :=
    exists_last_split (fun x => ∃ r, tokenize x = Except.ok (b ++ [ '.', lang], r)) file hsome
  simp only [Load, Prod.mk.injEq] at hload
  obtain ⟨hdoc, herr⟩ := hload
  have hloop : loadLoop filename lang (pre ++ raw :: post) 0 ⟨[], []⟩ =
      ((loadLoop filename lang (pre ++ raw :: post) 0 ⟨[], []⟩).1, none) := by
    rw [← herr]
  obtain ⟨st1, st2, hpre, hline, hrest⟩ := loadLoop_split _ _ _ _ _ _ _ _ hloop
  rw [Nat.zero_add] at hline hrest
  have hJ : b ∉ st1.translatableLines → cmdLines b st1.m_lines = [] :=
    loadLoop_preserves filename lang
      (fun st => b ∉ st.translatableLines → cmdLines b st.m_lines = []) pre
      (fun x hx n st st' hinv h =>
        unseen_step filename lang b x (hplain x (by simp [hx])) n st st' hinv h)
      0 ⟨[], []⟩ st1 (fun _ => rfl) hpre
  obtain ⟨ps, hps, hone, hseen⟩ := active_step filename lang b hb raw r htok _ st1 st2 hJ hline
  have hS := loadLoop_preserves filename lang
      (fun st => cmdLines b st.m_lines = [⟨pre.length + 1, b, ps⟩] ∧ b ∈ st.translatableLines)
      post
      (fun x hx n st st' hinv h =>
        stable_step filename lang b _ x (hplain x (by simp [hx]))
          (fun r1 h1 => hpost x hx ⟨r1, h1⟩) n st st' hinv h)
      _ st2 _ ⟨hone, hseen⟩ hrest
  refine ⟨pre, raw, post, r, ps, rfl, htok, fun y hy r1 h1 => hpost y hy ⟨r1, h1⟩, hps, ?_⟩
  rw [← hdoc]
  exact hS.1

/-- Witness of C3 as amended: active language `F`, the lines `Foo.E text="hello"` and
`Foo.F text="bonjour"`. -/
theorem active_language_overrides_witness :
    ∃ pre raw post r ps,
      ["Foo.E text=".toList ++ dquote :: ("hello".toList ++ [dquote]),
        "Foo.F text=".toList ++ dquote :: ("bonjour".toList ++ [dquote])] = pre ++ raw :: post ∧
      tokenize raw = Except.ok ("Foo".toList ++ [ '.', 'F'], r) ∧
      (∀ y ∈ post, ∀ r1, tokenize y ≠ Except.ok ("Foo".toList ++ [ '.', 'F'], r1)) ∧
      parseParams "level.txt".toList (pre.length + 1) r = Except.ok ps ∧
      cmdLines "Foo".toList
          [⟨2, "Foo".toList, [("text".toList, dquote :: ("bonjour".toList ++ [dquote]))]⟩] =
        [⟨pre.length + 1, "Foo".toList, ps⟩] :=
  active_language_overrides "level.txt".toList 'F' "Foo".toList
    ["Foo.E text=".toList ++ dquote :: ("hello".toList ++ [dquote]),
      "Foo.F text=".toList ++ dquote :: ("bonjour".toList ++ [dquote])]
    [⟨2, "Foo".toList, [("text".toList, dquote :: ("bonjour".toList ++ [dquote]))]⟩]
    (by decide) (by decide)
    ⟨"Foo.F text=".toList ++ dquote :: ("bonjour".toList ++ [dquote]), by simp, _, rfl⟩
    (by
      intro raw hraw r h
      simp only [List.mem_cons, List.mem_singleton, List.not_mem_nil, or_false] at hraw
      rcases hraw with rfl | rfl
      · have e : tokenize ("Foo.E text=".toList ++ dquote :: ("hello".toList ++ [dquote])) =
            Except.ok ("Foo.E".toList, "text=".toList ++ dquote :: ("hello".toList ++ [dquote])) :=
          rfl
        rw [e] at h
        injection h with h
        injection h with h _
        exact absurd h (by decide)
      · have e : tokenize ("Foo.F text=".toList ++ dquote :: ("bonjour".toList ++ [dquote])) =
            Except.ok ("Foo.F".toList,
              "text=".toList ++ dquote :: ("bonjour".toList ++ [dquote])) := rfl
        rw [e] at h
        injection h with h
        injection h with h _
        exact absurd h (by decide))

/-- C4, as stated, fails for the empty base command: with active language `F` and the
single line `.E x=1`, a line has the token `b.E` for `b` empty, none has the token `b.F`
or `b`, yet the document has no line with command `b`; `Load` keeps the two-character
token `.E` as the command. -/
theorem fallback_counterexample :
    Load "level.txt".toList (some [".E x=1".toList]) 'F' [] =
      ([⟨1, ".E".toList, [("x".toList, "1".toList)]⟩], none) ∧
    tokenize ".E x=1".toList = Except.ok ([] ++ [ '.', 'E'], "x=1".toList) ∧
    (∀ r, tokenize ".E x=1".toList ≠ Except.ok ([], r)) ∧
    (∀ r, tokenize ".E x=1".toList ≠ Except.ok ([] ++ [ '.', 'F'], r)) ∧
    cmdLines [] (Load "level.txt".toList (some [".E x=1".toList]) 'F' []).1 = [] := by
  have e : tokenize ".E x=1".toList = Except.ok (".E".toList, "x=1".toList) := rfl
  refine ⟨by decide, rfl, ?_, ?_, by decide⟩
  · intro r h
    rw [e] at h
    injection h with h
    injection h with h _
    exact absurd h (by decide)
  · intro r h
    rw [e] at h
    injection h with h
    injection h with h _
    exact absurd h (by decide)

/-- C4, amended: for every active language `lang`, every non-empty base command `b` and
every file on which `Load` into an empty document succeeds, if some line has the token
`b.E`, none has the token `b.<lang>` (so `lang` is not `E`) and none has the unsuffixed
token `b`, then the document has exactly one line with command `b`, built from the first
`b.E` line of the file; later `b.E` lines are not added. -/
theorem fallback_used (filename : Str) (lang : Char) (b : Str) (file : List Str)
    (doc : List CLevelParserLine) (hb : b ≠ [])
    (hload : Load filename (some file) lang [] = (doc, none))
    (hsome : ∃ raw ∈ file, ∃ r, tokenize raw = Except.ok (b ++ [ '.', 'E'], r))
    (hlang : ∀ raw ∈ file, ∀ r, tokenize raw ≠ Except.ok (b ++ [ '.', lang], r))
    (hplain : ∀ raw ∈ file, ∀ r, tokenize raw ≠ Except.ok (b, r)) :
    ∃ pre raw post r ps, file = pre ++ raw :: post ∧
      tokenize raw = Except.ok (b ++ [ '.', 'E'], r) ∧
      (∀ y ∈ pre, ∀ r1, tokenize y ≠ Except.ok (b ++ [ '.', 'E'], r1)) ∧
      parseParams filename (pre.length + 1) r = Except.ok ps ∧
      cmdLines b doc = [⟨pre.length + 1, b, ps⟩] := by
  obtain ⟨pre, raw, post, rfl, ⟨r, htok⟩, hfirst⟩ :=
    exists_first_split (fun x => ∃ r, tokenize x = Except.ok (b ++ [ '.', 'E'], r)) file hsome
  simp only [Load, Prod.mk.injEq] at hload
  obtain ⟨hdoc, herr⟩ := hload
  have hloop : loadLoop filename lang (pre ++ raw :: post) 0 ⟨[], []⟩ =
      ((loadLoop filename lang (pre ++ raw :: post) 0 ⟨[], []⟩).1, none) := by
    rw [← herr]
  obtain ⟨st1, st2, hpre, hline, hrest⟩ := loadLoop_split _ _ _ _ _ _ _ _ hloop
  rw [Nat.zero_add] at hline hrest
  have hK : b ∉ st1.translatableLines ∧ cmdLines b st1.m_lines = [] :=
    loadLoop_preserves filename lang
      (fun st => b ∉ st.translatableLines ∧ cmdLines b st.m_lines = []) pre
      (fun x hx n st st' hinv h =>
        absent_step filename lang b x (hplain x (by simp [hx])) (hlang x (by simp [hx]))
          (fun r1 h1 => hfirst x hx ⟨r1, h1⟩) n st st' hinv h)
      0 ⟨[], []⟩ st1 ⟨by simp, rfl⟩ hpre
  obtain ⟨ps, hps, hone, hseen⟩ := fallback_step filename lang b hb raw r htok _ st1 st2 hK hline
  have hS := loadLoop_preserves filename lang
      (fun st => cmdLines b st.m_lines = [⟨pre.length + 1, b, ps⟩] ∧ b ∈ st.translatableLines)
      post
      (fun x hx n st st' hinv h =>
        stable_step filename lang b _ x (hplain x (by simp [hx])) (hlang x (by simp [hx]))
          n st st' hinv h)
      _ st2 _ ⟨hone, hseen⟩ hrest
  refine ⟨pre, raw, post, r, ps, rfl, htok, fun y hy r1 h1 => hfirst y hy ⟨r1, h1⟩, hps, ?_⟩
  rw [← hdoc]
  exact hS.1

/-- Witness of C4 as amended: active language `F` and the single line
`Foo.E text="hello"`. -/
theorem fallback_used_witness :
    ∃ pre raw post r ps,
      ["Foo.E text=".toList ++ dquote :: ("hello".toList ++ [dquote])] = pre ++ raw :: post ∧
      tokenize raw = Except.ok ("Foo".toList ++ [ '.', 'E'], r) ∧
      (∀ y ∈ pre, ∀ r1, tokenize y ≠ Except.ok ("Foo".toList ++ [ '.', 'E'], r1)) ∧
      parseParams "level.txt".toList (pre.length + 1) r = Except.ok ps ∧
      cmdLines "Foo".toList
          [⟨1, "Foo".toList, [("text".toList, dquote :: ("hello".toList ++ [dquote]))]⟩] =
        [⟨pre.length + 1, "Foo".toList, ps⟩] :=
  fallback_used "level.txt".toList 'F' "Foo".toList
    ["Foo.E text=".toList ++ dquote :: ("hello".toList ++ [dquote])]
    [⟨1, "Foo".toList, [("text".toList, dquote :: ("hello".toList ++ [dquote]))]⟩]
    (by decide) (by decide)
    ⟨"Foo.E text=".toList ++ dquote :: ("hello".toList ++ [dquote]), by simp, _, rfl⟩
    (by
      intro raw hraw r h
      simp only [List.mem_singleton] at hraw
      subst hraw
      have e : tokenize ("Foo.E text=".toList ++ dquote :: ("hello".toList ++ [dquote])) =
          Except.ok ("Foo.E".toList, "text=".toList ++ dquote :: ("hello".toList ++ [dquote])) :=
        rfl
      rw [e] at h
      injection h with h
      injection h with h _
      exact absurd h (by decide))
    (by
      intro raw hraw r h
      simp only [List.mem_singleton] at hraw
      subst hraw
      have e : tokenize ("Foo.E text=".toList ++ dquote :: ("hello".toList ++ [dquote])) =
          Except.ok ("Foo.E".toList, "text=".toList ++ dquote :: ("hello".toList ++ [dquote])) :=
        rfl
      rw [e] at h
      injection h with h
      injection h with h _
      exact absurd h (by decide))

/-- C5, as stated, fails: with active language `F`, the second of the two lines
`Foo.E text=a` and `Foo.E text=b` has the suffix character `E`, yet no line is appended
for it; after the first line the base command `Foo` is already seen. -/
theorem suffix_discard_counterexample :
    Load "level.txt".toList (some ["Foo.E text=a".toList, "Foo.E text=b".toList]) 'F' [] =
      ([⟨1, "Foo".toList, [("text".toList, "a".toList)]⟩], none) ∧
    tokenize "Foo.E text=b".toList = Except.ok ("Foo".toList ++ [ '.', 'E'], "text=b".toList) ∧
    loadLine "level.txt".toList 'F' 2
        ⟨[⟨1, "Foo".toList, [("text".toList, "a".toList)]⟩], ["Foo".toList]⟩
        "Foo.E text=b".toList =
      (⟨[⟨1, "Foo".toList, [("text".toList, "a".toList)]⟩], ["Foo".toList]⟩, none) :=
  ⟨by decide, rfl, by decide⟩

/-- C5, amended: during `Load`, a physical line whose command token has a localization
suffix (`b.c` with `b` non-empty) is discarded, the state staying as it is, exactly when
its suffix character `c` is not the active language character and either is not `E` or
its base command is already in the seen set; every other suffixed line is appended after
its parameters are parsed (after the removal of the earlier lines of the base command
when `c` is the active language and the base command is seen), or the load stops with
the error of the parameter loop. For every file that `Load` reads into an empty document
and every base command `b1`, when no line of the file has the token `b1`, `b1.E` or
`b1.<lang>`, `Get(b1)` fails on the document. In particular, with active language `F`,
a file whose only line for the base `Foo` is `Foo.D text="hallo"` gives a document in
which `Get("Foo")` fails. -/
theorem suffixed_line_discarded_iff (filename : Str) (lang : Char) (n : Nat) (st : LoadState)
    (raw b rest : Str) (c : Char) (hb : b ≠ [])
    (htok : tokenize raw = Except.ok (b ++ [ '.', c], rest)) :
    ((c ≠ lang ∧ (c ≠ 'E' ∨ b ∈ st.translatableLines)) →
      loadLine filename lang n st raw = (st, none)) ∧
    (¬ (c ≠ lang ∧ (c ≠ 'E' ∨ b ∈ st.translatableLines)) →
      (∀ ps, parseParams filename n rest = Except.ok ps →
        loadLine filename lang n st raw =
          (⟨(if c = lang ∧ b ∈ st.translatableLines then removeCommand b st.m_lines
              else st.m_lines) ++ [⟨n, b, ps⟩], st.translatableLines.insert b⟩, none)) ∧
      (∀ e, parseParams filename n rest = Except.error e →
        (loadLine filename lang n st raw).2 = some e)) ∧
    (∀ (file : List Str) (doc : List CLevelParserLine) (b1 : Str),
      Load filename (some file) lang [] = (doc, none) →
      (∀ x ∈ file, ∀ r, tokenize x ≠ Except.ok (b1, r) ∧
        tokenize x ≠ Except.ok (b1 ++ [ '.', lang], r) ∧
        tokenize x ≠ Except.ok (b1 ++ [ '.', 'E'], r)) →
      Get doc b1 = Except.error (LoadError.parser ("Command not found: ".toList ++ b1))) ∧
    (∀ (pre post : List Str) (doc : List CLevelParserLine),
      Load filename
          (some (pre ++ ("Foo.D text=".toList ++ dquote :: ("hallo".toList ++ [dquote])) ::
            post)) 'F' [] = (doc, none) →
      (∀ x ∈ pre ++ post, ∀ r, tokenize x ≠ Except.ok ("Foo".toList, r) ∧
        ∀ c1, tokenize x ≠ Except.ok ("Foo".toList ++ [ '.', c1], r)) →
      Get doc "Foo".toList =
        Except.error (LoadError.parser "Command not found: Foo".toList)) := by
  have hline := loadLine_tokenized filename lang n st raw _ rest htok (by simp)
  rw [localize_suffixed lang st b c hb] at hline
  have hgen : ∀ (lang1 : Char) (file : List Str) (doc : List CLevelParserLine) (b1 : Str),
      Load filename (some file) lang1 [] = (doc, none) →
      (∀ x ∈ file, ∀ r, tokenize x ≠ Except.ok (b1, r) ∧
        tokenize x ≠ Except.ok (b1 ++ [ '.', lang1], r) ∧
        tokenize x ≠ Except.ok (b1 ++ [ '.', 'E'], r)) →
      Get doc b1 = Except.error (LoadError.parser ("Command not found: ".toList ++ b1)) := by
    intro lang1 file doc b1 hload habsent
    simp only [Load, Prod.mk.injEq] at hload
    obtain ⟨hdoc, herr⟩ := hload
    have hloop : loadLoop filename lang1 file 0 ⟨[], []⟩ =
        ((loadLoop filename lang1 file 0 ⟨[], []⟩).1, none) := by
      rw [← herr]
    rw [← hdoc]
    exact Get_absent b1 _ (absent_load filename lang1 b1 file _ hloop habsent)
  refine ⟨?_, ?_, hgen lang, ?_⟩
  · rintro ⟨hcl, hce⟩
    rw [hline, if_neg (by
      rintro ⟨h1, h2⟩
      rcases hce with h | h
      · exact h h1
      · exact h2 h), if_neg hcl]
  · intro hkeep
    by_cases h1 : c = 'E' ∧ ¬ b ∈ st.translatableLines
    · rw [if_pos h1] at hline
      constructor
      · intro ps hps
        rw [hline, hps, if_neg (fun hh => h1.2 hh.2)]
      · intro e he
        rw [hline, he]
    · rw [if_neg h1] at hline
      have h2 : c = lang := by
        by_contra hne
        apply hkeep
        refine ⟨hne, ?_⟩
        by_cases hE : c = 'E'
        · right
          by_contra hm
          exact h1 ⟨hE, hm⟩
        · exact Or.inl hE
      rw [if_pos h2] at hline
      constructor
      · intro ps hps
        rw [hline, hps]
        by_cases hm : b ∈ st.translatableLines <;> simp [h2, hm]
      · intro e he
        rw [hline, he]
  · intro pre post doc hload hothers
    refine hgen 'F' _ doc "Foo".toList hload ?_
    intro x hx r
    rw [List.mem_append, List.mem_cons] at hx
    have hself : ∀ (t : Str), t ≠ "Foo".toList ++ [ '.', 'D'] →
        tokenize ("Foo.D text=".toList ++ dquote :: ("hallo".toList ++ [dquote])) ≠
          Except.ok (t, r) := by
      intro t ht h
      have e : tokenize ("Foo.D text=".toList ++ dquote :: ("hallo".toList ++ [dquote])) =
          Except.ok ("Foo".toList ++ [ '.', 'D'],
            "text=".toList ++ dquote :: ("hallo".toList ++ [dquote])) := rfl
      rw [e] at h
      injection h with h
      injection h with h _
      exact ht h.symm
    rcases hx with hx | hx | hx
    · exact ⟨(hothers x (by simp [hx]) r).1, (hothers x (by simp [hx]) r).2 'F',
        (hothers x (by simp [hx]) r).2 'E'⟩
    · subst hx
      exact ⟨hself _ (by decide), hself _ (by decide), hself _ (by decide)⟩
    · exact ⟨(hothers x (by simp [hx]) r).1, (hothers x (by simp [hx]) r).2 'F',
        (hothers x (by simp [hx]) r).2 'E'⟩

/-- Witness of C5 as amended: active language `F`, the line `Foo.D text=x` on the empty
state, and the file with the lines `Bar x=1`, `Foo.D text="hallo"` and `Baz`. -/
theorem suffixed_line_discarded_iff_witness :
    loadLine "level.txt".toList 'F' 1 ⟨[], []⟩ "Foo.D text=x".toList = (⟨[], []⟩, none) ∧
    Get [⟨1, "Bar".toList, [("x".toList, "1".toList)]⟩, ⟨3, "Baz".toList, []⟩] "Foo".toList =
      Except.error (LoadError.parser "Command not found: Foo".toList) :=
  ⟨(suffixed_line_discarded_iff "level.txt".toList 'F' 1 ⟨[], []⟩ "Foo.D text=x".toList
      "Foo".toList "text=x".toList 'D' (by decide) rfl).1 ⟨by decide, Or.inl (by decide)⟩,
    (suffixed_line_discarded_iff "level.txt".toList 'F' 1 ⟨[], []⟩ "Foo.D text=x".toList
      "Foo".toList "text=x".toList 'D' (by decide) rfl).2.2.2
      ["Bar x=1".toList] ["Baz".toList]
      [⟨1, "Bar".toList, [("x".toList, "1".toList)]⟩, ⟨3, "Baz".toList, []⟩] (by decide)
      (by
        intro x hx r
        have hbar : tokenize "Bar x=1".toList = Except.ok ("Bar".toList, "x=1".toList) := rfl
        have hbaz : tokenize "Baz".toList = Except.ok ("Baz".toList, []) := rfl
        simp only [List.singleton_append, List.mem_cons, List.mem_singleton,
          List.not_mem_nil, or_false] at hx
        rcases hx with rfl | rfl
        · rw [hbar]
          refine ⟨?_, ?_⟩
          · intro h
            injection h with h
            injection h with h _
            exact absurd h (by decide)
          · intro c1 h
            injection h with h
            injection h with h _
            exact absurd (congrArg List.length h) (by simp)
        · rw [hbaz]
          refine ⟨?_, ?_⟩
          · intro h
            injection h with h
            injection h with h _
            exact absurd h (by decide)
          · intro c1 h
            injection h with h
            injection h with h _
            exact absurd (congrArg List.length h) (by simp))⟩

/-- C6, as stated, fails: with active language `F`, the only line `Foo.D text="hallo` has
a parameter whose value begins with a double quote that is never closed, yet `Load`
succeeds, with an empty document; the line is discarded before its parameters are
parsed. -/
theorem unclosed_quote_counterexample :
    Load "level.txt".toList (some ["Foo.D text=".toList ++ dquote :: "hallo".toList]) 'F' [] =
      ([], none) ∧
    tokenize ("Foo.D text=".toList ++ dquote :: "hallo".toList) =
      Except.ok ("Foo.D".toList, "text=".toList ++ dquote :: "hallo".toList) ∧
    parseParams "level.txt".toList 1 ("text=".toList ++ dquote :: "hallo".toList) =
      Except.error (LoadError.parser (unclosedMsg dquote "level.txt".toList 1)) :=
  ⟨by decide, rfl, rfl⟩

/-- C6, amended: for every document, file and active language, if the physical lines
before some line load without error, and that line is not blank and not discarded by the
localization rule, and the parameter loop on its remainder comes to a parameter whose
value text begins with a double quote (respectively a single quote) and contains no
later such quote, then `Load` fails with the unclosed-quote error, whose message names
the bound filename and the 1-based number of that physical line. -/
theorem unclosed_quote_fails (filename : Str) (lang : Char) (m_lines : List CLevelParserLine)
    (pre : List Str) (raw : Str) (post : List Str) (st1 : LoadState) (command rest : Str)
    (q : Char) (hq : q = dquote ∨ q = squote)
    (hpre : loadLoop filename lang pre 0 ⟨m_lines, []⟩ = (st1, none))
    (htok : tokenize raw = Except.ok (command, rest)) (hne : command ≠ [])
    (hkept : localize lang st1 command ≠ none)
    (hlen : rest.length < npos)
    (hquote : UnclosedQuote filename (pre.length + 1) q rest) :
    (Load filename (some (pre ++ raw :: post)) lang m_lines).2 =
      some (LoadError.parser
        ("Unclosed ".toList ++ [q] ++ " in ".toList ++ filename ++ ":".toList ++
          natToStr (pre.length + 1))) := by
  have hparse := parseParams_unclosed filename (pre.length + 1) q hq rest hquote hlen
  have hline := loadLine_tokenized filename lang (pre.length + 1) st1 raw command rest htok hne
  rcases hloc : localize lang st1 command with _ | ⟨cmd, st2⟩
  · exact absurd hloc hkept
  · rw [hloc, hparse] at hline
    simp only [Load]
    rw [loadLoop_append, hpre]
    simp only [loadLoop, Nat.zero_add, hline]
    rfl

/-- Witness of C6 as amended: the second line of `Foo a=1` and `Bar text='oops`. -/
theorem unclosed_quote_fails_witness :
    (Load "level.txt".toList (some ([ "Foo a=1".toList] ++
        ("Bar text=".toList ++ squote :: "oops".toList) :: [])) 'F' []).2 =
      some (LoadError.parser ("Unclosed ".toList ++ [squote] ++ " in ".toList ++
        "level.txt".toList ++ ":".toList ++ natToStr 2)) :=
  unclosed_quote_fails "level.txt".toList 'F' [] [ "Foo a=1".toList]
    ("Bar text=".toList ++ squote :: "oops".toList) []
    ⟨[⟨1, "Foo".toList, [("a".toList, "1".toList)]⟩], []⟩ "Bar".toList
    ("text=".toList ++ squote :: "oops".toList) squote (Or.inr rfl) (by decide) rfl (by decide)
    (by decide) (by decide)
    (UnclosedQuote.here _ (squote :: "oops".toList) "oops".toList (by decide) rfl rfl (by decide))

/-! ## Whitespace, tabs and comments: theorem -/

/-- C10: for every command token without localization suffix and every list of
name/value pairs as in canonical input (non-empty, no whitespace, no `=`, no `/`, values
not starting with a quote), every physical line obtained from the canonical line
`cmd n_1=v_1 ... n_k=v_k` by adding spaces or tabs at the start, at the end, between the
command and the first pair, between pairs and around the `=` signs, and by appending a
`//` comment (after text that does not end in `/`), is loaded as the canonical line is:
the same command and the same parameter sequence. The line normalization (tabs to
spaces, cut at the first `//`, trim) is idempotent. -/
theorem whitespace_variation_invariant (filename : Str) (lang : Char) (n : Nat)
    (st : LoadState) (lead cmd : Str) (params : List SpacedParam) (trail : Str)
    (comment : Option Str)
    (hcmd : Token cmd) (hsuf : hasSuffix cmd = false) (hlead : Blanks lead)
    (htrail : Blanks trail) (hparams : ∀ p ∈ params, p.Variant)
    (hcut : comment ≠ none → trail = [] → params = [] → cmd.getLast? ≠ some '/')
    (hlen : (variantLine lead cmd params trail comment).length < npos) :
    loadLine filename lang n st (variantLine lead cmd params trail comment) =
      loadLine filename lang n st (canonicalLine cmd (params.map SpacedParam.pair)) ∧
    loadLine filename lang n st (canonicalLine cmd (params.map SpacedParam.pair)) =
      (⟨st.m_lines ++ [⟨n, cmd, params.map SpacedParam.pair⟩], st.translatableLines⟩, none) ∧
    (∀ raw : Str, raw.length < npos →
      ∃ l, normalizeLine raw = Except.ok l ∧ normalizeLine l = Except.ok l) := by
  have hvar := loadLine_variant filename lang n st lead cmd params trail comment hcmd hsuf hlead
    htrail hparams hcut hlen
  have hcanonP : ∀ p ∈ params.map (fun x => canonicalSpacing x.pair), p.Variant := by
    intro p hp
    obtain ⟨x, hx, rfl⟩ := List.mem_map.mp hp
    obtain ⟨_, _, _, _, hc, hs1, hs2⟩ := hparams x hx
    refine ⟨?_, by simp [canonicalSpacing], ?_, ?_, hc, hs1, hs2⟩
    · intro c hc
      left
      simpa [canonicalSpacing] using hc
    · intro c hc
      simp [canonicalSpacing] at hc
    · intro c hc
      simp [canonicalSpacing] at hc
  have hcanonLen : (variantLine [] cmd (params.map (fun x => canonicalSpacing x.pair)) []
      none).length < npos := by
    have h1 := spacedParams_canonical_length params (fun x hx => (hparams x hx).2.1)
    simp only [variantLine, commentText, List.length_append, List.length_nil] at hlen ⊢
    omega
  have hcanon := loadLine_variant filename lang n st [] cmd
    (params.map (fun x => canonicalSpacing x.pair)) [] none hcmd hsuf (by intro c hc; simp at hc)
    (by intro c hc; simp at hc) hcanonP (fun h => absurd rfl h) hcanonLen
  have hline : canonicalLine cmd (params.map SpacedParam.pair) =
      variantLine [] cmd (params.map (fun x => canonicalSpacing x.pair)) [] none := by
    rw [canonicalLine_eq_variantLine, List.map_map]
    rfl
  have hpairs : (params.map (fun x => canonicalSpacing x.pair)).map SpacedParam.pair =
      params.map SpacedParam.pair := by
    rw [List.map_map]
    apply List.map_congr_left
    intro x _
    rfl
  rw [hpairs] at hcanon
  rw [hline]
  exact ⟨hvar.trans hcanon.symm, hcanon, fun raw hraw => normalizeLine_idem raw hraw⟩

/-- Witness of C10: the line `<space><tab>CreateObject<space><tab>pos<space>=<tab>1;2
<space><space>type=Me<space>// the player<tab>` next to `CreateObject pos=1;2 type=Me`. -/
theorem whitespace_variation_invariant_witness :
    loadLine "level.txt".toList 'F' 4 ⟨[], []⟩
        (variantLine [ ' ', tab] "CreateObject".toList
          [⟨[ ' ', tab], "pos".toList, [ ' '], [tab], "1;2".toList⟩,
            ⟨[ ' ', ' '], "type".toList, [], [], "Me".toList⟩]
          [ ' '] (some (" the player".toList ++ [tab]))) =
      loadLine "level.txt".toList 'F' 4 ⟨[], []⟩ "CreateObject pos=1;2 type=Me".toList ∧
    loadLine "level.txt".toList 'F' 4 ⟨[], []⟩ "CreateObject pos=1;2 type=Me".toList =
      (⟨[⟨4, "CreateObject".toList,
        [("pos".toList, "1;2".toList), ("type".toList, "Me".toList)]⟩], []⟩, none) :=
  have h := whitespace_variation_invariant "level.txt".toList 'F' 4 ⟨[], []⟩ [ ' ', tab]
    "CreateObject".toList
    [⟨[ ' ', tab], "pos".toList, [ ' '], [tab], "1;2".toList⟩,
      ⟨[ ' ', ' '], "type".toList, [], [], "Me".toList⟩]
    [ ' '] (some (" the player".toList ++ [tab]))
    (by decide) (by decide) (by decide) (by decide) (by decide)
    (fun _ h => absurd h (by decide)) (by decide)
  ⟨h.1, h.2.1⟩

/-! ## Path builder: assertions and injectivity -/

theorem rankLeaf_head (rank : Int) (sceneFile : Bool) :
    ∀ c, (rankLeaf rank sceneFile).head? = some c → c.isDigit = false := by
  intro c hc
  unfold rankLeaf at hc
  split at hc
  · split at hc
    · simp at hc
      rw [← hc]
      decide
    · simp at hc
  · simp at hc
    rw [← hc]
    decide

theorem rankLeaf_inj (rank rank1 : Int) (sceneFile : Bool) (h0 : 0 ≤ rank) (h1 : 0 ≤ rank1)
    (h : rankLeaf rank sceneFile = rankLeaf rank1 sceneFile) : rank = rank1 := by
  unfold rankLeaf at h
  by_cases hr : rank = 0
  · by_cases hr1 : rank1 = 0
    · rw [hr, hr1]
    · rw [if_pos hr, if_neg hr1] at h
      cases sceneFile <;> simp at h
  · by_cases hr1 : rank1 = 0
    · rw [if_neg hr, if_pos hr1] at h
      cases sceneFile <;> simp at h
    · rw [if_neg hr, if_neg hr1, List.append_assoc, List.append_assoc] at h
      have h2 := List.append_cancel_right (List.append_cancel_left h)
      exact setw_intToStr_inj rank rank1 h0 h1 h2

/-- C15: the assertion of `BuildScenePath` fails exactly when the category is `perso`
and the chapter or the rank is not 0, or the category is `win` or `lost` and the chapter
is not 0; for every other combination of category, chapter, rank and scene-file flag
`BuildScenePath` returns a path. -/
theorem BuildScenePath_assert_iff (customLevelName : Int → Str) (category : Str)
    (chapter rank : Int) (sceneFile : Bool) :
    (BuildScenePath customLevelName category chapter rank sceneFile = none ↔
      (category = "perso".toList ∧ (chapter ≠ 0 ∨ rank ≠ 0)) ∨
      ((category = "win".toList ∨ category = "lost".toList) ∧ chapter ≠ 0)) ∧
    ((∃ path, BuildScenePath customLevelName category chapter rank sceneFile = some path) ↔
      ¬ ((category = "perso".toList ∧ (chapter ≠ 0 ∨ rank ≠ 0)) ∨
        ((category = "win".toList ∨ category = "lost".toList) ∧ chapter ≠ 0))) := by
  have key : BuildScenePath customLevelName category chapter rank sceneFile = none ↔
      (category = "perso".toList ∧ (chapter ≠ 0 ∨ rank ≠ 0)) ∨
      ((category = "win".toList ∨ category = "lost".toList) ∧ chapter ≠ 0) := by
    have e1 : "custom".toList ≠ "perso".toList := by decide
    have e2 : "custom".toList ≠ "win".toList := by decide
    have e3 : "custom".toList ≠ "lost".toList := by decide
    have e4 : "perso".toList ≠ "win".toList := by decide
    have e5 : "perso".toList ≠ "lost".toList := by decide
    unfold BuildScenePath
    by_cases hc : category = "custom".toList
    · subst hc
      rw [if_pos rfl]
      constructor
      · intro h
        exact Option.noConfusion h
      · rintro (⟨h, _⟩ | ⟨h | h, _⟩)
        · exact absurd h e1
        · exact absurd h e2
        · exact absurd h e3
    · rw [if_neg hc]
      by_cases hp : category = "perso".toList
      · subst hp
        rw [if_pos rfl]
        by_cases hch : chapter = 0
        · by_cases hrk : rank = 0
          · rw [if_pos hch, if_pos hrk]
            constructor
            · intro h
              exact Option.noConfusion h
            · rintro (⟨_, h | h⟩ | ⟨h | h, _⟩)
              · exact absurd hch h
              · exact absurd hrk h
              · exact absurd h e4
              · exact absurd h e5
          · rw [if_pos hch, if_neg hrk]
            exact ⟨fun _ => Or.inl ⟨rfl, Or.inr hrk⟩, fun _ => rfl⟩
        · rw [if_neg hch]
          exact ⟨fun _ => Or.inl ⟨rfl, Or.inl hch⟩, fun _ => rfl⟩
      · rw [if_neg hp]
        by_cases hw : category = "win".toList ∨ category = "lost".toList
        · rw [if_pos hw]
          by_cases hch : chapter = 0
          · rw [if_pos hch]
            constructor
            · intro h
              exact Option.noConfusion h
            · rintro (⟨h, _⟩ | ⟨_, h⟩)
              · exact absurd h hp
              · exact absurd hch h
          · rw [if_neg hch]
            exact ⟨fun _ => Or.inr ⟨hw, hch⟩, fun _ => rfl⟩
        · rw [if_neg hw]
          constructor
          · intro h
            exact Option.noConfusion h
          · rintro (⟨h, _⟩ | ⟨h, _⟩)
            · exact absurd h hp
            · exact absurd h hw
  refine ⟨key, ?_⟩
  rw [← key]
  cases BuildScenePath customLevelName category chapter rank sceneFile <;> simp

/-- C20: for a category other than `custom`, `perso`, `win` and `lost`, a fixed
scene-file flag and non-negative chapters and ranks (also above 999, which are written
with all their digits), `BuildScenePath` is injective in the chapter and the rank. -/
theorem BuildScenePath_injective (customLevelName : Int → Str) (category : Str)
    (chapter rank chapter1 rank1 : Int) (sceneFile : Bool)
    (hcustom : category ≠ "custom".toList) (hperso : category ≠ "perso".toList)
    (hwin : category ≠ "win".toList) (hlost : category ≠ "lost".toList)
    (hc : 0 ≤ chapter) (hr : 0 ≤ rank) (hc1 : 0 ≤ chapter1) (hr1 : 0 ≤ rank1)
    (h : BuildScenePath customLevelName category chapter rank sceneFile =
      BuildScenePath customLevelName category chapter1 rank1 sceneFile) :
    chapter = chapter1 ∧ rank = rank1 := by
  unfold BuildScenePath at h
  rw [if_neg hcustom, if_neg hperso, if_neg (by rintro (e | e); exacts [hwin e, hlost e]),
    if_neg hcustom, if_neg hperso, if_neg (by rintro (e | e); exacts [hwin e, hlost e])] at h
  injection h with h
  rw [List.append_assoc, List.append_assoc, List.append_assoc, List.append_assoc] at h
  have h1 := List.append_cancel_left (List.append_cancel_left h)
  have hd : ∀ i : Int, 0 ≤ i → ∀ c ∈ setw 3 '0' (intToStr i), c.isDigit = true := by
    intro i hi
    rw [intToStr_of_nonneg i hi]
    exact (setw_natToStr_spec _).1
  obtain ⟨h2, h3⟩ := digits_split _ _ _ _ (hd chapter hc) (hd chapter1 hc1)
    (rankLeaf_head rank sceneFile) (rankLeaf_head rank1 sceneFile) h1
  exact ⟨setw_intToStr_inj chapter chapter1 hc hc1 h2, rankLeaf_inj rank rank1 sceneFile hr hr1 h3⟩

/-- Witness of C20: chapter 1001 and rank 2 of the category `missions`. -/
theorem BuildScenePath_injective_witness :
    BuildScenePath sampleCustomName "missions".toList 1001 2 true =
      some "levels/missions/chapter1001/level002/scene.txt".toList ∧
    ((1001 : Int) = 1001 ∧ (2 : Int) = 2) :=
  ⟨by decide, BuildScenePath_injective sampleCustomName "missions".toList 1001 2 1001 2 true
    (by decide) (by decide) (by decide) (by decide) (by decide) (by decide) (by decide)
    (by decide) rfl⟩

/-! ## Parameter loop: totality -/

/-- C19: the parameter loop of `Load` is total. For every remainder (shorter than `npos`)
it ends after at most as many passes as the remainder has characters, normally or with
the exception of an unclosed quote; every pass that does not stop the loop strictly
shortens the remainder; the start positions of the `substr` calls (after the name split
and for the advance past the value) lie within the current string, with `npos + 1`
wrapping to 0. -/
theorem parameter_loop_total (filename : Str) (lineNumber : Nat) (line : Str)
    (hlen : line.length < npos) :
    ((∃ ps, parseParams filename lineNumber line = Except.ok ps) ∨
      (∃ q, (q = dquote ∨ q = squote) ∧ parseParams filename lineNumber line =
        Except.error (LoadError.parser (unclosedMsg q filename lineNumber)))) ∧
    (∀ n, line.length ≤ n →
      paramLoop filename lineNumber n line = parseParams filename lineNumber line) ∧
    (∀ p line1, paramStep filename lineNumber line = Except.ok (p, some line1) →
      line1.length < line.length) ∧
    sizeAdd1 (find_first_of line [ '='] 0) ≤ line.length ∧
    (∀ rest pos1, substrE line (sizeAdd1 (find_first_of line [ '='] 0)) npos = Except.ok rest →
      valueEnd filename lineNumber (trim rest) = Except.ok pos1 →
      sizeAdd1 pos1 ≤ (trim rest).length) ∧
    sizeAdd1 npos = 0 := by
  refine ⟨paramLoop_total filename lineNumber line.length line (le_refl _) hlen, ?_, ?_, ?_, ?_,
    sizeAdd1_npos⟩
  · intro n hn
    exact paramLoop_fuel_irrelevant filename lineNumber n line.length line hn (le_refl _) hlen
  · intro p line1 h
    exact paramStep_shrinks _ _ _ _ _ hlen h
  · exact sizeAdd1_le_of_lt_or_npos _ _ hlen (find_first_of_le line [ '='] 0)
  · intro rest pos1 hrest hend
    have h1 := (substrE_ok _ _ _ _ hrest).2
    have h2 := trim_length_le rest
    have hrlen : (trim rest).length < npos := by omega
    exact sizeAdd1_le_of_lt_or_npos _ _ hrlen (valueEnd_lt _ _ _ _ hrlen hend)

/-- Witness of C19: the remainder `a=1 b=` ends normally, its last pass through `break`. -/
theorem parameter_loop_total_witness :
    (∃ ps, parseParams "level.txt".toList 1 "a=1 b=".toList = Except.ok ps) ∨
      (∃ q, (q = dquote ∨ q = squote) ∧ parseParams "level.txt".toList 1 "a=1 b=".toList =
        Except.error (LoadError.parser (unclosedMsg q "level.txt".toList 1))) :=
  (parameter_loop_total "level.txt".toList 1 "a=1 b=".toList (by decide)).1

/-! ## Parameter loop: names and unquoted values -/

/-- C18, as stated, fails: for the line `Cmd =v` the parameter that `Load` attaches has
the empty name. -/
theorem param_name_counterexample :
    Load "level.txt".toList (some ["Cmd =v".toList]) 'E' [] =
      ([⟨1, "Cmd".toList, [([], "v".toList)]⟩], none) := by
  decide

/-- C18, amended: every remainder that the parameter loop of `Load` works on is trimmed
(the one that the tokenizer hands over and the one that every pass leaves), and on a
trimmed, non-empty remainder the name handed to `AddParam` is trimmed and is empty
exactly when the remainder begins with `=`; in every other case it is non-empty. -/
theorem param_name_empty_iff (filename : Str) (lineNumber : Nat) (line name value : Str)
    (next : Option Str) (htight : Tight line) (hne : line ≠ [])
    (hstep : paramStep filename lineNumber line = Except.ok ((name, value), next)) :
    (name = [] ↔ line.head? = some '=') ∧ Tight name ∧
    (∀ line1, next = some line1 → Tight line1) ∧
    (∀ raw command rest, tokenize raw = Except.ok (command, rest) → Tight rest) := by
  obtain ⟨rest, pos1, _, _, hname, _, hnext⟩ := paramStep_inv _ _ _ _ _ _ hstep
  refine ⟨?_, ?_, ?_, fun raw command rest h => tokenize_tight raw command rest h⟩
  · cases line with
    | nil => exact absurd rfl hne
    | cons c cs =>
      have hc : isspace c = false := htight.1 c rfl
      by_cases he : c = '='
      · subst he
        have hpos : find_first_of ('=' :: cs) [ '='] 0 = 0 :=
          find_first_of_append [] '=' cs [ '='] (by simp) (by simp)
        rw [hpos] at hname
        exact ⟨fun _ => rfl, fun _ => hname⟩
      · have hpos : find_first_of (c :: cs) [ '='] 0 ≠ 0 := by
          unfold find_first_of
          rw [List.drop_zero]
          simp only [firstIdx, List.mem_singleton, he, decide_False, Bool.false_eq_true,
            if_false]
          split
          · rename_i i hi
            obtain ⟨j, _, hj⟩ := Option.map_eq_some'.mp hi
            omega
          · decide
        obtain ⟨k, hk⟩ : ∃ k, find_first_of (c :: cs) [ '='] 0 = k + 1 :=
          ⟨find_first_of (c :: cs) [ '='] 0 - 1, by omega⟩
        rw [hk, List.take_succ_cons] at hname
        constructor
        · intro h0
          rw [h0] at hname
          exact absurd hname.symm (trim_cons_ne_nil c _ hc)
        · intro h0
          simp only [List.head?_cons, Option.some.injEq] at h0
          exact absurd h0 he
  · rw [hname]
    exact trim_tight _
  · intro line1 h1
    rcases hnext with ⟨_, h2⟩ | ⟨_, rest1, _, h2⟩
    · rw [h2] at h1
      exact Option.noConfusion h1
    · rw [h2] at h1
      injection h1 with h1
      rw [← h1]
      exact trim_tight _

/-- Witness of C18 as amended: the pass on the remainder `=v` records the empty name. -/
theorem param_name_empty_iff_witness :
    (([] : Str) = [] ↔ "=v".toList.head? = some '=') :=
  (param_name_empty_iff "level.txt".toList 1 "=v".toList [] "v".toList (some [])
    (show Tight "=v".toList from trim_tight "=v".toList) (by decide) rfl).1

/-- C17, as stated, fails: for the line `Cmd n=v1=v2` the value that `Load` records for
`n` from the unquoted branch is `v1=`, which contains `=`; no blank stands between the
value and the next `=`, so `pos2` is `npos` and the value runs through the `=`. -/
theorem unquoted_value_counterexample :
    Load "level.txt".toList (some ["Cmd n=v1=v2".toList]) 'E' [] =
      ([⟨1, "Cmd".toList, [("n".toList, "v1=".toList), ("v2".toList, "v2".toList)]⟩], none) ∧
    '=' ∈ "v1=".toList ∧ valuePos2 "v1=v2".toList = npos := by
  decide

/-- C17, amended: in a pass of the parameter loop whose value text does not start with
a quote, when the value text has no `=` the value is the whole value text, runs to the
end of the remainder and contains no `=`; when its first `=` is not its first character
and a blank stands before the last non-blank character in front of that `=`, the value
ends at the last such blank, in front of the `=`: it contains no `=` and the next pass
starts behind that blank, with the next parameter's name. -/
theorem unquoted_value_span (filename : Str) (lineNumber : Nat)
    (line rest vt name value : Str) (next : Option Str) (hlen : line.length < npos)
    (hrest : substrE line (sizeAdd1 (find_first_of line [ '='] 0)) npos = Except.ok rest)
    (hvt : trim rest = vt) (hd : vt.headD nul ≠ dquote) (hs : vt.headD nul ≠ squote)
    (hstep : paramStep filename lineNumber line = Except.ok ((name, value), next)) :
    (find_first_of vt [ '='] 0 = npos →
      value = vt ∧ '=' ∉ value ∧ ∀ line1, next = some line1 → line1 = []) ∧
    (find_first_of vt [ '='] 0 ≠ npos → 1 ≤ find_first_of vt [ '='] 0 → valuePos2 vt ≠ npos →
      valuePos2 vt < find_first_of vt [ '='] 0 ∧
      value = trim (vt.take (valuePos2 vt + 1)) ∧ '=' ∉ value ∧
      next = some (trim (vt.drop (valuePos2 vt + 1)))) := by
  obtain ⟨rest', pos1, hrest', hend, _, hvalue, hnext⟩ := paramStep_inv _ _ _ _ _ _ hstep
  rw [hrest] at hrest'
  injection hrest' with hrest'
  subst hrest'
  rw [hvt] at hend hvalue hnext
  have hvlen : vt.length < npos := by
    have h1 := (substrE_ok _ _ _ _ hrest).2
    have h2 := trim_length_le rest
    rw [hvt] at h2
    omega
  have htight : Tight vt := hvt ▸ trim_tight rest
  rw [valueEnd_unquoted _ _ _ hd hs] at hend
  dsimp only at hend
  constructor
  · intro hnone
    rw [if_neg (by simp [hnone])] at hend
    injection hend with hend
    have hno : '=' ∉ vt := fun hm => find_first_of_npos vt [ '='] hvlen hnone _ hm (by simp)
    by_cases h0 : vt = []
    · subst h0
      have hp : pos1 = npos := by rw [← hend]; rfl
      rw [hp, sizeAdd1_npos] at hvalue
      refine ⟨hvalue, by rw [hvalue]; simp [trim, trim_left, trim_right], ?_⟩
      intro line1 h1
      rcases hnext with ⟨_, h2⟩ | ⟨h2, _⟩
      · rw [h2] at h1
        exact Option.noConfusion h1
      · exact absurd hp h2
    · have hpos : 0 < vt.length := List.length_pos.mpr h0
      rw [sizeSub1_of_pos _ hpos (by omega)] at hend
      subst hend
      have hadd : sizeAdd1 (vt.length - 1) = vt.length := by
        rw [sizeAdd1_of_lt _ (by omega)]
        omega
      rw [hadd, List.take_length, trim_of_tight _ htight] at hvalue
      refine ⟨hvalue, by rw [hvalue]; exact hno, ?_⟩
      intro line1 h1
      rcases hnext with ⟨h2, _⟩ | ⟨_, rest1, h2, h3⟩
      · omega
      · rw [hadd, substrE_tail _ _ (le_refl _) (by omega), List.drop_length] at h2
        injection h2 with h2
        rw [h3, ← h2] at h1
        injection h1 with h1
        exact h1.symm
  · intro hsome hge hp2
    rw [if_pos hsome] at hend
    have hp2' : find_last_of vt blanks
        (find_last_not_of vt blanks (sizeSub1 (find_first_of vt [ '='] 0))) ≠ npos := hp2
    rw [if_pos hp2'] at hend
    injection hend with hend
    have hpos1 : pos1 = valuePos2 vt := hend.symm
    have hflt : find_first_of vt [ '='] 0 < vt.length := by
      rcases find_first_of_le vt [ '='] 0 with h | h
      · exact h
      · exact absurd h hsome
    have hlt : valuePos2 vt < find_first_of vt [ '='] 0 := by
      cases hv : vt with
      | nil => rw [hv] at hflt; simp at hflt
      | cons c cs =>
        have hc : c ∉ blanks := not_blank_of_not_isspace c (htight.1 c (by rw [hv]; rfl))
        have h1 := find_last_not_of_le_pos c cs blanks
          (sizeSub1 (find_first_of (c :: cs) [ '='] 0)) hc
        rw [hv] at hge hvlen hp2 hflt
        rw [sizeSub1_of_pos _ (by omega) (by omega)] at h1
        have h2 := find_last_of_le_pos (c :: cs) blanks _ (by
          have := hp2
          unfold valuePos2 at this
          rw [sizeSub1_of_pos _ (by omega) (by omega)] at this
          exact this)
        have h3 : valuePos2 (c :: cs) = find_last_of (c :: cs) blanks
            (find_last_not_of (c :: cs) blanks (find_first_of (c :: cs) [ '='] 0 - 1)) := by
          unfold valuePos2
          rw [sizeSub1_of_pos _ (by omega) (by omega)]
        omega
    have hadd : sizeAdd1 (valuePos2 vt) = valuePos2 vt + 1 := sizeAdd1_of_lt _ (by omega)
    rw [hpos1, hadd] at hvalue hnext
    have hnoeq : '=' ∉ value := by
      intro hm
      rw [hvalue] at hm
      have h1 := mem_trim _ _ hm
      have h2 := List.take_subset_take_left vt (show valuePos2 vt + 1 ≤
        find_first_of vt [ '='] 0 by omega) h1
      exact find_first_of_before vt [ '='] hsome _ h2 (by simp)
    refine ⟨hlt, hvalue, hnoeq, ?_⟩
    rcases hnext with ⟨h2, _⟩ | ⟨_, rest1, h2, h3⟩
    · omega
    · rw [substrE_tail _ _ (by omega) (by omega)] at h2
      injection h2 with h2
      rw [h3, ← h2]

/-- Witness of C17 as amended: the pass on `a=1 2 b=3` records the value `1 2` and goes
on with `b=3`. -/
theorem unquoted_value_span_witness :
    valuePos2 "1 2 b=3".toList < find_first_of "1 2 b=3".toList [ '='] 0 ∧
      "1 2".toList = trim ("1 2 b=3".toList.take (valuePos2 "1 2 b=3".toList + 1)) ∧
      '=' ∉ "1 2".toList ∧
      some "b=3".toList = some (trim ("1 2 b=3".toList.drop (valuePos2 "1 2 b=3".toList + 1))) :=
  (unquoted_value_span "level.txt".toList 1 "a=1 2 b=3".toList "1 2 b=3".toList
    "1 2 b=3".toList "a".toList "1 2".toList (some "b=3".toList) (by decide) rfl rfl
    (by decide) (by decide) rfl).2 (by decide) (by decide) (by decide)

/-! ## `Load`: failures, line numbers and order -/

/-- C11, as stated, fails: `Load` into the empty document of the lines `Foo a=1` and
`Bar text='oops` throws the unclosed-quote error of line 2 and leaves the line built
from line 1 in the document. -/
theorem load_atomic_counterexample :
    Load "level.txt".toList
        (some ["Foo a=1".toList, "Bar text=".toList ++ squote :: "oops".toList]) 'F' [] =
      ([⟨1, "Foo".toList, [("a".toList, "1".toList)]⟩],
        some (LoadError.parser (unclosedMsg squote "level.txt".toList 2))) := by
  decide

/-- C11, amended: when the file cannot be opened, `Load` fails and leaves the document
as it was. When `Load` fails on a physical line, the lines built from the physical lines
before it are left in the document: the document after the failed call is the document
that `Load` of the lines before the faulty one gives, without the lines of the command
`b` when the faulty line has the command token `b.<lang>` and a line with the token
`b.E` or `b.<lang>` stands before it (the localization rule removed them before the
parameters were parsed), and as it is in every other case. -/
theorem load_failure_state (filename : Str) (lang : Char) (m_lines : List CLevelParserLine)
    (file : List Str) (doc : List CLevelParserLine) (e : LoadError)
    (h : Load filename (some file) lang m_lines = (doc, some e)) :
    Load filename none lang m_lines =
      (m_lines, some (LoadError.parser ("Failed to open file: ".toList ++ filename))) ∧
    ∃ pre raw post docPre st1, file = pre ++ raw :: post ∧
      Load filename (some pre) lang m_lines = (docPre, none) ∧
      loadLoop filename lang pre 0 ⟨m_lines, []⟩ = (st1, none) ∧
      (loadLine filename lang (pre.length + 1) st1 raw).2 = some e ∧
      ((tokenize raw = Except.error e ∧ doc = docPre) ∨
        ∃ t r, tokenize raw = Except.ok (t, r) ∧ t ≠ [] ∧
          parseParams filename (pre.length + 1) r = Except.error e ∧
          (∀ b, b ≠ [] → t = b ++ [ '.', lang] →
            (∃ x ∈ pre, ∃ c rx, tokenize x = Except.ok (b ++ [ '.', c], rx) ∧
              (c = lang ∨ c = 'E')) →
            doc = removeCommand b docPre) ∧
          ((¬ ∃ b, b ≠ [] ∧ t = b ++ [ '.', lang] ∧
              ∃ x ∈ pre, ∃ c rx, tokenize x = Except.ok (b ++ [ '.', c], rx) ∧
                (c = lang ∨ c = 'E')) →
            doc = docPre)) := by
  refine ⟨rfl, ?_⟩
  simp only [Load, Prod.mk.injEq] at h
  obtain ⟨hdoc, herr⟩ := h
  have hloop : loadLoop filename lang file 0 ⟨m_lines, []⟩ =
      ((loadLoop filename lang file 0 ⟨m_lines, []⟩).1, some e) := by
    rw [← herr]
  obtain ⟨pre, raw, post, st1, hsplit, hpre, hfail⟩ := loadLoop_failure _ _ _ _ _ _ _ hloop
  rw [Nat.zero_add] at hfail
  have hseen := seen_iff filename lang m_lines pre st1 hpre
  refine ⟨pre, raw, post, st1.m_lines, st1, hsplit, ?_, hpre, by rw [hfail], ?_⟩
  · simp only [Load, hpre]
  · rw [← hdoc]
    rcases loadLine_failure_exact _ _ _ _ _ _ _ hfail with ⟨htok, hst⟩ |
      ⟨t, r, htok, hne, hp, hrem, hkeep⟩
    · exact Or.inl ⟨htok, by rw [hst]⟩
    · refine Or.inr ⟨t, r, htok, hne, hp, ?_, ?_⟩
      · rintro b hb ht ⟨x, hx, c, rx, hxtok, hc⟩
        exact hrem b hb ht ((hseen b).mpr ⟨x, hx, c, rx, hb, hxtok, hc⟩)
      · intro hno
        apply hkeep
        rintro ⟨b, hb, ht, hm⟩
        obtain ⟨x, hx, c, rx, _, hxtok, hc⟩ := (hseen b).mp hm
        exact hno ⟨b, hb, ht, x, hx, c, rx, hxtok, hc⟩

/-- Witness of C11 as amended: active language `F`, the lines `Foo.E a=1`, `Bar b=2` and
`Foo.F text='oops`; the failed call leaves the line of `Bar` and not the line of
`Foo`. -/
theorem load_failure_state_witness :
    ∃ pre raw post docPre st1,
      ["Foo.E a=1".toList, "Bar b=2".toList,
        "Foo.F text=".toList ++ squote :: "oops".toList] = pre ++ raw :: post ∧
      Load "level.txt".toList (some pre) 'F' [] = (docPre, none) ∧
      loadLoop "level.txt".toList 'F' pre 0 ⟨[], []⟩ = (st1, none) ∧
      (loadLine "level.txt".toList 'F' (pre.length + 1) st1 raw).2 =
        some (LoadError.parser (unclosedMsg squote "level.txt".toList 3)) ∧
      ((tokenize raw =
            Except.error (LoadError.parser (unclosedMsg squote "level.txt".toList 3)) ∧
          [⟨2, "Bar".toList, [("b".toList, "2".toList)]⟩] = docPre) ∨
        ∃ t r, tokenize raw = Except.ok (t, r) ∧ t ≠ [] ∧
          parseParams "level.txt".toList (pre.length + 1) r =
            Except.error (LoadError.parser (unclosedMsg squote "level.txt".toList 3)) ∧
          (∀ b, b ≠ [] → t = b ++ [ '.', 'F'] →
            (∃ x ∈ pre, ∃ c rx, tokenize x = Except.ok (b ++ [ '.', c], rx) ∧
              (c = 'F' ∨ c = 'E')) →
            [⟨2, "Bar".toList, [("b".toList, "2".toList)]⟩] = removeCommand b docPre) ∧
          ((¬ ∃ b, b ≠ [] ∧ t = b ++ [ '.', 'F'] ∧
              ∃ x ∈ pre, ∃ c rx, tokenize x = Except.ok (b ++ [ '.', c], rx) ∧
                (c = 'F' ∨ c = 'E')) →
            [⟨2, "Bar".toList, [("b".toList, "2".toList)]⟩] = docPre)) :=
  (load_failure_state "level.txt".toList 'F' []
    ["Foo.E a=1".toList, "Bar b=2".toList, "Foo.F text=".toList ++ squote :: "oops".toList]
    [⟨2, "Bar".toList, [("b".toList, "2".toList)]⟩]
    (LoadError.parser (unclosedMsg squote "level.txt".toList 3)) (by decide)).2

/-- C14: after a successful `Load` into an empty document, every line of the document
carries the 1-based index of a physical line of the file, blank, comment-only and
discarded lines counted, and is what `Load` builds from that physical line (the command
of its token, the parameters of its remainder); the lines are stored in strictly
increasing line-number order. -/
theorem line_numbers_and_order (filename : Str) (lang : Char) (file : List Str)
    (doc : List CLevelParserLine) (hload : Load filename (some file) lang [] = (doc, none)) :
    (∀ l ∈ doc, 1 ≤ l.lineNumber ∧ l.lineNumber ≤ file.length ∧
      ∃ raw, file.get? (l.lineNumber - 1) = some raw ∧ BuiltFrom filename raw l) ∧
    doc.Pairwise (fun a b => a.lineNumber < b.lineNumber) := by
  simp only [Load, Prod.mk.injEq] at hload
  obtain ⟨hdoc, herr⟩ := hload
  have hloop : loadLoop filename lang file 0 ⟨[], []⟩ =
      ((loadLoop filename lang file 0 ⟨[], []⟩).1, none) := by
    rw [← herr]
  have := provenance filename lang file _ hloop
  rw [hdoc] at this
  exact this

/-- Witness of C14: active language `F`, a comment, `Foo a=1`, a blank line, the discarded
`Bar.D x=1`, and `Baz`. -/
theorem line_numbers_and_order_witness :
    (∀ l ∈ ([⟨2, "Foo".toList, [("a".toList, "1".toList)]⟩, ⟨5, "Baz".toList, []⟩] :
        List CLevelParserLine),
      1 ≤ l.lineNumber ∧ l.lineNumber ≤
        ["// scene".toList, "Foo a=1".toList, [], "Bar.D x=1".toList, "Baz".toList].length ∧
      ∃ raw, ["// scene".toList, "Foo a=1".toList, [], "Bar.D x=1".toList,
          "Baz".toList].get? (l.lineNumber - 1) = some raw ∧
        BuiltFrom "level.txt".toList raw l) ∧
    ([⟨2, "Foo".toList, [("a".toList, "1".toList)]⟩, ⟨5, "Baz".toList, []⟩] :
        List CLevelParserLine).Pairwise (fun a b => a.lineNumber < b.lineNumber) :=
  line_numbers_and_order "level.txt".toList 'F'
    ["// scene".toList, "Foo a=1".toList, [], "Bar.D x=1".toList, "Baz".toList]
    [⟨2, "Foo".toList, [("a".toList, "1".toList)]⟩, ⟨5, "Baz".toList, []⟩] (by decide)

/-! ## `Load`: the localization rule over a whole file -/

/-- C16, as stated, fails: with the active language `F`, `Load` of the two lines
`Foo.F a=1` and `Foo.F a=2`, with no `Foo.E` line between them, keeps only the line built
from the second. -/
theorem active_duplicates_counterexample :
    Load "level.txt".toList (some ["Foo.F a=1".toList, "Foo.F a=2".toList]) 'F' [] =
      ([⟨2, "Foo".toList, [("a".toList, "2".toList)]⟩], none) := by
  decide

/-- C16, amended: for every active language `lang` and non-empty base command `b`, when
a file on which `Load` into an empty document succeeds has two or more lines with the
command token `b.<lang>`, with or without a `b.E` line between them, `Load` deduplicates
them: the line built from the last of them is in the document, and no line with command
`b` built from a physical line before the last of them remains. -/
theorem active_lines_deduplicated (filename : Str) (lang : Char) (b : Str) (hb : b ≠ [])
    (pre : List Str) (raw : Str) (post : List Str) (r : Str) (doc : List CLevelParserLine)
    (hload : Load filename (some (pre ++ raw :: post)) lang [] = (doc, none))
    (htok : tokenize raw = Except.ok (b ++ [ '.', lang], r))
    (hearlier : ∃ x ∈ pre, ∃ rx, tokenize x = Except.ok (b ++ [ '.', lang], rx))
    (hlast : ∀ y ∈ post, ∀ ry, tokenize y ≠ Except.ok (b ++ [ '.', lang], ry)) :
    ∃ ps, parseParams filename (pre.length + 1) r = Except.ok ps ∧
      (⟨pre.length + 1, b, ps⟩ : CLevelParserLine) ∈ doc ∧
      ∀ l ∈ doc, l.command = b → pre.length + 1 ≤ l.lineNumber := by
  simp only [Load, Prod.mk.injEq] at hload
  obtain ⟨hdoc, herr⟩ := hload
  have hloop : loadLoop filename lang (pre ++ raw :: post) 0 ⟨[], []⟩ =
      ((loadLoop filename lang (pre ++ raw :: post) 0 ⟨[], []⟩).1, none) := by
    rw [← herr]
  obtain ⟨st1, st2, hpre, hline, hrest⟩ := loadLoop_split _ _ _ _ _ _ _ _ hloop
  rw [Nat.zero_add] at hline hrest
  have htail : loadLoop filename lang (raw :: post) pre.length st1 =
      ((loadLoop filename lang (pre ++ raw :: post) 0 ⟨[], []⟩).1, none) := by
    simp only [loadLoop, hline]
    exact hrest
  obtain ⟨x, hx, rx, hxtok⟩ := hearlier
  have hseen : b ∈ st1.translatableLines :=
    (seen_iff filename lang [] pre st1 hpre b).mpr ⟨x, hx, lang, rx, hb, hxtok, Or.inl rfl⟩
  obtain ⟨ps, hps, hone, _⟩ := active_step filename lang b hb raw r htok _ st1 st2
    (fun h => absurd hseen h) hline
  have hmem2 : (⟨pre.length + 1, b, ps⟩ : CLevelParserLine) ∈ st2.m_lines := by
    have : (⟨pre.length + 1, b, ps⟩ : CLevelParserLine) ∈ cmdLines b st2.m_lines := by
      rw [hone]
      exact List.mem_singleton.mpr rfl
    unfold cmdLines at this
    exact (List.mem_filter.mp this).1
  have hsnoc := loadLoop_snoc filename lang pre raw st1 st2 _ hpre hline
  have hlen : (pre ++ [raw]).length = pre.length + 1 := by simp
  refine ⟨ps, hps, ?_, ?_⟩
  · rw [← hdoc]
    refine (survives_iff filename lang ⟨pre.length + 1, b, ps⟩ hb post (pre ++ [raw]) st2 _
      hsnoc (by rw [hlen]; exact hrest) (by rw [hlen])).mpr ⟨hmem2, ?_⟩
    rintro ⟨post1, y, post2, ry, hsplit, hytok, _⟩
    exact hlast y (by rw [hsplit]; simp) ry hytok
  · intro l hl hcmd
    by_contra hnum
    rw [← hdoc] at hl
    have hne : l.command ≠ [] := by rw [hcmd]; exact hb
    have h := (survives_iff filename lang l hne (raw :: post) pre st1 _ hpre htail
      (by omega)).mp hl
    apply h.2
    rw [hcmd]
    exact ⟨[], raw, post, r, rfl, htok, x, by simpa using hx, lang, rx, hxtok, Or.inl rfl⟩

/-- Witness of C16 as amended: active language `F`, the lines `Foo.F a=1` and
`Foo.F a=2`. -/
theorem active_lines_deduplicated_witness :
    ∃ ps, parseParams "level.txt".toList (["Foo.F a=1".toList].length + 1) "a=2".toList =
        Except.ok ps ∧
      (⟨["Foo.F a=1".toList].length + 1, "Foo".toList, ps⟩ : CLevelParserLine) ∈
        ([⟨2, "Foo".toList, [("a".toList, "2".toList)]⟩] : List CLevelParserLine) ∧
      ∀ l ∈ ([⟨2, "Foo".toList, [("a".toList, "2".toList)]⟩] : List CLevelParserLine),
        l.command = "Foo".toList → ["Foo.F a=1".toList].length + 1 ≤ l.lineNumber :=
  active_lines_deduplicated "level.txt".toList 'F' "Foo".toList (by decide)
    ["Foo.F a=1".toList] "Foo.F a=2".toList [] "a=2".toList
    [⟨2, "Foo".toList, [("a".toList, "2".toList)]⟩] (by decide) rfl
    ⟨"Foo.F a=1".toList, by simp, "a=1".toList, rfl⟩
    (by intro y hy; simp at hy)

/-- C12: for every file and active language, after a successful `Load` into an empty
document, for every base command `b` at most one line of the document with command `b`
was built from a physical line whose command token carries a localization suffix. The
same holds after each physical line processed, where moreover a base command is in the
seen set exactly when the document has such a line for it, and exactly when a physical
line with that base and the suffix `E` or the suffix of the active language has been
read. -/
theorem localization_unique (filename : Str) (lang : Char) (file : List Str)
    (doc : List CLevelParserLine) (hload : Load filename (some file) lang [] = (doc, none)) :
    (∀ b, (suffixedLines file b doc).length ≤ 1) ∧
    ∀ pre post, file = pre ++ post →
      ∃ st, loadLoop filename lang pre 0 ⟨[], []⟩ = (st, none) ∧
        (∀ b, (suffixedLines file b st.m_lines).length ≤ 1) ∧
        (∀ b, b ∈ st.translatableLines ↔ suffixedLines file b st.m_lines ≠ []) ∧
        (∀ b, b ∈ st.translatableLines ↔
          ∃ raw ∈ pre, ∃ c r, b ≠ [] ∧ tokenize raw = Except.ok (b ++ [ '.', c], r) ∧
            (c = lang ∨ c = 'E')) := by
  simp only [Load, Prod.mk.injEq] at hload
  obtain ⟨hdoc, herr⟩ := hload
  have hloop : loadLoop filename lang file 0 ⟨[], []⟩ =
      ((loadLoop filename lang file 0 ⟨[], []⟩).1, none) := by
    rw [← herr]
  constructor
  · intro b
    have h := (suffixed_unique filename lang file _ hloop [] b).1
    rw [List.append_nil, hdoc] at h
    exact h
  · rintro pre post rfl
    rw [loadLoop_append] at hloop
    rcases hpre : loadLoop filename lang pre 0 ⟨[], []⟩ with ⟨st, _ | e⟩
    · refine ⟨st, rfl, fun b => (suffixed_unique filename lang pre st hpre post b).1,
        fun b => (suffixed_unique filename lang pre st hpre post b).2,
        seen_iff filename lang [] pre st hpre⟩
    · rw [hpre] at hloop
      simp at hloop

/-- Witness of C12: active language `F`, the lines `Foo.E a=1`, `Foo b=2` and
`Foo.F c=3`. -/
theorem localization_unique_witness :
    (∀ b, (suffixedLines ["Foo.E a=1".toList, "Foo b=2".toList, "Foo.F c=3".toList] b
      [⟨3, "Foo".toList, [("c".toList, "3".toList)]⟩]).length ≤ 1) ∧
    ∀ pre post, ["Foo.E a=1".toList, "Foo b=2".toList, "Foo.F c=3".toList] = pre ++ post →
      ∃ st, loadLoop "level.txt".toList 'F' pre 0 ⟨[], []⟩ = (st, none) ∧
        (∀ b, (suffixedLines ["Foo.E a=1".toList, "Foo b=2".toList, "Foo.F c=3".toList] b
          st.m_lines).length ≤ 1) ∧
        (∀ b, b ∈ st.translatableLines ↔
          suffixedLines ["Foo.E a=1".toList, "Foo b=2".toList, "Foo.F c=3".toList] b
            st.m_lines ≠ []) ∧
        (∀ b, b ∈ st.translatableLines ↔
          ∃ raw ∈ pre, ∃ c r, b ≠ [] ∧ tokenize raw = Except.ok (b ++ [ '.', c], r) ∧
            (c = 'F' ∨ c = 'E')) :=
  localization_unique "level.txt".toList 'F'
    ["Foo.E a=1".toList, "Foo b=2".toList, "Foo.F c=3".toList]
    [⟨3, "Foo".toList, [("c".toList, "3".toList)]⟩] (by decide)

/-- C13, as stated, fails: with the active language `F`, `Load` of the lines `Foo.E x=1`,
`Foo y=2` and `Foo.F z=3` succeeds, and the document has no line for the second physical
line, whose command token `Foo` has no localization suffix. -/
theorem unsuffixed_kept_counterexample :
    Load "level.txt".toList
        (some ["Foo.E x=1".toList, "Foo y=2".toList, "Foo.F z=3".toList]) 'F' [] =
      ([⟨3, "Foo".toList, [("z".toList, "3".toList)]⟩], none) ∧
    tokenize "Foo y=2".toList = Except.ok ("Foo".toList, "y=2".toList) ∧
    hasSuffix "Foo".toList = false := by
  refine ⟨by decide, rfl, by decide⟩

/-- C13, amended: for every file and active language on which `Load` into an empty
document succeeds, every physical line whose non-empty command token `t` has no
localization suffix is appended to the document when it is read, with the command name
`t` unchanged, its line number and the parameters of its remainder; it is in the final
document exactly when no later line with the token `t.<lang>` is read after a line with
the token `t.E` or `t.<lang>`. -/
theorem unsuffixed_line_kept_iff (filename : Str) (lang : Char) (pre : List Str) (raw : Str)
    (post : List Str) (t r : Str) (doc : List CLevelParserLine)
    (hload : Load filename (some (pre ++ raw :: post)) lang [] = (doc, none))
    (htok : tokenize raw = Except.ok (t, r)) (hne : t ≠ []) (hsuf : hasSuffix t = false) :
    ∃ ps, parseParams filename (pre.length + 1) r = Except.ok ps ∧
      (Load filename (some (pre ++ [raw])) lang []).1.getLast? =
        some ⟨pre.length + 1, t, ps⟩ ∧
      ((⟨pre.length + 1, t, ps⟩ : CLevelParserLine) ∈ doc ↔
        ¬ RemovedLater lang t (pre ++ [raw]) post) := by
  simp only [Load, Prod.mk.injEq] at hload
  obtain ⟨hdoc, herr⟩ := hload
  have hloop : loadLoop filename lang (pre ++ raw :: post) 0 ⟨[], []⟩ =
      ((loadLoop filename lang (pre ++ raw :: post) 0 ⟨[], []⟩).1, none) := by
    rw [← herr]
  obtain ⟨st1, st2, hpre, hline, hrest⟩ := loadLoop_split _ _ _ _ _ _ _ _ hloop
  rw [Nat.zero_add] at hline hrest
  have hsnoc := loadLoop_snoc filename lang pre raw st1 st2 _ hpre hline
  have hlen : (pre ++ [raw]).length = pre.length + 1 := by simp
  have hline2 := hline
  rw [loadLine_tokenized _ _ _ _ _ _ _ htok hne, localize_plain lang st1 t hsuf] at hline2
  rcases hp : parseParams filename (pre.length + 1) r with e | ps
  · simp [hp] at hline2
  · simp only [hp, Prod.mk.injEq, and_true] at hline2
    have hst2 : st2.m_lines = st1.m_lines ++ [⟨pre.length + 1, t, ps⟩] := by
      rw [← hline2]
    refine ⟨ps, rfl, ?_, ?_⟩
    · simp only [Load, hsnoc, hst2]
      simp
    · rw [← hdoc]
      have h := survives_iff filename lang ⟨pre.length + 1, t, ps⟩ hne post (pre ++ [raw])
        st2 _ hsnoc (by rw [hlen]; exact hrest) (by rw [hlen])
      rw [h, hst2]
      simp

/-- Witness of C13 as amended: active language `F`, the lines `Foo.E x=1`, `Foo y=2` and
`Bar.F z=3`. -/
theorem unsuffixed_line_kept_iff_witness :
    ∃ ps, parseParams "level.txt".toList (["Foo.E x=1".toList].length + 1) "y=2".toList =
        Except.ok ps ∧
      (Load "level.txt".toList (some (["Foo.E x=1".toList] ++ ["Foo y=2".toList])) 'F'
          []).1.getLast? = some ⟨["Foo.E x=1".toList].length + 1, "Foo".toList, ps⟩ ∧
      ((⟨["Foo.E x=1".toList].length + 1, "Foo".toList, ps⟩ : CLevelParserLine) ∈
          ([⟨1, "Foo".toList, [("x".toList, "1".toList)]⟩,
            ⟨2, "Foo".toList, [("y".toList, "2".toList)]⟩,
            ⟨3, "Bar".toList, [("z".toList, "3".toList)]⟩] : List CLevelParserLine) ↔
        ¬ RemovedLater 'F' "Foo".toList (["Foo.E x=1".toList] ++ ["Foo y=2".toList])
          ["Bar.F z=3".toList]) :=
  unsuffixed_line_kept_iff "level.txt".toList 'F' ["Foo.E x=1".toList] "Foo y=2".toList
    ["Bar.F z=3".toList] "Foo".toList "y=2".toList
    [⟨1, "Foo".toList, [("x".toList, "1".toList)]⟩,
      ⟨2, "Foo".toList, [("y".toList, "2".toList)]⟩,
      ⟨3, "Bar".toList, [("z".toList, "3".toList)]⟩] (by decide) rfl (by decide) (by decide)

end CLevelParser

end Colobot
